import Mathlib

/-!
# OpenDrop: dense-output splines and the Young-Laplace shape model

A shallow embedding of `opendrop/interpolate_detail.hpp` and
`opendrop/younglaplace_detail.hpp`.  `Real` is modelled by `ℚ` (exact
arithmetic); C++ exceptions by `Except Exn`; unchecked `operator[]` reads by
`index`, which reports an out-of-range read instead of hiding it.
-/

namespace opendrop

/-- Exceptions thrown by the library, plus `undefined` for an out-of-range
unchecked read (undefined behaviour in the C++ source). -/
inductive Exn where
  | runtime_error (what : String)
  | domain_error
  | undefined
deriving DecidableEq, Repr

/-! ## The differentiable-value capability -/

/-- The numeric types a templated query `T t` may have: the plain `Real`, or a
forward-mode differentiable value.  Mixed `Real`/`T` arithmetic promotes the
`Real` operand with `ofReal`. -/
class DiffValue (T : Type) where
  /-- Promotion of a plain number. -/
  ofReal : ℚ → T
  /-- The conversion `static_cast<Real>(t)`. -/
  toReal : T → ℚ
  add : T → T → T
  sub : T → T → T
  mul : T → T → T
  neg : T → T
  /-- Division `t / r` by a plain number. -/
  divReal : T → ℚ → T
  /-- Absolute value `abs(t)`. -/
  abs : T → T

namespace DiffValue

instance (priority := low) instAdd {T : Type} [DiffValue T] : Add T := ⟨DiffValue.add⟩
instance (priority := low) instSub {T : Type} [DiffValue T] : Sub T := ⟨DiffValue.sub⟩
instance (priority := low) instMul {T : Type} [DiffValue T] : Mul T := ⟨DiffValue.mul⟩
instance (priority := low) instNeg {T : Type} [DiffValue T] : Neg T := ⟨DiffValue.neg⟩
instance (priority := low) instOfNat {T : Type} [DiffValue T] (k : ℕ) [OfNat ℚ k] : OfNat T k :=
  ⟨DiffValue.ofReal (OfNat.ofNat k)⟩
instance (priority := low) instHDiv {T : Type} [DiffValue T] : HDiv T ℚ T := ⟨DiffValue.divReal⟩

end DiffValue

/-- The plain numeric type `Real` as a query type. -/
instance instDiffValueRat : DiffValue ℚ where
  ofReal r := r
  toReal t := t
  add a b := a + b
  sub a b := a - b
  mul a b := a * b
  neg a := -a
  divReal a r := a / r
  abs a := |a|

/-- Modelled from the spec: the differentiable-value capability
(`boost::math::differentiation::fvar<Real, n>`, which is not part of the
sources), a value carrying its truncated Taylor coefficients `c 0, ..., c n` with
respect to the seeded variable; coefficients above the order `n` are zero. -/
structure FVar (n : ℕ) where
  c : ℕ → ℚ

namespace FVar

variable {n : ℕ}

/-- A promoted plain number: only the order-zero coefficient is set. -/
def const (n : ℕ) (r : ℚ) : FVar n := ⟨fun i => if i = 0 then r else 0⟩

/-- Modelled from the spec: `make_fvar<Real, n>(t)`, the independent variable
seeded at `t`. -/
def make_fvar (n : ℕ) (t : ℚ) : FVar n :=
  ⟨fun i => if i = 0 then t else if i = 1 ∧ 1 ≤ n then 1 else 0⟩

def add (a b : FVar n) : FVar n := ⟨fun i => a.c i + b.c i⟩

def sub (a b : FVar n) : FVar n := ⟨fun i => a.c i - b.c i⟩

def neg (a : FVar n) : FVar n := ⟨fun i => - a.c i⟩

/-- Truncated Cauchy product. -/
def mul (a b : FVar n) : FVar n :=
  ⟨fun i => if i ≤ n then ∑ j in Finset.range (i + 1), a.c j * b.c (i - j) else 0⟩

def divReal (a : FVar n) (r : ℚ) : FVar n := ⟨fun i => a.c i / r⟩

/-- Modelled from the spec: `abs` of a differentiable value, which negates a
negative value, keeps a positive one, and returns the constant zero (all
derivatives zero) at zero. -/
def abs (a : FVar n) : FVar n :=
  if a.c 0 < 0 then neg a else if a.c 0 = 0 then const n 0 else a

/-- The accessor `derivative(i)`: the `i`-th Taylor coefficient times `i!`. -/
def derivative (a : FVar n) (i : ℕ) : ℚ := a.c i * (i.factorial : ℚ)

end FVar

/-- A differentiable value of order `n` as a query type. -/
instance instDiffValueFVar (n : ℕ) : DiffValue (FVar n) where
  ofReal r := FVar.const n r
  toReal t := t.c 0
  add := FVar.add
  sub := FVar.sub
  mul := FVar.mul
  neg := FVar.neg
  divReal := FVar.divReal
  abs := FVar.abs

/-! ## Unchecked vector access -/

/-- The unchecked read `xs[i]` of a `std::vector`; the position is an integer so
that `i - 1` at `i = 0` is out of range rather than silently `0`. -/
def index {α : Type} (xs : List α) (i : ℤ) : Except Exn α :=
  if 0 ≤ i then
    match xs[i.toNat]? with
    | some x => .ok x
    | none => .error .undefined
  else .error .undefined

/-- Modelled from the spec: the loop of `std::upper_bound` (standard library, not
part of the sources), a binary search: while `len > 0`, halve the range
`[first, first + len)` around `middle = first + len/2`, keeping the left half if
`t < *middle` and the part right of `middle` otherwise.  The loop runs at most
`len` times, which is what the first argument counts. -/
def upper_bound_loop (xs : List ℚ) (t : ℚ) : ℕ → ℕ → ℕ → ℕ
  | 0, first, _ => first
  | fuel + 1, first, len =>
    if len > 0 then
      let half := len / 2
      let middle := first + half
      if t < xs.getD middle 0 then
        upper_bound_loop xs t fuel first half
      else
        upper_bound_loop xs t fuel (middle + 1) (len - half - 1)
    else first

/-- Modelled from the spec: `std::distance(begin, std::upper_bound(begin, end, t))`,
the binary search of the standard library; on a sorted range it is the position
of the first element strictly greater than `t` (the size if there is none). -/
def upper_bound (xs : List ℚ) (t : ℚ) : ℕ :=
  upper_bound_loop xs t xs.length 0 xs.length

/-! ## HermiteQuinticSplineND -/

/-- The class `HermiteQuinticSplineND<Real, N>`. -/
structure HermiteQuinticSplineND (N : ℕ) where
  t_breaks : List ℚ
  y_breaks : List (Fin N → ℚ)
  v_breaks : List (Fin N → ℚ)
  a_breaks : List (Fin N → ℚ)

namespace HermiteQuinticSplineND

variable {N : ℕ}

/-- A default-constructed spline. -/
def empty : HermiteQuinticSplineND N := ⟨[], [], [], []⟩

def push_back (self : HermiteQuinticSplineND N) (t : ℚ) (y v a : Fin N → ℚ) :
    HermiteQuinticSplineND N :=
  { t_breaks := self.t_breaks ++ [t]
    y_breaks := self.y_breaks ++ [y]
    v_breaks := self.v_breaks ++ [v]
    a_breaks := self.a_breaks ++ [a] }

/-- The member `domain()`: `{t_breaks.front(), t_breaks.back()}`. -/
def domain (self : HermiteQuinticSplineND N) : Except Exn (ℚ × ℚ) :=
  match self.t_breaks.head?, self.t_breaks.getLast? with
  | some a, some b => .ok (a, b)
  | _, _ => .error .undefined

def check_domain (self : HermiteQuinticSplineND N) (t : ℚ) : Except Exn Unit :=
  if self.t_breaks.length < 1 then
    .error (.runtime_error "Spline is empty")
  else
    match self.t_breaks.head?, self.t_breaks.getLast? with
    | some front, some back =>
      if t < front ∨ t > back then .error .domain_error else .ok ()
    | _, _ => .error .undefined

/-- Segment selection of `operator()`: the last index if `t` is the last
breakpoint, otherwise the `upper_bound` position. -/
def segment (t_breaks : List ℚ) (t : ℚ) : ℤ :=
  if some t = t_breaks.getLast? then
    (t_breaks.length : ℤ) - 1
  else
    (upper_bound t_breaks t : ℤ)

/-- One component of the interpolation formula of `operator()`. -/
def horner {T : Type} [DiffValue T] (dt : ℚ) (x : T) (y0 y1 v0 v1 a0 a1 : ℚ) : T :=
  let x2 := x*x
  let x3 := x2*x
  let ofReal : ℚ → T := DiffValue.ofReal
  (1 - x3*(10 + x*(-15 + 6*x)))*ofReal y0
    + x*(1 + x2*(-6 + x*(8 - 3*x)))*ofReal dt*ofReal v0
    + x2*(1 + x*(-3 + x*(3 - x)))*ofReal dt*ofReal dt/(2 : ℚ)*ofReal a0
    + x3*(
        (1 + x*(-2 + x))*ofReal dt*ofReal dt/(2 : ℚ)*ofReal a1
        + (-4 + x*(7 - 3*x))*ofReal dt*ofReal v1
        + (10 + x*(-15 + 6*x))*ofReal y1
      )

/-- The interpolation on segment `i` (the part of `operator()` after the segment
has been selected). -/
def interpolate {T : Type} [DiffValue T] (self : HermiteQuinticSplineND N) (i : ℤ) (t : T) :
    Except Exn (Fin N → T) := do
  let t0 ← index self.t_breaks (i - 1)
  let t1 ← index self.t_breaks i
  let dt := t1 - t0
  let x : T := (t - DiffValue.ofReal t0) / dt
  let y0 ← index self.y_breaks (i - 1)
  let y1 ← index self.y_breaks i
  let v0 ← index self.v_breaks (i - 1)
  let v1 ← index self.v_breaks i
  let a0 ← index self.a_breaks (i - 1)
  let a1 ← index self.a_breaks i
  return fun j => horner dt x (y0 j) (y1 j) (v0 j) (v1 j) (a0 j) (a1 j)

/-- The member `operator()(T t)`. -/
def call {T : Type} [DiffValue T] (self : HermiteQuinticSplineND N) (t : T) :
    Except Exn (Fin N → T) := do
  self.check_domain (DiffValue.toReal t)
  if self.t_breaks.length = 1 then
    let t0 ← index self.t_breaks 0
    let y0 ← index self.y_breaks 0
    let v0 ← index self.v_breaks 0
    let a0 ← index self.a_breaks 0
    let epsilon : T := t - DiffValue.ofReal t0
    let ofReal : ℚ → T := DiffValue.ofReal
    return fun j => ofReal (y0 j) + epsilon*ofReal (v0 j) + ofReal (1/2)*epsilon*epsilon*ofReal (a0 j)
  else
    let i := segment self.t_breaks (DiffValue.toReal t)
    self.interpolate i t

/-- The splines that exist at run time: a default-constructed spline followed by
any number of `push_back` calls. -/
inductive Built : HermiteQuinticSplineND N → Prop where
  | empty : Built empty
  | push_back (self : HermiteQuinticSplineND N) (t : ℚ) (y v a : Fin N → ℚ) :
      Built self → Built (self.push_back t y v a)

/-- The data-model invariant: breakpoint abscissae strictly increasing. -/
def Increasing (self : HermiteQuinticSplineND N) : Prop :=
  self.t_breaks.Pairwise (· < ·)

/-- Append-only growth: `self.Prefix other` says that the breakpoints of `self`
are the first breakpoints of `other`, in the same order. -/
def Prefix (self other : HermiteQuinticSplineND N) : Prop :=
  self.t_breaks <+: other.t_breaks ∧ self.y_breaks <+: other.y_breaks
    ∧ self.v_breaks <+: other.v_breaks ∧ self.a_breaks <+: other.a_breaks

/-- The first breakpoint is the apex: `s = 0`, `(r, z) = (0, 0)`,
`(dr/ds, dz/ds) = (1, 0)`, stored second derivative `(0, 1)`. -/
def Apex (self : HermiteQuinticSplineND 2) : Prop :=
  self.t_breaks.head? = some 0 ∧ self.y_breaks.head? = some ![0, 0]
    ∧ self.v_breaks.head? = some ![1, 0] ∧ self.a_breaks.head? = some ![0, 1]

end HermiteQuinticSplineND

/-! ## LinearSpline1D -/

/-- The class `LinearSpline1D<Real>`. -/
structure LinearSpline1D where
  t_breaks : List ℚ
  y_breaks : List ℚ
  slopes : List ℚ

namespace LinearSpline1D

/-- A default-constructed spline. -/
def empty : LinearSpline1D := ⟨[], [], []⟩

/-- The member `push_back(t, y)`.  The four reads are in range whenever the two
vectors have the same size, which holds for every spline built by `push_back`. -/
def push_back (self : LinearSpline1D) (t y : ℚ) : LinearSpline1D :=
  let t_breaks := self.t_breaks ++ [t]
  let y_breaks := self.y_breaks ++ [y]
  let i := y_breaks.length - 1
  if i > 0 then
    { t_breaks := t_breaks
      y_breaks := y_breaks
      slopes := self.slopes ++
        [(y_breaks.getD i 0 - y_breaks.getD (i-1) 0)/(t_breaks.getD i 0 - t_breaks.getD (i-1) 0)] }
  else
    { t_breaks := t_breaks, y_breaks := y_breaks, slopes := self.slopes }

/-- The member `domain()`: `{t_breaks.front(), t_breaks.back()}`. -/
def domain (self : LinearSpline1D) : Except Exn (ℚ × ℚ) :=
  match self.t_breaks.head?, self.t_breaks.getLast? with
  | some a, some b => .ok (a, b)
  | _, _ => .error .undefined

def check_domain (self : LinearSpline1D) (t : ℚ) : Except Exn Unit :=
  if self.t_breaks.length < 1 then
    .error (.runtime_error "Spline is empty")
  else
    match self.t_breaks.head?, self.t_breaks.getLast? with
    | some front, some back =>
      if t < front ∨ t > back then .error .domain_error else .ok ()
    | _, _ => .error .undefined

/-- Segment selection of `operator()`: the last index if `t` is the last
breakpoint, otherwise the `upper_bound` position. -/
def segment (t_breaks : List ℚ) (t : ℚ) : ℤ :=
  if some t = t_breaks.getLast? then
    (t_breaks.length : ℤ) - 1
  else
    (upper_bound t_breaks t : ℤ)

/-- The member `operator()(T t)`. -/
def call {T : Type} [DiffValue T] (self : LinearSpline1D) (t : T) : Except Exn T := do
  self.check_domain (DiffValue.toReal t)
  let ofReal : ℚ → T := DiffValue.ofReal
  if self.t_breaks.length = 1 then
    let y0 ← index self.y_breaks 0
    return ofReal y0 + t*0
  else
    let i := segment self.t_breaks (DiffValue.toReal t)
    let t0 ← index self.t_breaks (i - 1)
    let y0 ← index self.y_breaks (i - 1)
    let slope ← index self.slopes (i - 1)
    return ofReal y0 + ofReal slope*(t - ofReal t0)

/-- The splines that exist at run time: a default-constructed spline followed by
any number of `push_back` calls. -/
inductive Built : LinearSpline1D → Prop where
  | empty : Built empty
  | push_back (self : LinearSpline1D) (t y : ℚ) : Built self → Built (self.push_back t y)

/-- The data-model invariant: breakpoint abscissae strictly increasing. -/
def Increasing (self : LinearSpline1D) : Prop :=
  self.t_breaks.Pairwise (· < ·)

end LinearSpline1D

/-! ## The adaptive-integrator capability -/

/-- A serial `N_Vector` of length 4. -/
abbrev Vec4 := Fin 4 → ℚ

/-- Modelled from the spec: what one call
`ERKStepEvolve(mem, tout, nv, &tcur, ARK_ONE_STEP)` of the adaptive integrator
(ARKode, not part of the sources) does, seen from the caller: the integrator asks for right-hand-side values at points of its
own choosing and finally reports its flag, its new memory, the new state vector
and the new time. -/
inductive Evolve (Mem : Type) where
  | done (flag : ℤ) (mem : Mem) (nv : Vec4) (tcur : ℚ)
  | rhs (s : ℚ) (y : Vec4) (k : Vec4 → Evolve Mem)

/-- The right-hand-side callbacks an integrator can be created with. -/
inductive Rhs where
  | arkrhs
  | arkrhs_DBo
deriving DecidableEq, Repr

/-- The external collaborators: the ARKode `ERKStep` integrator, consumed as an
interface, and `std::numeric_limits<realtype>::denorm_min()`.  Functions that
return a flag return it first; `tout = none` is an infinite horizon.  The root
function `arkroot` is the fixed projection to `dz/ds`, so it is not a callback
here. -/
structure Externals where
  /-- The type of `arkode_mem`. -/
  Mem : Type
  ERKStepCreate : Rhs → ℚ → Vec4 → Option Mem
  ERKStepReInit : Mem → Rhs → ℚ → Vec4 → ℤ × Mem
  ERKStepRootInit : Mem → ℕ → ℤ × Mem
  ERKStepSetUserData : Mem → ℤ × Mem
  ERKStepSetTableNum : Mem → ℤ × Mem
  ERKStepSStolerances : Mem → ℚ → ℚ → ℤ × Mem
  ERKStepGetCurrentTime : Mem → ℤ × ℚ
  ERKStepEvolve : Mem → Option ℚ → Vec4 → Evolve Mem
  denorm_min : ℚ

/-- Modelled from the spec: the integrator's flag for success. -/
def ARK_SUCCESS : ℤ := 0

/-- Modelled from the spec: the integrator's flag for a step that stopped at a
root of the event function; it is not a failure. -/
def ARK_ROOT_RETURN : ℤ := 2

/-- Modelled from the spec: the integrator's flag for a missing memory block. -/
def ARK_MEM_NULL : ℤ := -21

/-- Modelled from the spec: the integrator's flag for a rejected argument. -/
def ARK_ILL_INPUT : ℤ := -22

/-- The outcome of a member function that may loop: `none` if the loop did not
finish within the fuel, otherwise the value returned or the exception thrown,
together with the state of the object at that point. -/
abbrev Outcome (σ α : Type) := Option (Except Exn α × σ)

/-- The exception a call ended with, if it ended with one. -/
def thrown {σ α : Type} : Outcome σ α → Option Exn
  | some (.error e, _) => some e
  | _ => none

/-- The value a call returned, if it returned one. -/
def returned {σ α : Type} : Outcome σ α → Option α
  | some (.ok a, _) => some a
  | _ => none

/-- The state of the object after a call that ended within the fuel. -/
def state_after {σ α : Type} : Outcome σ α → Option σ
  | some (_, st) => some st
  | none => none

namespace Evolve

variable {Mem : Type}

/-- Runs one integrator call against a right-hand side without side effects. -/
def run (rhs : ℚ → Vec4 → Vec4) : Evolve Mem → ℤ × Mem × Vec4 × ℚ
  | .done flag mem nv tcur => (flag, mem, nv, tcur)
  | .rhs s y k => run rhs (k (rhs s y))

/-- Runs one integrator call against a right-hand side that reads and updates
the state `σ` and may throw; an exception ends the call. -/
def runM {σ : Type} (rhs : σ → ℚ → Vec4 → Outcome σ Vec4) :
    Evolve Mem → σ → Outcome σ (ℤ × Mem × Vec4 × ℚ)
  | .done flag mem nv tcur, st => some (.ok (flag, mem, nv, tcur), st)
  | .rhs s y k, st =>
    match rhs st s y with
    | none => none
    | some (.error e, st) => some (.error e, st)
    | some (.ok dy, st) => runM rhs (k dy) st

/-- The ways one integrator call can end: `Leaf t flag mem nv tcur` says that for
some answers of the right-hand side the call `t` reports `flag`, `mem`, `nv` and
`tcur`. -/
inductive Leaf : Evolve Mem → ℤ → Mem → Vec4 → ℚ → Prop where
  | done (flag : ℤ) (mem : Mem) (nv : Vec4) (tcur : ℚ) : Leaf (.done flag mem nv tcur) flag mem nv tcur
  | rhs (s : ℚ) (y : Vec4) (k : Vec4 → Evolve Mem) (dy : Vec4) (flag : ℤ) (mem : Mem) (nv : Vec4)
      (tcur : ℚ) : Leaf (k dy) flag mem nv tcur → Leaf (.rhs s y k) flag mem nv tcur

end Evolve

namespace Externals

/-- The current time of an integrator, as `ERKStepGetCurrentTime` reports it. -/
def time (E : Externals) (mem : E.Mem) : ℚ := (E.ERKStepGetCurrentTime mem).2

/-- The horizon that `step()` and `step_DBo()` pass to `ERKStepEvolve`: `0.1` for
the first step, infinity afterwards. -/
def tnext (E : Externals) (mem : E.Mem) : Option ℚ :=
  if E.time mem = 0 then some (E.time mem + 1/10) else none

/-- The assumption that each integrator step strictly advances the integrator's
own current time: an integrator is created at its initial time, the setup calls
leave the time alone, and a step taken from a time `≥ 0` with the horizon the
model passes never moves the time back and, unless it fails, reports a time
`tcur` strictly after the time it started from and not after its new time. -/
structure Advancing (E : Externals) : Prop where
  create : ∀ rhs t0 nv mem, E.ERKStepCreate rhs t0 nv = some mem → E.time mem = t0
  rootInit : ∀ mem n, E.time (E.ERKStepRootInit mem n).2 = E.time mem
  setUserData : ∀ mem, E.time (E.ERKStepSetUserData mem).2 = E.time mem
  setTableNum : ∀ mem, E.time (E.ERKStepSetTableNum mem).2 = E.time mem
  sStolerances : ∀ mem rtol atol, E.time (E.ERKStepSStolerances mem rtol atol).2 = E.time mem
  evolve : ∀ mem nv flag mem' nv' tcur, 0 ≤ E.time mem →
    (E.ERKStepEvolve mem (E.tnext mem) nv).Leaf flag mem' nv' tcur →
    E.time mem ≤ E.time mem' ∧ (0 ≤ flag → E.time mem < tcur ∧ tcur ≤ E.time mem')

end Externals

/-! ## YoungLaplaceShape -/

/-- The class `YoungLaplaceShape<realtype>`. -/
structure YoungLaplaceShape (E : Externals) where
  bond : ℚ
  dense : HermiteQuinticSplineND 2
  dense_DBo : HermiteQuinticSplineND 2
  dense_z_inv : LinearSpline1D
  max_z_solved : Bool
  arkode_mem : E.Mem
  nv : Vec4
  arkode_mem_DBo : E.Mem
  nv_DBo : Vec4

namespace YoungLaplaceShape

variable {E : Externals}

def RTOL : ℚ := 1/10000
def ATOL : ℚ := 1/1000000000
def MAX_ARCLENGTH : ℚ := 100
def CLOSEST_TOL : ℚ := 1/1000000
def MAX_CLOSEST_ITER : ℕ := 10

/-- The static member `ode` (the argument `s` is unused). -/
def ode (self : YoungLaplaceShape E) (y dy_ds : Fin 2 → ℚ) : Fin 2 → ℚ :=
  let INFITESIMAL := E.denorm_min
  let r := y 0
  let z := y 1
  let dr_ds := dy_ds 0
  let dz_ds := dy_ds 1
  let dphi_ds := 2 - self.bond*z - (dz_ds + INFITESIMAL)/(r + INFITESIMAL)
  ![-dz_ds * dphi_ds, dr_ds * dphi_ds]

/-- The static member `arkrhs`. -/
def arkrhs (self : YoungLaplaceShape E) (_s : ℚ) (nv : Vec4) : Vec4 :=
  let y : Fin 2 → ℚ := ![nv 0, nv 1]
  let dy_ds : Fin 2 → ℚ := ![nv 2, nv 3]
  let out_d2y_ds2 := ode self y dy_ds
  ![dy_ds 0, dy_ds 1, out_d2y_ds2 0, out_d2y_ds2 1]

/-- The member `check_domain(T s)`. -/
def check_domain {T : Type} [DiffValue T] (s : T) : Except Exn Unit :=
  if DiffValue.toReal s < -MAX_ARCLENGTH ∨ DiffValue.toReal s > MAX_ARCLENGTH then
    .error .domain_error
  else .ok ()

/-- The member `step()`. -/
def step (self : YoungLaplaceShape E) : Except Exn Unit × YoungLaplaceShape E :=
  let (flag, tcur) := E.ERKStepGetCurrentTime self.arkode_mem
  if flag = ARK_MEM_NULL then (.error (.runtime_error "ARK_MEM_NULL"), self) else
  let tnext : Option ℚ := if tcur = 0 then some (tcur + 1/10) else none
  let (flag, mem, nv, tcur) := (E.ERKStepEvolve self.arkode_mem tnext self.nv).run (arkrhs self)
  let self := { self with arkode_mem := mem, nv := nv }
  if flag < 0 then (.error (.runtime_error "ERKStepEvolve() failed."), self) else
  let max_z_just_solved : Bool := flag = ARK_ROOT_RETURN
  let y : Fin 2 → ℚ := ![nv 0, nv 1]
  let dy_ds : Fin 2 → ℚ := ![nv 2, nv 3]
  let d2y_ds2 := ode self y dy_ds
  let self := { self with dense := self.dense.push_back tcur y dy_ds d2y_ds2 }
  if !self.max_z_solved then
    let self := { self with dense_z_inv := self.dense_z_inv.push_back (y 1) tcur }
    if max_z_just_solved then
      (.ok (), { self with arkode_mem := (E.ERKStepRootInit self.arkode_mem 0).2
                           max_z_solved := true })
    else (.ok (), self)
  else (.ok (), self)

/-- The loop `while (std::get<1>(dense.domain()) < target) step();`. -/
def step_while : ℕ → YoungLaplaceShape E → ℚ → Outcome (YoungLaplaceShape E) Unit
  | fuel, self, target =>
    match self.dense.domain with
    | .error e => some (.error e, self)
    | .ok (_, back) =>
      if back < target then
        match fuel with
        | 0 => none
        | fuel + 1 =>
          match step self with
          | (.error e, self) => some (.error e, self)
          | (.ok (), self) => step_while fuel self target
      else some (.ok (), self)

/-- The member `operator()(T s)`. -/
def call {T : Type} [DiffValue T] (fuel : ℕ) (self : YoungLaplaceShape E) (s : T) :
    Outcome (YoungLaplaceShape E) (Fin 2 → T) :=
  match check_domain s with
  | .error e => some (.error e, self)
  | .ok () =>
    let s_abs : T := if DiffValue.toReal s ≥ 0 then s else -s
    match step_while fuel self (min (DiffValue.toReal s_abs) MAX_ARCLENGTH) with
    | none => none
    | some (.error e, self) => some (.error e, self)
    | some (.ok (), self) =>
      match self.dense.call s_abs with
      | .error e => some (.error e, self)
      | .ok ans =>
        some (.ok (if DiffValue.toReal s < 0 then Function.update ans 0 (ans 0 * (-1)) else ans),
          self)

/-- The static member `ode_DBo`; evaluating the shape may extend the shape cache. -/
def ode_DBo (fuel : ℕ) (self : YoungLaplaceShape E) (s : ℚ) (y dy_ds : Fin 2 → ℚ) :
    Outcome (YoungLaplaceShape E) (Fin 2 → ℚ) :=
  let INFITESIMAL := E.denorm_min
  let dr_dBo := y 0
  let dz_dBo := y 1
  let d2r_dBods := dy_ds 0
  let d2z_dBods := dy_ds 1
  match call fuel self (FVar.make_fvar 1 s) with
  | none => none
  | some (.error e, self) => some (.error e, self)
  | some (.ok f, self) =>
    let r := (f 0).derivative 0
    let z := (f 1).derivative 0
    let dr_ds := (f 0).derivative 1
    let dz_ds := (f 1).derivative 1
    let dphi_ds := 2 - self.bond*z - (dz_ds + INFITESIMAL)/(r + INFITESIMAL)
    let d2phi_dBods := -z - dz_dBo*self.bond - d2z_dBods/(r + INFITESIMAL)
      + dr_dBo*dz_ds/(r*r + INFITESIMAL)
    some (.ok ![-d2z_dBods * dphi_ds - dz_ds * d2phi_dBods,
                d2r_dBods * dphi_ds + dr_ds * d2phi_dBods], self)

/-- The static member `arkrhs_DBo`. -/
def arkrhs_DBo (fuel : ℕ) (self : YoungLaplaceShape E) (s : ℚ) (nv : Vec4) :
    Outcome (YoungLaplaceShape E) Vec4 :=
  let y : Fin 2 → ℚ := ![nv 0, nv 1]
  let dy_ds : Fin 2 → ℚ := ![nv 2, nv 3]
  match ode_DBo fuel self s y dy_ds with
  | none => none
  | some (.error e, self) => some (.error e, self)
  | some (.ok out_d2y_ds2, self) =>
    some (.ok ![dy_ds 0, dy_ds 1, out_d2y_ds2 0, out_d2y_ds2 1], self)

/-- The member `step_DBo()`.  An exception thrown by the right-hand side during
`ERKStepEvolve` leaves `arkode_mem_DBo` and `nv_DBo` as they were before the call. -/
def step_DBo (fuel : ℕ) (self : YoungLaplaceShape E) : Outcome (YoungLaplaceShape E) Unit :=
  let (flag, tcur) := E.ERKStepGetCurrentTime self.arkode_mem_DBo
  if flag = ARK_MEM_NULL then some (.error (.runtime_error "ARK_MEM_NULL"), self) else
  let tnext : Option ℚ := if tcur = 0 then some (tcur + 1/10) else none
  match (E.ERKStepEvolve self.arkode_mem_DBo tnext self.nv_DBo).runM (arkrhs_DBo fuel) self with
  | none => none
  | some (.error e, self) => some (.error e, self)
  | some (.ok (flag, mem, nv_DBo, tcur), self) =>
    let self := { self with arkode_mem_DBo := mem, nv_DBo := nv_DBo }
    if flag < 0 then some (.error (.runtime_error "ERKStepEvolve() failed."), self) else
    let y : Fin 2 → ℚ := ![nv_DBo 0, nv_DBo 1]
    let dy_ds : Fin 2 → ℚ := ![nv_DBo 2, nv_DBo 3]
    match ode_DBo fuel self self.bond y dy_ds with
    | none => none
    | some (.error e, self) => some (.error e, self)
    | some (.ok d2y_ds2, self) =>
      some (.ok (), { self with dense_DBo := self.dense_DBo.push_back tcur y dy_ds d2y_ds2 })

/-- The loop `while (std::get<1>(dense_DBo.domain()) < target) step_DBo();`. -/
def step_DBo_while (fuel : ℕ) :
    ℕ → YoungLaplaceShape E → ℚ → Outcome (YoungLaplaceShape E) Unit
  | n, self, target =>
    match self.dense_DBo.domain with
    | .error e => some (.error e, self)
    | .ok (_, back) =>
      if back < target then
        match n with
        | 0 => none
        | n + 1 =>
          match step_DBo fuel self with
          | none => none
          | some (.error e, self) => some (.error e, self)
          | some (.ok (), self) => step_DBo_while fuel n self target
      else some (.ok (), self)

/-- The member `DBo(T s)`. -/
def DBo {T : Type} [DiffValue T] (fuel : ℕ) (self : YoungLaplaceShape E) (s : T) :
    Outcome (YoungLaplaceShape E) (Fin 2 → T) :=
  match check_domain s with
  | .error e => some (.error e, self)
  | .ok () =>
    let s_abs : T := DiffValue.abs s
    match step_DBo_while fuel fuel self (min (DiffValue.toReal s_abs) MAX_ARCLENGTH) with
    | none => none
    | some (.error e, self) => some (.error e, self)
    | some (.ok (), self) =>
      match self.dense_DBo.call s_abs with
      | .error e => some (.error e, self)
      | .ok ans =>
        some (.ok (if DiffValue.toReal s < 0 then Function.update ans 0 (ans 0 * (-1)) else ans),
          self)

/-- The constructor `YoungLaplaceShape(realtype bond)`; the allocations
`N_VNew_Serial(4)` are taken to succeed. -/
def new (E : Externals) (bond : ℚ) : Except Exn (YoungLaplaceShape E) := do
  -- Initial conditions.
  let nv : Vec4 := ![0, 0, 1, 0]
  let nv_DBo : Vec4 := ![0, 0, 0, 0]
  let a0 : Fin 2 → ℚ := ![0, 1]
  let dense := HermiteQuinticSplineND.empty.push_back 0 ![nv 0, nv 1] ![nv 2, nv 3] a0
  let a0_DBo : Fin 2 → ℚ := ![0, 0]
  let dense_DBo :=
    HermiteQuinticSplineND.empty.push_back 0 ![nv_DBo 0, nv_DBo 1] ![nv_DBo 2, nv_DBo 3] a0_DBo
  let dense_z_inv := LinearSpline1D.empty.push_back 0 0
  let some arkode_mem := E.ERKStepCreate .arkrhs 0 nv
    | throw (.runtime_error "ERKStepCreate() failed.")
  let (flag, arkode_mem) := E.ERKStepRootInit arkode_mem 1
  if flag ≠ ARK_SUCCESS then throw (.runtime_error "ERKStepRootInit() failed.")
  let (flag, arkode_mem) := E.ERKStepSetUserData arkode_mem
  if flag ≠ ARK_SUCCESS then throw (.runtime_error "ERKStepSetUserData() failed.")
  let (flag, arkode_mem) := E.ERKStepSetTableNum arkode_mem
  if flag ≠ ARK_SUCCESS then throw (.runtime_error "ERKStepSetTableNum() failed.")
  let (flag, arkode_mem) := E.ERKStepSStolerances arkode_mem RTOL ATOL
  if flag = ARK_ILL_INPUT then throw .domain_error
  if flag ≠ ARK_SUCCESS then throw (.runtime_error "ERKStepSStolerances() failed.")
  let some arkode_mem_DBo := E.ERKStepCreate .arkrhs_DBo 0 nv_DBo
    | throw (.runtime_error "ERKStepCreate() failed.")
  let (flag, arkode_mem_DBo) := E.ERKStepSetUserData arkode_mem_DBo
  if flag ≠ ARK_SUCCESS then throw (.runtime_error "ERKStepSetUserData() failed.")
  let (flag, arkode_mem_DBo) := E.ERKStepSetTableNum arkode_mem_DBo
  if flag ≠ ARK_SUCCESS then throw (.runtime_error "ERKStepSetTableNum() failed.")
  let (flag, arkode_mem_DBo) := E.ERKStepSStolerances arkode_mem_DBo RTOL ATOL
  if flag = ARK_ILL_INPUT then throw .domain_error
  if flag ≠ ARK_SUCCESS then throw (.runtime_error "ERKStepSStolerances() failed.")
  return { bond := bond, dense := dense, dense_DBo := dense_DBo, dense_z_inv := dense_z_inv
           max_z_solved := false, arkode_mem := arkode_mem, nv := nv
           arkode_mem_DBo := arkode_mem_DBo, nv_DBo := nv_DBo }

/-- The copy constructor `YoungLaplaceShape(const YoungLaplaceShape &other)`: it
delegates to `YoungLaplaceShape(other.bond)` and then assigns `dense`,
`dense_DBo` and `max_z_solved` from `other`. -/
def copy (other : YoungLaplaceShape E) : Except Exn (YoungLaplaceShape E) := do
  let self ← new E other.bond
  -- Reuse cached results.
  return { self with dense := other.dense, dense_DBo := other.dense_DBo
                     max_z_solved := other.max_z_solved }

/-- The copy assignment `operator=(const YoungLaplaceShape &other)`. -/
def operator_assign (self other : YoungLaplaceShape E) :
    Except Exn Unit × YoungLaplaceShape E :=
  let self := { self with bond := other.bond }
  -- Reuse cached results.
  let self := { self with dense := other.dense, dense_DBo := other.dense_DBo
                          max_z_solved := other.max_z_solved }
  -- Initial conditions.
  let self := { self with nv := ![0, 0, 1, 0], nv_DBo := ![0, 0, 0, 0] }
  let (flag, mem) := E.ERKStepReInit self.arkode_mem .arkrhs 0 self.nv
  let self := { self with arkode_mem := mem }
  if flag ≠ ARK_SUCCESS then (.error (.runtime_error "ERKStepReInit() failed."), self) else
  let (flag, mem) := E.ERKStepReInit self.arkode_mem_DBo .arkrhs_DBo 0 self.nv_DBo
  let self := { self with arkode_mem_DBo := mem }
  if flag ≠ ARK_SUCCESS then (.error (.runtime_error "ERKStepReInit() failed."), self) else
  let (flag, mem) :=
    if self.max_z_solved then E.ERKStepRootInit self.arkode_mem 0
    else E.ERKStepRootInit self.arkode_mem 1
  let self := { self with arkode_mem := mem }
  if flag ≠ ARK_SUCCESS then (.error (.runtime_error "ERKStepRootInit() failed."), self) else
  (.ok (), self)

/-- The loop
`while (std::get<1>(dense_z_inv.domain()) < static_cast<realtype>(z) && !max_z_solved) step();`
of `z_inv`. -/
def z_inv_while : ℕ → YoungLaplaceShape E → ℚ → Outcome (YoungLaplaceShape E) Unit
  | fuel, self, z =>
    match self.dense_z_inv.domain with
    | .error e => some (.error e, self)
    | .ok (_, back) =>
      if back < z ∧ !self.max_z_solved then
        match fuel with
        | 0 => none
        | fuel + 1 =>
          match step self with
          | (.error e, self) => some (.error e, self)
          | (.ok (), self) => z_inv_while fuel self z
      else some (.ok (), self)

/-- The member `z_inv(T z)`. -/
def z_inv {T : Type} [DiffValue T] (fuel : ℕ) (self : YoungLaplaceShape E) (z : T) :
    Outcome (YoungLaplaceShape E) T :=
  match z_inv_while fuel self (DiffValue.toReal z) with
  | none => none
  | some (.error e, self) => some (.error e, self)
  | some (.ok (), self) =>
    match self.dense_z_inv.domain with
    | .error e => some (.error e, self)
    | .ok (front, back) =>
      if DiffValue.toReal z < front ∨ DiffValue.toReal z > back then
        some (.error .domain_error, self)
      else
        match self.dense_z_inv.call z with
        | .error e => some (.error e, self)
        | .ok ans => some (.ok ans, self)

/-- The `for` loop of `closest`, with `n` iterations left and current iterate
`s`.  The quotient of the Newton step is the exact one; where the curvature
`e2.derivative(2)` is zero, floating point gives an infinity or a NaN, which
exact arithmetic does not have, and the quotient here is `0`. -/
def closest_loop (fuel : ℕ) (r z : ℚ) :
    ℕ → YoungLaplaceShape E → ℚ → Outcome (YoungLaplaceShape E) ℚ
  | 0, self, s => some (.ok s, self)
  | n + 1, self, s =>
    let s_prev := s
    match call fuel self (FVar.make_fvar 2 s) with
    | none => none
    | some (.error e, self) => some (.error e, self)
    | some (.ok predict, self) =>
      let e_r : FVar 2 := DiffValue.ofReal r - predict 0
      let e_z : FVar 2 := DiffValue.ofReal z - predict 1
      let e2 := e_r*e_r + e_z*e_z
      let s := s - e2.derivative 1 / |e2.derivative 2|
      -- Restrict s within solution domain.
      let s := if s > MAX_ARCLENGTH then MAX_ARCLENGTH
        else if s < -MAX_ARCLENGTH then -MAX_ARCLENGTH else s
      if |s - s_prev| < CLOSEST_TOL then some (.ok s, self)
      else closest_loop fuel r z n self s

/-- The initial guess of `closest`: the point with height equal to `z`; a
`std::domain_error` from `z_inv` is caught and replaced by `MAX_ARCLENGTH`. -/
def closest_guess (fuel : ℕ) (self : YoungLaplaceShape E) (z : ℚ) :
    Outcome (YoungLaplaceShape E) ℚ :=
  if z > 0 then
    match z_inv fuel self z with
    | none => none
    | some (.error .domain_error, self) => some (.ok MAX_ARCLENGTH, self)
    | some (.error e, self) => some (.error e, self)
    | some (.ok s, self) => some (.ok s, self)
  else some (.ok 0, self)

/-- The member `closest(realtype r, realtype z)`. -/
def closest (fuel : ℕ) (self : YoungLaplaceShape E) (r z : ℚ) :
    Outcome (YoungLaplaceShape E) ℚ :=
  match closest_guess fuel self z with
  | none => none
  | some (.error e, self) => some (.error e, self)
  | some (.ok s, self) =>
    let s := if r < 0 then s * (-1) else s
    closest_loop fuel r z MAX_CLOSEST_ITER self s

/-- The model states reached from construction by queries: any sequence of
`operator()`, `DBo`, `z_inv` and `closest` calls, of any query type, that end
within their fuel, whether they return or throw. -/
inductive Queried : YoungLaplaceShape E → Prop where
  | new (bond : ℚ) (m : YoungLaplaceShape E) : new E bond = .ok m → Queried m
  | call {T : Type} [DiffValue T] (fuel : ℕ) (m : YoungLaplaceShape E) (s : T)
      (r : Except Exn (Fin 2 → T)) (m' : YoungLaplaceShape E) :
      Queried m → call fuel m s = some (r, m') → Queried m'
  | DBo {T : Type} [DiffValue T] (fuel : ℕ) (m : YoungLaplaceShape E) (s : T)
      (r : Except Exn (Fin 2 → T)) (m' : YoungLaplaceShape E) :
      Queried m → DBo fuel m s = some (r, m') → Queried m'
  | z_inv {T : Type} [DiffValue T] (fuel : ℕ) (m : YoungLaplaceShape E) (z : T)
      (r : Except Exn T) (m' : YoungLaplaceShape E) :
      Queried m → z_inv fuel m z = some (r, m') → Queried m'
  | closest (fuel : ℕ) (m : YoungLaplaceShape E) (r z : ℚ)
      (res : Except Exn ℚ) (m' : YoungLaplaceShape E) :
      Queried m → closest fuel m r z = some (res, m') → Queried m'

/-- The invariant of the shape side of a model: the shape cache is built by
`push_back`, starts at the apex, is strictly increasing, and none of its
breakpoints lies after the current time of the shape integrator. -/
def InvS (m : YoungLaplaceShape E) : Prop :=
  m.dense.Built ∧ m.dense.Apex ∧ m.dense.Increasing
    ∧ ∀ t ∈ m.dense.t_breaks, t ≤ E.time m.arkode_mem

/-- The invariant of the sensitivity side of a model: the sensitivity cache is
strictly increasing and none of its breakpoints lies after the current time of
the sensitivity integrator, which is not negative. -/
def InvD (m : YoungLaplaceShape E) : Prop :=
  m.dense_DBo.Increasing ∧ 0 ≤ E.time m.arkode_mem_DBo
    ∧ ∀ t ∈ m.dense_DBo.t_breaks, t ≤ E.time m.arkode_mem_DBo

/-- What a call that only steps the shape may do to a model: it leaves the Bond
number and the sensitivity side alone, only appends to the shape cache, and
keeps the invariant of the shape side if steps advance. -/
structure ShapeExt (m m' : YoungLaplaceShape E) : Prop where
  bond : m'.bond = m.bond
  dense_DBo : m'.dense_DBo = m.dense_DBo
  mem_DBo : m'.arkode_mem_DBo = m.arkode_mem_DBo
  nv_DBo : m'.nv_DBo = m.nv_DBo
  pref : m.dense.Prefix m'.dense
  inv : E.Advancing → InvS m → InvS m'

/-- What any query may do to a model: it only appends to the shape cache and to
the sensitivity cache, and keeps both invariants if steps advance. -/
structure Ext (m m' : YoungLaplaceShape E) : Prop where
  pref : m.dense.Prefix m'.dense
  pref_DBo : m.dense_DBo.Prefix m'.dense_DBo
  inv : E.Advancing → InvS m ∧ InvD m → InvS m' ∧ InvD m'

/-- The model states reached from construction by shape queries that returned. -/
inductive Evaluated : YoungLaplaceShape E → Prop where
  | new (bond : ℚ) (m : YoungLaplaceShape E) : new E bond = .ok m → Evaluated m
  | call {T : Type} [DiffValue T] (fuel : ℕ) (m : YoungLaplaceShape E) (s : T)
      (r : Fin 2 → T) (m' : YoungLaplaceShape E) :
      Evaluated m → call fuel m s = some (.ok r, m') → Evaluated m'

/-- The states on the way of the shape integrator: `Trail m0 k m` says that `m`
is `m0` after `k` calls of `step()` that returned. -/
inductive Trail (m0 : YoungLaplaceShape E) : ℕ → YoungLaplaceShape E → Prop where
  | zero : Trail m0 0 m0
  | succ (k : ℕ) (m m' : YoungLaplaceShape E) :
      Trail m0 k m → step m = (.ok (), m') → Trail m0 (k + 1) m'

/-- The assumption that re-initialising restores a new integrator:
`ERKStepReInit` at `s = 0` with the initial state vector, followed by arming root
finding, leaves any shape integrator in the state that the constructor sets up. -/
def Restarting (E : Externals) : Prop :=
  ∀ (bond : ℚ) (m0 : YoungLaplaceShape E), new E bond = .ok m0 → ∀ mem : E.Mem,
    (E.ERKStepRootInit (E.ERKStepReInit mem .arkrhs 0 ![0, 0, 1, 0]).2 1).2 = m0.arkode_mem

/-- A model `c` that integrates again from `s = 0` behind a cache `D` it already
holds, next to a model `o` that integrates from `s = 0` with an empty cache: the
shape integrators, the Bond numbers and the latches agree, and the shape cache
of `c` is `D` followed by what `o` has appended to its first breakpoint. -/
structure Shadow (D : HermiteQuinticSplineND 2) (o c : YoungLaplaceShape E) : Prop where
  bond : c.bond = o.bond
  mem : c.arkode_mem = o.arkode_mem
  nv : c.nv = o.nv
  latch : c.max_z_solved = o.max_z_solved
  t : c.dense.t_breaks = D.t_breaks ++ o.dense.t_breaks.tail
  y : c.dense.y_breaks = D.y_breaks ++ o.dense.y_breaks.tail
  v : c.dense.v_breaks = D.v_breaks ++ o.dense.v_breaks.tail
  a : c.dense.a_breaks = D.a_breaks ++ o.dense.a_breaks.tail

end YoungLaplaceShape

/-! ## Concrete instances used to exercise the definitions -/

namespace Example

/-- An integrator whose memory is its current time.  A step with a finite
horizon `tout` goes to `tout`; a step with an infinite horizon multiplies the
current time by `g`.  Every step asks once for the right-hand side, at the end
of the step, and leaves the state vector as it was. -/
def stepper (g : ℚ) : Externals where
  Mem := ℚ
  ERKStepCreate _ t0 _ := some t0
  ERKStepReInit _ _ t0 _ := (ARK_SUCCESS, t0)
  ERKStepRootInit mem _ := (ARK_SUCCESS, mem)
  ERKStepSetUserData mem := (ARK_SUCCESS, mem)
  ERKStepSetTableNum mem := (ARK_SUCCESS, mem)
  ERKStepSStolerances mem _ _ := (ARK_SUCCESS, mem)
  ERKStepGetCurrentTime mem := (ARK_SUCCESS, mem)
  ERKStepEvolve mem tout nv :=
    let tnew : ℚ := match tout with
      | some tout => tout
      | none => g * mem
    .rhs tnew nv (fun _ => .done ARK_SUCCESS tnew nv tnew)
  denorm_min := 1 / 2 ^ 1074

/-- The quintic spline of `test_hermite_quintic_spline_call`. -/
def sine : HermiteQuinticSplineND 1 :=
  (HermiteQuinticSplineND.empty.push_back 0 ![0] ![1] ![0]).push_back 1
    ![841470984808 / 1000000000000] ![540302305868 / 1000000000000]
    ![-841470984808 / 1000000000000]

/-- A quintic spline with three breakpoints. -/
def three : HermiteQuinticSplineND 1 :=
  ((HermiteQuinticSplineND.empty.push_back 0 ![1] ![2] ![3]).push_back 2 ![4] ![5] ![6]).push_back
    3 ![7] ![8] ![9]

/-- The quintic spline of `test_hermite_quintic_spline_single_breakpoint`. -/
def single : HermiteQuinticSplineND 1 :=
  HermiteQuinticSplineND.empty.push_back 1 ![2] ![3] ![4]

/-- The linear spline of `test_linear_spline_1d_call`. -/
def line : LinearSpline1D :=
  (LinearSpline1D.empty.push_back 0 0).push_back 1 1

/-- The linear spline of `test_linear_spline_1d_single_breakpoint`. -/
def point : LinearSpline1D :=
  LinearSpline1D.empty.push_back 1 2

/-- A model over the integrator with growth factor `3` whose shape and
sensitivity caches reach arclength `3/10`. -/
def drop : YoungLaplaceShape (stepper 3) where
  bond := 21 / 100
  dense := ((HermiteQuinticSplineND.empty.push_back 0 ![0, 0] ![1, 0] ![0, 1]).push_back (1 / 10)
    ![1 / 10, 1 / 200] ![99 / 100, 1 / 10] ![-1 / 10, 1]).push_back (3 / 10)
    ![3 / 10, 9 / 200] ![19 / 20, 3 / 10] ![-3 / 10, 19 / 20]
  dense_DBo := ((HermiteQuinticSplineND.empty.push_back 0 ![0, 0] ![0, 0] ![0, 0]).push_back
    (1 / 10) ![1 / 1000, -1 / 500] ![1 / 40, -1 / 20] ![1 / 3, -1]).push_back (3 / 10)
    ![1 / 100, -1 / 50] ![1 / 10, -1 / 5] ![1 / 2, -1]
  dense_z_inv := ((LinearSpline1D.empty.push_back 0 0).push_back (1 / 200) (1 / 10)).push_back
    (9 / 200) (3 / 10)
  max_z_solved := false
  arkode_mem := (3 / 10 : ℚ)
  nv := ![3 / 10, 9 / 200, 19 / 20, 3 / 10]
  arkode_mem_DBo := (3 / 10 : ℚ)
  nv_DBo := ![1 / 100, -1 / 50, 1 / 10, -1 / 5]

/-- The model that `YoungLaplaceShape(0.21)` constructs over the integrator with
growth factor `3`, whose steps end at `0.1, 0.3, 0.9, 2.7, 8.1, 24.3, 72.9, 218.7`. -/
def fresh : YoungLaplaceShape (stepper 3) where
  bond := 21 / 100
  dense := HermiteQuinticSplineND.empty.push_back 0 ![0, 0] ![1, 0] ![0, 1]
  dense_DBo := HermiteQuinticSplineND.empty.push_back 0 ![0, 0] ![0, 0] ![0, 0]
  dense_z_inv := LinearSpline1D.empty.push_back 0 0
  max_z_solved := false
  arkode_mem := (0 : ℚ)
  nv := ![0, 0, 1, 0]
  arkode_mem_DBo := (0 : ℚ)
  nv_DBo := ![0, 0, 0, 0]

/-- The state vector that the integrator `tracker root` reports at time `t`:
`r = t`, `z = t (2 root - t)`, `dr/ds = 1`, `dz/ds = 2 (root - t)`; the height
has its maximum at `t = root`. -/
def path (root t : ℚ) : Vec4 := ![t, t * (2 * root - t), 1, 2 * (root - t)]

/-- An integrator with root finding.  Its memory is its current time, whether
root finding is armed, and the right-hand side it was created with.  Steps end
where those of `stepper 3` end, except that an armed step that would pass
`t = root` ends there with `ARK_ROOT_RETURN`.  The integrator of the shape
reports the state `path root t`; the integrator of the sensitivity leaves its
state vector as it was.  Every step asks once for the right-hand side, at the
end of the step. -/
def tracker (root : ℚ) : Externals where
  Mem := ℚ × Bool × Rhs
  ERKStepCreate rhs t0 _ := some (t0, false, rhs)
  ERKStepReInit mem rhs t0 _ := (ARK_SUCCESS, (t0, mem.2.1, rhs))
  ERKStepRootInit mem nrtfn := (ARK_SUCCESS, (mem.1, decide (0 < nrtfn), mem.2.2))
  ERKStepSetUserData mem := (ARK_SUCCESS, mem)
  ERKStepSetTableNum mem := (ARK_SUCCESS, mem)
  ERKStepSStolerances mem _ _ := (ARK_SUCCESS, mem)
  ERKStepGetCurrentTime mem := (ARK_SUCCESS, mem.1)
  ERKStepEvolve mem tout nv :=
    let tnew : ℚ := match tout with
      | some tout => tout
      | none => 3 * mem.1
    let stop : Bool := mem.2.1 && decide (mem.1 < root ∧ root ≤ tnew)
    let tcur : ℚ := if stop then root else tnew
    let nvnew : Vec4 := if mem.2.2 = Rhs.arkrhs then path root tcur else nv
    .rhs tcur nvnew (fun _ =>
      .done (if stop then ARK_ROOT_RETURN else ARK_SUCCESS) (tcur, mem.2.1, mem.2.2) nvnew tcur)
  denorm_min := 1 / 2 ^ 1074

/-- The model that `YoungLaplaceShape(0.21)` constructs over the integrator
`tracker root`: root finding is armed for the shape integrator only. -/
def sprout (root : ℚ) : YoungLaplaceShape (tracker root) where
  bond := 21 / 100
  dense := HermiteQuinticSplineND.empty.push_back 0 ![0, 0] ![1, 0] ![0, 1]
  dense_DBo := HermiteQuinticSplineND.empty.push_back 0 ![0, 0] ![0, 0] ![0, 0]
  dense_z_inv := LinearSpline1D.empty.push_back 0 0
  max_z_solved := false
  arkode_mem := (0, true, Rhs.arkrhs)
  nv := ![0, 0, 1, 0]
  arkode_mem_DBo := (0, false, Rhs.arkrhs_DBo)
  nv_DBo := ![0, 0, 0, 0]

/-- The model `fresh` after the query `shape(0.5)`: the shape cache holds the
breakpoints `0, 0.1, 0.3, 0.9`. -/
def cached : YoungLaplaceShape (stepper 3) :=
  (state_after (fresh.call 10 (1 / 2 : ℚ))).getD fresh

/-- The copy of `cached` that the copy constructor makes. -/
def cached_copy : YoungLaplaceShape (stepper 3) :=
  (YoungLaplaceShape.copy cached).toOption.getD cached

/-- The model `sprout (1/2)` after the query `shape(0.4)`: the steps end at
`0.1, 0.3` and at the root `0.5`, where the max-height event is latched. -/
def latched : YoungLaplaceShape (tracker (1 / 2)) :=
  (state_after ((sprout (1 / 2)).call 10 (2 / 5 : ℚ))).getD (sprout (1 / 2))

/-- The copy of `latched` that the copy constructor makes. -/
def latched_copy : YoungLaplaceShape (tracker (1 / 2)) :=
  (YoungLaplaceShape.copy latched).toOption.getD latched

/-- A freshly constructed model after the copy assignment of `latched` to it. -/
def latched_assigned : YoungLaplaceShape (tracker (1 / 2)) :=
  ((sprout (1 / 2)).operator_assign latched).2

/-- The model `sprout 1000` after the query `z_inv(200000)`: the steps end at
`0.1, 0.3, ..., 72.9, 218.7`, so the frontier of the shape cache is beyond
`MAX_ARCLENGTH`; the max-height event is not latched. -/
def tall : YoungLaplaceShape (tracker 1000) :=
  (state_after ((sprout 1000).z_inv 10 (200000 : ℚ))).getD (sprout 1000)

/-- The integrator `tracker root` with the perturbation `INFITESIMAL` taken as `0`. -/
def ideal (root : ℚ) : Externals := { tracker root with denorm_min := 0 }

/-- The model that `YoungLaplaceShape(0.21)` constructs over the integrator
`ideal 1000`. -/
def pearl : YoungLaplaceShape (ideal 1000) where
  bond := 21 / 100
  dense := HermiteQuinticSplineND.empty.push_back 0 ![0, 0] ![1, 0] ![0, 1]
  dense_DBo := HermiteQuinticSplineND.empty.push_back 0 ![0, 0] ![0, 0] ![0, 0]
  dense_z_inv := LinearSpline1D.empty.push_back 0 0
  max_z_solved := false
  arkode_mem := ((0, true, Rhs.arkrhs) : ℚ × Bool × Rhs)
  nv := ![0, 0, 1, 0]
  arkode_mem_DBo := ((0, false, Rhs.arkrhs_DBo) : ℚ × Bool × Rhs)
  nv_DBo := ![0, 0, 0, 0]

/-- The state vector that the integrator `swell` reports at time `t`: `r = t`,
`dr/ds = 1`, `dz/ds = (1 - 2 t) (1 - t)` and the height `z` that has this slope;
the height has a maximum at `t = 1/2` and a minimum at `t = 1`. -/
def ripple (t : ℚ) : Vec4 := ![t, t - 3 / 2 * t ^ 2 + 2 / 3 * t ^ 3, 1, (1 - 2 * t) * (1 - t)]

/-- An integrator with root finding whose event function `dz/ds` has two roots,
at `t = 1/2` and at `t = 1`.  It is `tracker`, except that an armed step stops
at the next of the two roots that it would pass, and that the integrator of the
shape reports the state `ripple t`. -/
def swell : Externals where
  Mem := ℚ × Bool × Rhs
  ERKStepCreate rhs t0 _ := some (t0, false, rhs)
  ERKStepReInit mem rhs t0 _ := (ARK_SUCCESS, (t0, mem.2.1, rhs))
  ERKStepRootInit mem nrtfn := (ARK_SUCCESS, (mem.1, decide (0 < nrtfn), mem.2.2))
  ERKStepSetUserData mem := (ARK_SUCCESS, mem)
  ERKStepSetTableNum mem := (ARK_SUCCESS, mem)
  ERKStepSStolerances mem _ _ := (ARK_SUCCESS, mem)
  ERKStepGetCurrentTime mem := (ARK_SUCCESS, mem.1)
  ERKStepEvolve mem tout nv :=
    let tnew : ℚ := match tout with
      | some tout => tout
      | none => 3 * mem.1
    let root : ℚ := if mem.1 < 1 / 2 then 1 / 2 else 1
    let stop : Bool := mem.2.1 && decide (mem.1 < root ∧ root ≤ tnew)
    let tcur : ℚ := if stop then root else tnew
    let nvnew : Vec4 := if mem.2.2 = Rhs.arkrhs then ripple tcur else nv
    .rhs tcur nvnew (fun _ =>
      .done (if stop then ARK_ROOT_RETURN else ARK_SUCCESS) (tcur, mem.2.1, mem.2.2) nvnew tcur)
  denorm_min := 1 / 2 ^ 1074

/-- The model that `YoungLaplaceShape(0.21)` constructs over the integrator
`swell`. -/
def bud : YoungLaplaceShape swell where
  bond := 21 / 100
  dense := HermiteQuinticSplineND.empty.push_back 0 ![0, 0] ![1, 0] ![0, 1]
  dense_DBo := HermiteQuinticSplineND.empty.push_back 0 ![0, 0] ![0, 0] ![0, 0]
  dense_z_inv := LinearSpline1D.empty.push_back 0 0
  max_z_solved := false
  arkode_mem := ((0, true, Rhs.arkrhs) : ℚ × Bool × Rhs)
  nv := ![0, 0, 1, 0]
  arkode_mem_DBo := ((0, false, Rhs.arkrhs_DBo) : ℚ × Bool × Rhs)
  nv_DBo := ![0, 0, 0, 0]

/-- The model `bud` after the query `shape(0.4)`: the steps end at `0.1, 0.3` and
at the first root `0.5`, where the max-height event is latched. -/
def crested : YoungLaplaceShape swell :=
  (state_after (bud.call 10 (2 / 5 : ℚ))).getD bud

/-- The copy of `crested` that the copy constructor makes. -/
def crested_copy : YoungLaplaceShape swell :=
  (YoungLaplaceShape.copy crested).toOption.getD crested

end Example

/-! # Verification

## Supporting lemmas -/

/-! ## Plain numbers as a query type -/
section rat
@[simp] theorem rat_add (a b : ℚ) : @HAdd.hAdd ℚ ℚ ℚ (@instHAdd ℚ DiffValue.instAdd) a b = a + b := rfl
@[simp] theorem rat_sub (a b : ℚ) : @HSub.hSub ℚ ℚ ℚ (@instHSub ℚ DiffValue.instSub) a b = a - b := rfl
@[simp] theorem rat_mul (a b : ℚ) : @HMul.hMul ℚ ℚ ℚ (@instHMul ℚ DiffValue.instMul) a b = a * b := rfl
@[simp] theorem rat_neg (a : ℚ) : @Neg.neg ℚ DiffValue.instNeg a = -a := rfl
@[simp] theorem rat_hdiv (a b : ℚ) : @HDiv.hDiv ℚ ℚ ℚ DiffValue.instHDiv a b = a / b := rfl
@[simp] theorem rat_ofNat (k : ℕ) [OfNat ℚ k] :
    @OfNat.ofNat ℚ k (DiffValue.instOfNat k) = (OfNat.ofNat k : ℚ) := rfl
@[simp] theorem rat_ofReal (a : ℚ) : (DiffValue.ofReal a : ℚ) = a := rfl
@[simp] theorem rat_toReal (a : ℚ) : DiffValue.toReal a = a := rfl
@[simp] theorem rat_abs (a : ℚ) : DiffValue.abs a = |a| := rfl
end rat

theorem index_natCast {α : Type} (xs : List α) (k : ℕ) (h : k < xs.length) :
    index xs (k : ℤ) = .ok xs[k] := by
  simp [index, h]

theorem index_getD {α : Type} (xs : List α) (k : ℕ) (h : k < xs.length) (d : α) :
    index xs (k : ℤ) = .ok (xs.getD k d) := by
  simp [index, h]

theorem index_zero {α : Type} (xs : List α) (h : 0 < xs.length) (d : α) :
    index xs 0 = .ok (xs.getD 0 d) := by
  simpa using index_getD xs 0 h d

theorem head?_eq_getD (xs : List ℚ) (h : 0 < xs.length) : xs.head? = some (xs.getD 0 0) := by
  cases xs with
  | nil => simp at h
  | cons x xs => simp

theorem getLast?_eq_getD (xs : List ℚ) (h : 0 < xs.length) :
    xs.getLast? = some (xs.getD (xs.length - 1) 0) := by
  rw [List.getLast?_eq_getElem?, List.getD_eq_getElem?_getD]
  have : xs.length - 1 < xs.length := by omega
  simp [List.getElem?_eq_getElem this]

theorem increasing_getD_lt (xs : List ℚ) (h : xs.Pairwise (· < ·)) (i j : ℕ) (hij : i < j)
    (hj : j < xs.length) : xs.getD i 0 < xs.getD j 0 := by
  have hi : i < xs.length := by omega
  rw [List.getD_eq_getElem _ _ hi, List.getD_eq_getElem _ _ hj]
  exact List.pairwise_iff_getElem.mp h i j hi hj hij

theorem increasing_getD_le (xs : List ℚ) (h : xs.Pairwise (· < ·)) (i j : ℕ) (hij : i ≤ j)
    (hj : j < xs.length) : xs.getD i 0 ≤ xs.getD j 0 := by
  rcases Nat.eq_or_lt_of_le hij with rfl | hlt
  · exact le_rfl
  · exact le_of_lt (increasing_getD_lt xs h i j hlt hj)

/-- What the loop of `upper_bound` guarantees on any list: the element just
before the result, if any, is not greater than `t`, and the element at the
result, if any, is greater than `t`. -/
theorem upper_bound_loop_spec (xs : List ℚ) (t : ℚ) (fuel first len : ℕ) (hf : len ≤ fuel)
    (hn : first + len ≤ xs.length) (hl : first = 0 ∨ ¬ t < xs.getD (first - 1) 0)
    (hr : first + len = xs.length ∨ t < xs.getD (first + len) 0) :
    upper_bound_loop xs t fuel first len ≤ xs.length
      ∧ (upper_bound_loop xs t fuel first len = 0
          ∨ ¬ t < xs.getD (upper_bound_loop xs t fuel first len - 1) 0)
      ∧ (upper_bound_loop xs t fuel first len = xs.length
          ∨ t < xs.getD (upper_bound_loop xs t fuel first len) 0) := by
  induction fuel generalizing first len with
  | zero =>
    have hlen : len = 0 := by omega
    subst hlen
    exact ⟨by simpa [upper_bound_loop] using hn, by simpa [upper_bound_loop] using hl,
      by simpa [upper_bound_loop] using hr⟩
  | succ fuel ih =>
    rw [upper_bound_loop]
    by_cases hpos : len > 0
    · rw [if_pos hpos]
      dsimp only
      have hhalf : len / 2 < len := Nat.div_lt_self hpos (by decide)
      by_cases hlt : t < xs.getD (first + len / 2) 0
      · rw [if_pos hlt]
        exact ih first (len / 2) (by omega) (by omega) hl (Or.inr hlt)
      · rw [if_neg hlt]
        have e : first + len / 2 + 1 + (len - len / 2 - 1) = first + len := by omega
        exact ih (first + len / 2 + 1) (len - len / 2 - 1) (by omega) (by omega)
          (Or.inr (by simpa using hlt)) (by rw [e]; exact hr)
    · rw [if_neg hpos]
      have hlen : len = 0 := by omega
      subst hlen
      exact ⟨by simpa using hn, hl, by simpa using hr⟩

theorem upper_bound_le_length (xs : List ℚ) (t : ℚ) : upper_bound xs t ≤ xs.length :=
  (upper_bound_loop_spec xs t xs.length 0 xs.length le_rfl (by omega) (Or.inl rfl)
    (Or.inl (by omega))).1

/-- The element just before the `upper_bound` position is at most `t`. -/
theorem upper_bound_pred_le (xs : List ℚ) (t : ℚ) (i : ℕ) (h : upper_bound xs t = i + 1) :
    xs.getD i 0 ≤ t := by
  have := (upper_bound_loop_spec xs t xs.length 0 xs.length le_rfl (by omega) (Or.inl rfl)
    (Or.inl (by omega))).2.1
  rw [show upper_bound_loop xs t xs.length 0 xs.length = upper_bound xs t from rfl, h] at this
  rcases this with h0 | hle
  · omega
  · simpa using hle

/-- The element at the `upper_bound` position, if there is one, is greater than `t`. -/
theorem lt_upper_bound (xs : List ℚ) (t : ℚ) (h : upper_bound xs t < xs.length) :
    t < xs.getD (upper_bound xs t) 0 := by
  have := (upper_bound_loop_spec xs t xs.length 0 xs.length le_rfl (by omega) (Or.inl rfl)
    (Or.inl (by omega))).2.2
  rcases this with h0 | hlt
  · exact absurd h0 (ne_of_lt h)
  · exact hlt

theorem upper_bound_pos (xs : List ℚ) (t : ℚ) (h : 0 < xs.length) (h0 : xs.getD 0 0 ≤ t) :
    1 ≤ upper_bound xs t := by
  rcases Nat.eq_zero_or_pos (upper_bound xs t) with hz | hp
  · have := lt_upper_bound xs t (by omega)
    rw [hz] at this
    exact absurd this (not_lt.mpr h0)
  · exact hp

theorem upper_bound_lt_length (xs : List ℚ) (t : ℚ) (h : 0 < xs.length)
    (h1 : t < xs.getD (xs.length - 1) 0) : upper_bound xs t < xs.length := by
  rcases Nat.lt_or_ge (upper_bound xs t) xs.length with hlt | hge
  · exact hlt
  · have hle := upper_bound_le_length xs t
    have := upper_bound_pred_le xs t (xs.length - 1) (by omega)
    exact absurd h1 (not_lt.mpr this)

/-- In a strictly increasing list, `upper_bound` of a point of `[xs[k], xs[k+1])` is `k + 1`. -/
theorem upper_bound_eq (xs : List ℚ) (h : xs.Pairwise (· < ·)) (t : ℚ) (k : ℕ)
    (hk : k + 1 < xs.length) (h0 : xs.getD k 0 ≤ t) (h1 : t < xs.getD (k + 1) 0) :
    upper_bound xs t = k + 1 := by
  have hle := upper_bound_le_length xs t
  rcases Nat.lt_trichotomy (upper_bound xs t) (k + 1) with hlt | heq | hgt
  · have h2 := lt_upper_bound xs t (by omega)
    have h3 := increasing_getD_le xs h (upper_bound xs t) k (by omega) (by omega)
    exact absurd (lt_of_lt_of_le h2 (le_trans h3 h0)) (lt_irrefl _)
  · exact heq
  · obtain ⟨i, hi⟩ : ∃ i, upper_bound xs t = i + 1 := ⟨upper_bound xs t - 1, by omega⟩
    have h2 := upper_bound_pred_le xs t i hi
    have h3 := increasing_getD_le xs h (k + 1) i (by omega) (by omega)
    exact absurd (lt_of_lt_of_le h1 (le_trans h3 h2)) (lt_irrefl _)

section fvar
open HermiteQuinticSplineND
variable {n : ℕ}
@[simp] theorem FVar.add_c (a b : FVar n) (i : ℕ) : (a + b).c i = a.c i + b.c i := rfl
@[simp] theorem FVar.sub_c (a b : FVar n) (i : ℕ) : (a - b).c i = a.c i - b.c i := rfl
@[simp] theorem FVar.neg_c (a : FVar n) (i : ℕ) : (-a).c i = - a.c i := rfl
@[simp] theorem FVar.hdiv_c (a : FVar n) (r : ℚ) (i : ℕ) : (a / r).c i = a.c i / r := rfl
theorem FVar.ofReal_c (r : ℚ) (i : ℕ) :
    (DiffValue.ofReal r : FVar n).c i = if i = 0 then r else 0 := rfl
theorem FVar.ofReal_c_zero (r : ℚ) : (DiffValue.ofReal r : FVar n).c 0 = r := rfl
theorem FVar.ofReal_c_one (r : ℚ) : (DiffValue.ofReal r : FVar n).c 1 = 0 := rfl
theorem FVar.ofReal_c_two (r : ℚ) : (DiffValue.ofReal r : FVar n).c 2 = 0 := rfl
theorem FVar.ofNat_c (k : ℕ) [OfNat ℚ k] (i : ℕ) :
    (no_index (OfNat.ofNat k : FVar n)).c i = if i = 0 then (OfNat.ofNat k : ℚ) else 0 := rfl
theorem FVar.ofNat_c_zero (k : ℕ) [OfNat ℚ k] :
    (no_index (OfNat.ofNat k : FVar n)).c 0 = (OfNat.ofNat k : ℚ) := rfl
theorem FVar.ofNat_c_one (k : ℕ) [OfNat ℚ k] : (no_index (OfNat.ofNat k : FVar n)).c 1 = 0 := rfl
theorem FVar.ofNat_c_two (k : ℕ) [OfNat ℚ k] : (no_index (OfNat.ofNat k : FVar n)).c 2 = 0 := rfl
@[simp] theorem FVar.toReal_eq (a : FVar n) : DiffValue.toReal a = a.c 0 := rfl
@[simp] theorem FVar.make_fvar_c_zero (t : ℚ) : (FVar.make_fvar n t).c 0 = t := rfl
theorem FVar.make_fvar_c_one (h : 1 ≤ n) (t : ℚ) : (FVar.make_fvar n t).c 1 = 1 := by
  simp [FVar.make_fvar, h]
@[simp] theorem FVar.make_fvar_c_add_two (t : ℚ) (i : ℕ) : (FVar.make_fvar n t).c (i + 2) = 0 := by
  simp [FVar.make_fvar]
theorem FVar.make_fvar_c_two (t : ℚ) : (FVar.make_fvar n t).c 2 = 0 :=
  FVar.make_fvar_c_add_two t 0
theorem FVar.mul_c (a b : FVar n) (i : ℕ) (h : i ≤ n) :
    (a * b).c i = ∑ j in Finset.range (i + 1), a.c j * b.c (i - j) := by
  show (FVar.mul a b).c i = _
  simp [FVar.mul, h]
theorem FVar.mul_c_of_lt (a b : FVar n) (i : ℕ) (h : n < i) : (a * b).c i = 0 := by
  show (FVar.mul a b).c i = _
  simp [FVar.mul, not_le.mpr h]
@[simp] theorem FVar.mul_c_zero (a b : FVar n) : (a * b).c 0 = a.c 0 * b.c 0 := by
  simp [FVar.mul_c]
theorem FVar.mul_c_one (h : 1 ≤ n) (a b : FVar n) :
    (a * b).c 1 = a.c 0 * b.c 1 + a.c 1 * b.c 0 := by
  simp [FVar.mul_c a b 1 h, Finset.sum_range_succ]
theorem FVar.mul_c_two (h : 2 ≤ n) (a b : FVar n) :
    (a * b).c 2 = a.c 0 * b.c 2 + a.c 1 * b.c 1 + a.c 2 * b.c 0 := by
  simp [FVar.mul_c a b 2 h, Finset.sum_range_succ]

set_option maxHeartbeats 4000000 in
/-- The Taylor coefficients of orders 0, 1, 2 of the interpolation formula at an
end of the segment (`x0 = 0` or `x0 = 1`), for a query whose normalised
coordinate has coefficients `x0, 1/dt, 0`. -/
theorem horner_jet (h : 2 ≤ n) (dt : ℚ) (hdt : dt ≠ 0) (x : FVar n) (y0 y1 v0 v1 a0 a1 : ℚ)
    (x0 : ℚ) (hx0 : x.c 0 = x0) (hx1 : x.c 1 = 1 / dt) (hx2 : x.c 2 = 0) (hx : x0 = 0 ∨ x0 = 1) :
    (horner dt x y0 y1 v0 v1 a0 a1).c 0 = (1 - x0) * y0 + x0 * y1
      ∧ (horner dt x y0 y1 v0 v1 a0 a1).c 1 = (1 - x0) * v0 + x0 * v1
      ∧ (horner dt x y0 y1 v0 v1 a0 a1).c 2 = ((1 - x0) * a0 + x0 * a1) / 2 := by
  have h1 : 1 ≤ n := by omega
  have e0 : (x * x).c 0 = x0 := by rcases hx with rfl | rfl <;> simp [hx0]
  have e1 : (x * x).c 1 = 2 * x0 / dt := by
    simp only [FVar.mul_c_one h1, hx0, hx1]; ring
  have e2 : (x * x).c 2 = 1 / dt ^ 2 := by
    simp only [FVar.mul_c_two h, hx0, hx1, hx2]; ring
  have f0 : (x * x * x).c 0 = x0 := by rcases hx with rfl | rfl <;> simp [hx0]
  have f1 : (x * x * x).c 1 = 3 * x0 / dt := by
    simp only [FVar.mul_c_one h1, hx0, hx1, e0, e1]
    rcases hx with rfl | rfl <;> ring
  have f2 : (x * x * x).c 2 = 3 * x0 / dt ^ 2 := by
    simp only [FVar.mul_c_two h, hx0, hx1, hx2, e0, e1, e2]
    rcases hx with rfl | rfl <;> ring
  simp only [horner]
  generalize x * x * x = x3 at *
  generalize x * x = x2 at *
  simp only [FVar.add_c, FVar.sub_c, FVar.neg_c, FVar.hdiv_c, FVar.mul_c_two h,
    FVar.mul_c_one h1, FVar.mul_c_zero, FVar.ofReal_c_zero, FVar.ofReal_c_one,
    FVar.ofReal_c_two, FVar.ofNat_c_zero, FVar.ofNat_c_one, FVar.ofNat_c_two,
    hx0, hx1, hx2, e0, e1, e2, f0, f1, f2]
  rcases hx with rfl | rfl
  · refine ⟨by ring, ?_, ?_⟩
    · norm_num; field_simp
    · norm_num; field_simp; ring
  · refine ⟨by ring, ?_, ?_⟩ <;> (norm_num; field_simp; ring)
end fvar

namespace HermiteQuinticSplineND
variable {N : ℕ}

theorem Built.lengths {s : HermiteQuinticSplineND N} (h : Built s) :
    s.y_breaks.length = s.t_breaks.length ∧ s.v_breaks.length = s.t_breaks.length
      ∧ s.a_breaks.length = s.t_breaks.length := by
  induction h with
  | empty => exact ⟨rfl, rfl, rfl⟩
  | push_back s t y v a _ ih =>
    obtain ⟨hy, hv, ha⟩ := ih
    refine ⟨?_, ?_, ?_⟩
    · show (s.y_breaks ++ [y]).length = (s.t_breaks ++ [t]).length
      simp [hy]
    · show (s.v_breaks ++ [v]).length = (s.t_breaks ++ [t]).length
      simp [hv]
    · show (s.a_breaks ++ [a]).length = (s.t_breaks ++ [t]).length
      simp [ha]

/-- The selected segment at a breakpoint: the final segment at the last
breakpoint, the segment starting there otherwise. -/
theorem segment_breakpoint (xs : List ℚ) (h : xs.Pairwise (· < ·)) (k : ℕ) (hk : k < xs.length) :
    segment xs (xs.getD k 0) = if k + 1 = xs.length then (k : ℤ) else (k : ℤ) + 1 := by
  have hlast := getLast?_eq_getD xs (by omega)
  unfold segment
  by_cases hkl : k + 1 = xs.length
  · have : xs.length - 1 = k := by omega
    rw [hlast, this, if_pos rfl, if_pos hkl]
    omega
  · have hlt : xs.getD k 0 < xs.getD (xs.length - 1) 0 :=
      increasing_getD_lt xs h k _ (by omega) (by omega)
    rw [hlast, if_neg (by simpa using ne_of_lt hlt), if_neg hkl,
      upper_bound_eq xs h _ k (by omega) le_rfl (increasing_getD_lt xs h k _ (by omega) (by omega))]
    simp

/-- On an index in range the reads of `interpolate` succeed. -/
theorem interpolate_ok {T : Type} [DiffValue T] {s : HermiteQuinticSplineND N} (hb : Built s)
    (i : ℕ) (hi : i + 1 < s.t_breaks.length) (t : T) :
    s.interpolate ((i : ℤ) + 1) t = .ok (fun j =>
      horner (s.t_breaks.getD (i + 1) 0 - s.t_breaks.getD i 0)
        ((t - DiffValue.ofReal (s.t_breaks.getD i 0))
          / (s.t_breaks.getD (i + 1) 0 - s.t_breaks.getD i 0))
        (s.y_breaks.getD i 0 j) (s.y_breaks.getD (i + 1) 0 j)
        (s.v_breaks.getD i 0 j) (s.v_breaks.getD (i + 1) 0 j)
        (s.a_breaks.getD i 0 j) (s.a_breaks.getD (i + 1) 0 j)) := by
  obtain ⟨hy, hv, ha⟩ := hb.lengths
  have e : ((i : ℤ) + 1) = ((i + 1 : ℕ) : ℤ) := by simp
  unfold interpolate
  simp only [add_sub_cancel_right]
  rw [e, index_getD s.t_breaks i (by omega) 0, index_getD s.t_breaks (i + 1) hi 0,
    index_getD s.y_breaks i (by omega) 0, index_getD s.y_breaks (i + 1) (by omega) 0,
    index_getD s.v_breaks i (by omega) 0, index_getD s.v_breaks (i + 1) (by omega) 0,
    index_getD s.a_breaks i (by omega) 0, index_getD s.a_breaks (i + 1) (by omega) 0]
  rfl

theorem check_domain_ok (s : HermiteQuinticSplineND N) (t : ℚ) (h : 0 < s.t_breaks.length)
    (h0 : s.t_breaks.getD 0 0 ≤ t) (h1 : t ≤ s.t_breaks.getD (s.t_breaks.length - 1) 0) :
    s.check_domain t = .ok () := by
  unfold check_domain
  rw [head?_eq_getD _ h, getLast?_eq_getD _ h]
  have hl : ¬ s.t_breaks.length < 1 := by omega
  simp only [hl, if_false, not_lt.mpr h0, gt_iff_lt, not_lt.mpr h1, or_self]

end HermiteQuinticSplineND

namespace HermiteQuinticSplineND
variable {N : ℕ}

/-- The normalised coordinate of a seeded query has Taylor coefficients
`(t - t0)/dt, 1/dt, 0`. -/
theorem normalised_jet {n : ℕ} (h1 : 1 ≤ n) (t t0 dt : ℚ) :
    ((FVar.make_fvar n t - DiffValue.ofReal t0) / dt).c 0 = (t - t0) / dt
      ∧ ((FVar.make_fvar n t - DiffValue.ofReal t0) / dt).c 1 = 1 / dt
      ∧ ((FVar.make_fvar n t - DiffValue.ofReal t0) / dt).c 2 = 0 := by
  refine ⟨?_, ?_, ?_⟩
  · simp only [FVar.hdiv_c, FVar.sub_c, FVar.make_fvar_c_zero, FVar.ofReal_c_zero]
  · simp only [FVar.hdiv_c, FVar.sub_c, FVar.make_fvar_c_one h1, FVar.ofReal_c_one, sub_zero]
  · simp only [FVar.hdiv_c, FVar.sub_c, FVar.make_fvar_c_two, FVar.ofReal_c_two, sub_zero,
      zero_div]

/-- The polynomial of segment `i + 1` at its left end `t[i]`: Taylor coefficients
of orders 0, 1, 2 are `y[i]`, `v[i]`, `a[i]/2`. -/
theorem interpolate_jet_left {s : HermiteQuinticSplineND N} (hb : Built s) (hi : Increasing s)
    (i : ℕ) (hi1 : i + 1 < s.t_breaks.length) (n : ℕ) (hn : 2 ≤ n) :
    ∃ f, s.interpolate ((i : ℤ) + 1) (FVar.make_fvar n (s.t_breaks.getD i 0)) = .ok f ∧
      ∀ j, (f j).c 0 = s.y_breaks.getD i 0 j ∧ (f j).c 1 = s.v_breaks.getD i 0 j
        ∧ (f j).c 2 = s.a_breaks.getD i 0 j / 2 := by
  have hdt : s.t_breaks.getD (i + 1) 0 - s.t_breaks.getD i 0 ≠ 0 :=
    ne_of_gt (sub_pos.mpr (increasing_getD_lt _ hi i (i + 1) (by omega) hi1))
  rw [interpolate_ok hb i hi1]
  refine ⟨_, rfl, fun j => ?_⟩
  obtain ⟨e0, e1, e2⟩ := normalised_jet (by omega : 1 ≤ n) (s.t_breaks.getD i 0)
    (s.t_breaks.getD i 0) (s.t_breaks.getD (i + 1) 0 - s.t_breaks.getD i 0)
  have := horner_jet hn _ hdt _ (s.y_breaks.getD i 0 j) (s.y_breaks.getD (i + 1) 0 j)
    (s.v_breaks.getD i 0 j) (s.v_breaks.getD (i + 1) 0 j)
    (s.a_breaks.getD i 0 j) (s.a_breaks.getD (i + 1) 0 j) 0
    (by rw [e0, sub_self, zero_div]) e1 e2 (Or.inl rfl)
  simpa using this

/-- The polynomial of segment `i + 1` at its right end `t[i + 1]`: Taylor
coefficients of orders 0, 1, 2 are `y[i + 1]`, `v[i + 1]`, `a[i + 1]/2`. -/
theorem interpolate_jet_right {s : HermiteQuinticSplineND N} (hb : Built s) (hi : Increasing s)
    (i : ℕ) (hi1 : i + 1 < s.t_breaks.length) (n : ℕ) (hn : 2 ≤ n) :
    ∃ f, s.interpolate ((i : ℤ) + 1) (FVar.make_fvar n (s.t_breaks.getD (i + 1) 0)) = .ok f ∧
      ∀ j, (f j).c 0 = s.y_breaks.getD (i + 1) 0 j ∧ (f j).c 1 = s.v_breaks.getD (i + 1) 0 j
        ∧ (f j).c 2 = s.a_breaks.getD (i + 1) 0 j / 2 := by
  have hdt : s.t_breaks.getD (i + 1) 0 - s.t_breaks.getD i 0 ≠ 0 :=
    ne_of_gt (sub_pos.mpr (increasing_getD_lt _ hi i (i + 1) (by omega) hi1))
  rw [interpolate_ok hb i hi1]
  refine ⟨_, rfl, fun j => ?_⟩
  obtain ⟨e0, e1, e2⟩ := normalised_jet (by omega : 1 ≤ n) (s.t_breaks.getD (i + 1) 0)
    (s.t_breaks.getD i 0) (s.t_breaks.getD (i + 1) 0 - s.t_breaks.getD i 0)
  have := horner_jet hn _ hdt _ (s.y_breaks.getD i 0 j) (s.y_breaks.getD (i + 1) 0 j)
    (s.v_breaks.getD i 0 j) (s.v_breaks.getD (i + 1) 0 j)
    (s.a_breaks.getD i 0 j) (s.a_breaks.getD (i + 1) 0 j) 1
    (by rw [e0, div_self hdt]) e1 e2 (Or.inr rfl)
  simpa using this

/-- With several breakpoints and a query inside the domain, `operator()` is the
interpolation on the selected segment. -/
theorem call_eq_interpolate {T : Type} [DiffValue T] (s : HermiteQuinticSplineND N) (t : T)
    (hcd : s.check_domain (DiffValue.toReal t) = .ok ()) (hlen : s.t_breaks.length ≠ 1) :
    s.call t = s.interpolate (segment s.t_breaks (DiffValue.toReal t)) t := by
  unfold call
  rw [hcd, if_neg hlen]
  rfl

/-- With one breakpoint and a query inside the domain, `operator()` is the
second-order Taylor expansion about the breakpoint. -/
theorem call_single {T : Type} [DiffValue T] {s : HermiteQuinticSplineND N} (hb : Built s) (t : T)
    (hcd : s.check_domain (DiffValue.toReal t) = .ok ()) (hlen : s.t_breaks.length = 1) :
    s.call t = .ok (fun j =>
      DiffValue.ofReal (s.y_breaks.getD 0 0 j)
        + (t - DiffValue.ofReal (s.t_breaks.getD 0 0)) * DiffValue.ofReal (s.v_breaks.getD 0 0 j)
        + DiffValue.ofReal (1/2) * (t - DiffValue.ofReal (s.t_breaks.getD 0 0))
            * (t - DiffValue.ofReal (s.t_breaks.getD 0 0))
            * DiffValue.ofReal (s.a_breaks.getD 0 0 j)) := by
  obtain ⟨hy, hv, ha⟩ := hb.lengths
  unfold call
  rw [hcd, if_pos hlen, index_zero s.t_breaks (by omega) 0, index_zero s.y_breaks (by omega) 0,
    index_zero s.v_breaks (by omega) 0, index_zero s.a_breaks (by omega) 0]
  rfl

/-- Evaluation at a breakpoint with a differentiable query of order at least 2:
the Taylor coefficients of orders 0, 1, 2 are the stored value, the stored
velocity and half the stored acceleration. -/
theorem call_breakpoint_jet {s : HermiteQuinticSplineND N} (hb : Built s) (hi : Increasing s)
    (k : ℕ) (hk : k < s.t_breaks.length) (n : ℕ) (hn : 2 ≤ n) :
    ∃ f, s.call (FVar.make_fvar n (s.t_breaks.getD k 0)) = .ok f ∧
      ∀ j, (f j).c 0 = s.y_breaks.getD k 0 j ∧ (f j).c 1 = s.v_breaks.getD k 0 j
        ∧ (f j).c 2 = s.a_breaks.getD k 0 j / 2 := by
  have h1 : 1 ≤ n := by omega
  have hcd : s.check_domain (DiffValue.toReal (FVar.make_fvar n (s.t_breaks.getD k 0))) = .ok () :=
    check_domain_ok s _ (by omega) (increasing_getD_le _ hi 0 k (by omega) hk)
      (increasing_getD_le _ hi k _ (by omega) (by omega))
  by_cases hlen : s.t_breaks.length = 1
  · have hk0 : k = 0 := by omega
    subst hk0
    rw [call_single hb _ hcd hlen]
    refine ⟨_, rfl, fun j => ⟨?_, ?_, ?_⟩⟩
    · simp [FVar.ofReal_c_zero]
    · simp [FVar.ofReal_c_zero, FVar.ofReal_c_one, FVar.mul_c_one h1, FVar.make_fvar_c_one h1]
    · simp [FVar.ofReal_c_zero, FVar.ofReal_c_one, FVar.ofReal_c_two, FVar.mul_c_one h1,
        FVar.mul_c_two hn, FVar.make_fvar_c_one h1, FVar.make_fvar_c_two]
      ring
  · rw [call_eq_interpolate s _ hcd hlen, FVar.toReal_eq, FVar.make_fvar_c_zero,
      segment_breakpoint _ hi k hk]
    by_cases hkl : k + 1 = s.t_breaks.length
    · -- the last breakpoint: right end of the final segment
      obtain ⟨i, rfl⟩ : ∃ i, k = i + 1 := ⟨k - 1, by omega⟩
      rw [if_pos hkl, (by simp : ((i + 1 : ℕ) : ℤ) = (i : ℤ) + 1)]
      exact interpolate_jet_right hb hi i hk n hn
    · -- any other breakpoint: left end of the segment that starts there
      rw [if_neg hkl]
      exact interpolate_jet_left hb hi k (by omega) n hn

end HermiteQuinticSplineND

namespace HermiteQuinticSplineND

/-- The selected segment of an in-domain query lies in `1 .. size-1`. -/
theorem segment_range (xs : List ℚ) (t : ℚ) (hlen : 2 ≤ xs.length) (h0 : xs.getD 0 0 ≤ t)
    (h1 : t ≤ xs.getD (xs.length - 1) 0) :
    ∃ i : ℕ, segment xs t = (i : ℤ) + 1 ∧ i + 1 < xs.length := by
  have hlast := getLast?_eq_getD xs (by omega)
  unfold segment
  by_cases ht : t = xs.getD (xs.length - 1) 0
  · refine ⟨xs.length - 2, ?_, by omega⟩
    rw [hlast, ← ht, if_pos rfl]
    omega
  · have hlt : t < xs.getD (xs.length - 1) 0 := lt_of_le_of_ne h1 ht
    have hpos := upper_bound_pos xs t (by omega) h0
    have hub := upper_bound_lt_length xs t (by omega) hlt
    refine ⟨upper_bound xs t - 1, ?_, by omega⟩
    rw [hlast, if_neg (by simpa using ht)]
    omega

/-- In a strictly increasing list the breakpoints of the selected segment bracket
the query: `t[i-1] ≤ t ≤ t[i]`, with `t < t[i]` unless `t` is the last breakpoint. -/
theorem segment_bracket (xs : List ℚ) (h : xs.Pairwise (· < ·)) (t : ℚ) (hlen : 2 ≤ xs.length)
    (h1 : t ≤ xs.getD (xs.length - 1) 0) (i : ℕ)
    (hi : segment xs t = (i : ℤ) + 1) :
    xs.getD i 0 ≤ t ∧ t ≤ xs.getD (i + 1) 0
      ∧ (t = xs.getD (i + 1) 0 → i + 2 = xs.length) := by
  have hlast := getLast?_eq_getD xs (by omega)
  unfold segment at hi
  by_cases ht : t = xs.getD (xs.length - 1) 0
  · rw [hlast, ← ht, if_pos rfl] at hi
    have hi' : i + 1 = xs.length - 1 := by omega
    rw [hi']
    refine ⟨?_, h1, fun _ => by omega⟩
    rw [ht]
    exact increasing_getD_le xs h i _ (by omega) (by omega)
  · have hlt : t < xs.getD (xs.length - 1) 0 := lt_of_le_of_ne h1 ht
    have hub := upper_bound_lt_length xs t (by omega) hlt
    rw [hlast, if_neg (by simpa using ht)] at hi
    have hi' : upper_bound xs t = i + 1 := by omega
    have hgt := lt_upper_bound xs t hub
    rw [hi'] at hgt
    exact ⟨upper_bound_pred_le xs t i hi', le_of_lt hgt,
      fun e => absurd e (ne_of_lt hgt)⟩

end HermiteQuinticSplineND

theorem head_eq_getD (xs : List ℚ) (h : xs ≠ []) : xs.head h = xs.getD 0 0 := by
  cases xs with
  | nil => exact absurd rfl h
  | cons x xs => simp

theorem getLast_eq_getD (xs : List ℚ) (h : xs ≠ []) :
    xs.getLast h = xs.getD (xs.length - 1) 0 := by
  have hl : 0 < xs.length := List.length_pos.mpr h
  have := getLast?_eq_getD xs hl
  rw [List.getLast?_eq_getLast _ h] at this
  exact Option.some.inj this

namespace HermiteQuinticSplineND
variable {N : ℕ}

theorem check_domain_eq (s : HermiteQuinticSplineND N) (t : ℚ) (h : s.t_breaks ≠ []) :
    s.check_domain t =
      if t < s.t_breaks.head h ∨ t > s.t_breaks.getLast h then .error .domain_error
      else .ok () := by
  have hl : 0 < s.t_breaks.length := List.length_pos.mpr h
  have hl' : ¬ s.t_breaks.length < 1 := by omega
  unfold check_domain
  rw [if_neg hl', head?_eq_getD _ hl, getLast?_eq_getD _ hl, head_eq_getD _ h,
    getLast_eq_getD _ h]

/-- Inside the domain `operator()` returns a value. -/
theorem call_ok {T : Type} [DiffValue T] {s : HermiteQuinticSplineND N} (hb : Built s) (t : T)
    (hne : s.t_breaks ≠ [])
    (hin : ¬ (DiffValue.toReal t < s.t_breaks.head hne ∨ DiffValue.toReal t > s.t_breaks.getLast hne)) :
    ∃ f, s.call t = .ok f := by
  have hl : 0 < s.t_breaks.length := List.length_pos.mpr hne
  have hcd : s.check_domain (DiffValue.toReal t) = .ok () := by
    rw [check_domain_eq s _ hne, if_neg hin]
  rw [head_eq_getD, getLast_eq_getD, not_or, not_lt, not_lt] at hin
  by_cases hlen : s.t_breaks.length = 1
  · exact ⟨_, call_single hb t hcd hlen⟩
  · obtain ⟨i, hseg, hi1⟩ := segment_range s.t_breaks _ (by omega) hin.1 hin.2
    rw [call_eq_interpolate s t hcd hlen, hseg, interpolate_ok hb i hi1]
    exact ⟨_, rfl⟩

end HermiteQuinticSplineND

theorem Example.three_built : Example.three.Built :=
  .push_back _ _ _ _ _ (.push_back _ _ _ _ _ (.push_back _ _ _ _ _ .empty))

theorem Example.three_increasing : Example.three.Increasing := by
  norm_num [HermiteQuinticSplineND.Increasing, Example.three, HermiteQuinticSplineND.push_back,
    HermiteQuinticSplineND.empty]

theorem Example.sine_built : Example.sine.Built :=
  .push_back _ _ _ _ _ (.push_back _ _ _ _ _ .empty)

theorem Example.sine_increasing : Example.sine.Increasing := by
  norm_num [HermiteQuinticSplineND.Increasing, Example.sine, HermiteQuinticSplineND.push_back,
    HermiteQuinticSplineND.empty]

/-- The interpolation formula on plain numbers is the quintic Hermite basis table. -/
theorem HermiteQuinticSplineND.horner_eq_basis (dt x y0 y1 v0 v1 a0 a1 : ℚ) :
    horner dt x y0 y1 v0 v1 a0 a1 =
      (1 - 10*x^3 + 15*x^4 - 6*x^5)*y0 + (x - 6*x^3 + 8*x^4 - 3*x^5)*dt*v0
      + (x^2/2 - 3/2*x^3 + 3/2*x^4 - 1/2*x^5)*dt^2*a0 + (1/2*x^3 - x^4 + 1/2*x^5)*dt^2*a1
      + (-4*x^3 + 7*x^4 - 3*x^5)*dt*v1 + (10*x^3 - 15*x^4 + 6*x^5)*y1 := by
  simp only [horner, rat_add, rat_sub, rat_mul, rat_neg, rat_hdiv, rat_ofNat, rat_ofReal]
  ring

theorem getD_append_last (xs : List ℚ) (x : ℚ) (k : ℕ) (hk : k = xs.length) :
    (xs ++ [x]).getD k 0 = x := by
  subst hk
  rw [List.getD_append_right _ _ _ _ (le_refl _)]
  simp

theorem getD_append_lt (xs : List ℚ) (x : ℚ) (i : ℕ) (h : i < xs.length) :
    (xs ++ [x]).getD i 0 = xs.getD i 0 :=
  List.getD_append _ _ _ _ h

namespace LinearSpline1D

/-- What `push_back` does to the three vectors, for a spline whose two breakpoint
vectors have the same size. -/
theorem push_back_eq (s : LinearSpline1D) (t y : ℚ) (h : s.y_breaks.length = s.t_breaks.length) :
    (s.push_back t y).t_breaks = s.t_breaks ++ [t] ∧
    (s.push_back t y).y_breaks = s.y_breaks ++ [y] ∧
    (s.push_back t y).slopes =
      if 0 < s.t_breaks.length then
        s.slopes ++ [(y - s.y_breaks.getD (s.t_breaks.length - 1) 0)
          / (t - s.t_breaks.getD (s.t_breaks.length - 1) 0)]
      else s.slopes := by
  unfold push_back
  by_cases hl : 0 < s.t_breaks.length
  · have e1 : (s.y_breaks ++ [y]).length - 1 = s.t_breaks.length := by simp [h]
    simp only [e1, gt_iff_lt, hl, if_true, true_and]
    rw [getD_append_last s.y_breaks y _ h.symm, getD_append_last s.t_breaks t _ rfl,
      getD_append_lt s.y_breaks y _ (by omega), getD_append_lt s.t_breaks t _ (by omega)]
  · have e1 : (s.y_breaks ++ [y]).length - 1 = 0 := by
      rw [List.length_append, h, List.length_singleton]; omega
    simp only [e1, gt_iff_lt, lt_self_iff_false, if_false, hl, and_self]

/-- The class invariant of a built linear spline: equal sizes, one slope per
segment, and every slope is the difference quotient of its segment. -/
theorem linear_built_invariant {s : LinearSpline1D} (h : Built s) :
    s.y_breaks.length = s.t_breaks.length ∧ s.slopes.length = s.t_breaks.length - 1 ∧
      ∀ i, i + 1 < s.t_breaks.length →
        s.slopes.getD i 0 = (s.y_breaks.getD (i + 1) 0 - s.y_breaks.getD i 0)
          / (s.t_breaks.getD (i + 1) 0 - s.t_breaks.getD i 0) := by
  induction h with
  | empty => exact ⟨rfl, rfl, fun i hi => absurd hi (by simp [empty])⟩
  | push_back s t y _ ih =>
    obtain ⟨hy, hs, hq⟩ := ih
    obtain ⟨e1, e2, e3⟩ := push_back_eq s t y hy
    rw [e1, e2, e3]
    refine ⟨by simp [hy], ?_, fun i hi => ?_⟩
    · by_cases hl : 0 < s.t_breaks.length
      · rw [if_pos hl]; simp [hs]; omega
      · rw [if_neg hl]; simp [hs]; omega
    · simp only [List.length_append, List.length_singleton] at hi
      have hl : 0 < s.t_breaks.length := by omega
      rw [if_pos hl]
      by_cases hlast : i + 1 = s.t_breaks.length
      · have hi' : s.t_breaks.length - 1 = i := by omega
        rw [getD_append_last s.slopes _ i (by omega), getD_append_last s.y_breaks y _ (by omega),
          getD_append_last s.t_breaks t _ hlast, getD_append_lt s.y_breaks y i (by omega),
          getD_append_lt s.t_breaks t i (by omega), hi']
      · rw [getD_append_lt s.slopes _ i (by omega), getD_append_lt s.y_breaks y _ (by omega),
          getD_append_lt s.t_breaks t _ (by omega), getD_append_lt s.y_breaks y i (by omega),
          getD_append_lt s.t_breaks t i (by omega)]
        exact hq i (by omega)

end LinearSpline1D

section fvar
variable {n : ℕ}

theorem FVar.ofNat_eq_ofReal (k : ℕ) [OfNat ℚ k] :
    (no_index (OfNat.ofNat k : FVar n)) = DiffValue.ofReal (OfNat.ofNat k : ℚ) := rfl

/-- Multiplying by a promoted plain number scales every coefficient up to the order. -/
theorem FVar.ofReal_mul_c (a : ℚ) (b : FVar n) (i : ℕ) :
    (DiffValue.ofReal a * b).c i = if i ≤ n then a * b.c i else 0 := by
  by_cases h : i ≤ n
  · rw [FVar.mul_c _ _ i h, if_pos h, Finset.sum_eq_single 0]
    · simp [FVar.ofReal_c]
    · intro j _ hj
      simp [FVar.ofReal_c, hj]
    · simp
  · rw [FVar.mul_c_of_lt _ _ i (by omega), if_neg h]

theorem FVar.mul_ofReal_c (a : ℚ) (b : FVar n) (i : ℕ) :
    (b * DiffValue.ofReal a).c i = if i ≤ n then b.c i * a else 0 := by
  by_cases h : i ≤ n
  · rw [FVar.mul_c _ _ i h, if_pos h, Finset.sum_eq_single i]
    · simp [FVar.ofReal_c]
    · intro j hj hne
      have : i - j ≠ 0 := by
        have := Finset.mem_range.mp hj
        omega
      simp [FVar.ofReal_c, this]
    · simp
  · rw [FVar.mul_c_of_lt _ _ i (by omega), if_neg h]

theorem FVar.make_fvar_c_succ_succ (t : ℚ) (i : ℕ) (h : 2 ≤ i) : (FVar.make_fvar n t).c i = 0 := by
  obtain ⟨k, rfl⟩ : ∃ k, i = k + 2 := ⟨i - 2, by omega⟩
  exact FVar.make_fvar_c_add_two t k

end fvar

namespace LinearSpline1D

theorem linear_segment_eq (xs : List ℚ) (t : ℚ) :
    segment xs t = HermiteQuinticSplineND.segment xs t := rfl

theorem linear_check_domain_nil (s : LinearSpline1D) (t : ℚ) (h : s.t_breaks = []) :
    s.check_domain t = .error (.runtime_error "Spline is empty") := by
  simp [check_domain, h]

theorem linear_check_domain_eq (s : LinearSpline1D) (t : ℚ) (h : s.t_breaks ≠ []) :
    s.check_domain t =
      if t < s.t_breaks.head h ∨ t > s.t_breaks.getLast h then .error .domain_error
      else .ok () := by
  have hl : 0 < s.t_breaks.length := List.length_pos.mpr h
  have hl' : ¬ s.t_breaks.length < 1 := by omega
  unfold check_domain
  rw [if_neg hl', head?_eq_getD _ hl, getLast?_eq_getD _ hl, head_eq_getD _ h,
    getLast_eq_getD _ h]

theorem linear_check_domain_ok (s : LinearSpline1D) (t : ℚ) (h : 0 < s.t_breaks.length)
    (h0 : s.t_breaks.getD 0 0 ≤ t) (h1 : t ≤ s.t_breaks.getD (s.t_breaks.length - 1) 0) :
    s.check_domain t = .ok () := by
  have hne : s.t_breaks ≠ [] := List.length_pos.mp h
  rw [linear_check_domain_eq s t hne, head_eq_getD, getLast_eq_getD,
    if_neg (by rw [not_or, not_lt, not_lt]; exact ⟨h0, h1⟩)]

/-- With one breakpoint and a query inside the domain, `operator()` is the stored
value plus `t*0`. -/
theorem linear_call_single {T : Type} [DiffValue T] {s : LinearSpline1D} (hb : Built s) (t : T)
    (hcd : s.check_domain (DiffValue.toReal t) = .ok ()) (hlen : s.t_breaks.length = 1) :
    s.call t = .ok (DiffValue.ofReal (s.y_breaks.getD 0 0) + t * 0) := by
  obtain ⟨hy, -, -⟩ := linear_built_invariant hb
  unfold call
  rw [hcd, if_pos hlen, index_zero s.y_breaks (by omega) 0]
  rfl

/-- With several breakpoints and a query inside the domain whose selected segment
is `i + 1`, `operator()` is `y[i] + slopes[i]*(t - t[i])`. -/
theorem linear_call_segment {T : Type} [DiffValue T] {s : LinearSpline1D} (hb : Built s) (t : T)
    (hcd : s.check_domain (DiffValue.toReal t) = .ok ()) (hlen : s.t_breaks.length ≠ 1)
    (i : ℕ) (hseg : segment s.t_breaks (DiffValue.toReal t) = (i : ℤ) + 1)
    (hi : i + 1 < s.t_breaks.length) :
    s.call t = .ok (DiffValue.ofReal (s.y_breaks.getD i 0)
      + DiffValue.ofReal (s.slopes.getD i 0) * (t - DiffValue.ofReal (s.t_breaks.getD i 0))) := by
  obtain ⟨hy, hs, -⟩ := linear_built_invariant hb
  unfold call
  rw [hcd, if_neg hlen]
  simp only [hseg, add_sub_cancel_right]
  rw [index_getD s.t_breaks i (by omega) 0, index_getD s.y_breaks i (by omega) 0,
    index_getD s.slopes i (by omega) 0]
  rfl

end LinearSpline1D

theorem Example.line_built : Example.line.Built :=
  .push_back _ _ _ (.push_back _ _ _ .empty)

theorem Example.line_increasing : Example.line.Increasing := by
  norm_num [LinearSpline1D.Increasing, Example.line, LinearSpline1D.push_back,
    LinearSpline1D.empty]

/-- In-domain evaluation of a built, strictly increasing linear spline with
several breakpoints, for a plain query and for a differentiable one. -/
theorem LinearSpline1D.linear_call_in_domain {s : LinearSpline1D} (hb : s.Built)
    (hlen : 2 ≤ s.t_breaks.length) (t : ℚ)
    (h0 : s.t_breaks.getD 0 0 ≤ t) (h1 : t ≤ s.t_breaks.getD (s.t_breaks.length - 1) 0) :
    ∃ i : ℕ, LinearSpline1D.segment s.t_breaks t = (i : ℤ) + 1 ∧ i + 1 < s.t_breaks.length ∧
      s.call t = .ok (s.y_breaks.getD i 0
        + (s.y_breaks.getD (i + 1) 0 - s.y_breaks.getD i 0)
            / (s.t_breaks.getD (i + 1) 0 - s.t_breaks.getD i 0) * (t - s.t_breaks.getD i 0)) ∧
      ∀ n, 1 ≤ n → ∃ f, s.call (FVar.make_fvar n t) = .ok f ∧
        f.c 0 = s.y_breaks.getD i 0
          + (s.y_breaks.getD (i + 1) 0 - s.y_breaks.getD i 0)
              / (s.t_breaks.getD (i + 1) 0 - s.t_breaks.getD i 0) * (t - s.t_breaks.getD i 0) ∧
        f.c 1 = (s.y_breaks.getD (i + 1) 0 - s.y_breaks.getD i 0)
              / (s.t_breaks.getD (i + 1) 0 - s.t_breaks.getD i 0) ∧
        f.c 2 = 0 := by
  obtain ⟨-, -, hq⟩ := LinearSpline1D.linear_built_invariant hb
  obtain ⟨i, hseg, hi1⟩ := HermiteQuinticSplineND.segment_range s.t_breaks t hlen h0 h1
  have hcd := LinearSpline1D.linear_check_domain_ok s t (by omega) h0 h1
  refine ⟨i, hseg, hi1, ?_, fun n hn => ?_⟩
  · rw [LinearSpline1D.linear_call_segment hb t hcd (by omega) i hseg hi1, hq i hi1]
    rfl
  · rw [LinearSpline1D.linear_call_segment hb (FVar.make_fvar n t) hcd (by omega) i hseg hi1,
      hq i hi1]
    refine ⟨_, rfl, ?_, ?_, ?_⟩
    · simp [FVar.ofReal_c_zero]
    · simp [FVar.ofReal_c_one, FVar.ofReal_mul_c, hn, FVar.make_fvar_c_one hn]
    · simp [FVar.ofReal_c_two, FVar.ofReal_mul_c, FVar.make_fvar_c_two]

/-- The reads of a failed `index` are the only source of `undefined`. -/
theorem index_error {α : Type} (xs : List α) (i : ℤ) (e : Exn) (h : index xs i = .error e) :
    e = .undefined := by
  unfold index at h
  split at h
  · split at h
    · cases h
    · cases h; rfl
  · cases h; rfl

theorem bind_error_undefined {α β : Type} (x : Except Exn α) (f : α → Except Exn β)
    (hx : ∀ e, x = .error e → e = .undefined) (hf : ∀ a e, f a = .error e → e = .undefined)
    (e : Exn) (h : (x >>= f) = .error e) : e = .undefined := by
  cases x with
  | error e' =>
    have : e' = e := by
      have h' : (Except.error e' : Except Exn β) = .error e := h
      cases h'; rfl
    exact this ▸ hx e' rfl
  | ok a => exact hf a e h

namespace HermiteQuinticSplineND
variable {N : ℕ}

/-- The interpolation on a segment can only fail by an out-of-range read. -/
theorem interpolate_error {T : Type} [DiffValue T] (s : HermiteQuinticSplineND N) (i : ℤ) (t : T)
    (e : Exn) (h : s.interpolate i t = .error e) : e = .undefined := by
  unfold interpolate at h
  refine bind_error_undefined _ _ (index_error _ _) (fun t0 e h => ?_) e h
  refine bind_error_undefined _ _ (index_error _ _) (fun t1 e h => ?_) e h
  refine bind_error_undefined _ _ (index_error _ _) (fun y0 e h => ?_) e h
  refine bind_error_undefined _ _ (index_error _ _) (fun y1 e h => ?_) e h
  refine bind_error_undefined _ _ (index_error _ _) (fun v0 e h => ?_) e h
  refine bind_error_undefined _ _ (index_error _ _) (fun v1 e h => ?_) e h
  refine bind_error_undefined _ _ (index_error _ _) (fun a0 e h => ?_) e h
  refine bind_error_undefined _ _ (index_error _ _) (fun a1 e h => ?_) e h
  cases h

/-- Once `check_domain` has passed, `operator()` can only fail by an out-of-range read. -/
theorem call_error_of_check_domain_ok {T : Type} [DiffValue T] (s : HermiteQuinticSplineND N)
    (t : T) (hcd : s.check_domain (DiffValue.toReal t) = .ok ()) (e : Exn)
    (h : s.call t = .error e) : e = .undefined := by
  unfold call at h
  rw [hcd] at h
  change (if s.t_breaks.length = 1 then _ else _) = _ at h
  split at h
  · refine bind_error_undefined _ _ (index_error _ _) (fun t0 e h => ?_) e h
    refine bind_error_undefined _ _ (index_error _ _) (fun y0 e h => ?_) e h
    refine bind_error_undefined _ _ (index_error _ _) (fun v0 e h => ?_) e h
    refine bind_error_undefined _ _ (index_error _ _) (fun a0 e h => ?_) e h
    cases h
  · exact interpolate_error s _ t e h

theorem domain_eq (s : HermiteQuinticSplineND N) (h : 0 < s.t_breaks.length) :
    s.domain = .ok (s.t_breaks.getD 0 0, s.t_breaks.getD (s.t_breaks.length - 1) 0) := by
  unfold domain
  rw [head?_eq_getD _ h, getLast?_eq_getD _ h]

theorem push_back_head? (s : HermiteQuinticSplineND N) (t : ℚ) (y v a : Fin N → ℚ) (x : ℚ)
    (h : s.t_breaks.head? = some x) : (s.push_back t y v a).t_breaks.head? = some x := by
  show (s.t_breaks ++ [t]).head? = some x
  cases hs : s.t_breaks with
  | nil => rw [hs] at h; cases h
  | cons b bs => rw [hs] at h; simpa using h

end HermiteQuinticSplineND

namespace YoungLaplaceShape
variable {E : Externals}

theorem check_domain_iff (s : ℚ) :
    check_domain s = .ok () ↔ ¬ (s < -MAX_ARCLENGTH ∨ s > MAX_ARCLENGTH) := by
  unfold check_domain
  rw [rat_toReal]
  split
  · simp [*]
  · simp [*]

theorem check_domain_error (s : ℚ) (h : s < -MAX_ARCLENGTH ∨ s > MAX_ARCLENGTH) :
    check_domain s = .error .domain_error := by
  unfold check_domain
  rw [rat_toReal, if_pos h]

/-- `step()` leaves the shape cache alone (when it throws) or appends one
breakpoint to it. -/
theorem step_dense (m : YoungLaplaceShape E) :
    (step m).2.dense = m.dense ∨ ∃ t y v a, (step m).2.dense = m.dense.push_back t y v a := by
  unfold step
  dsimp only
  split_ifs <;> first | exact Or.inl rfl | exact Or.inr ⟨_, _, _, _, rfl⟩

/-- `step()` keeps the first breakpoint of the shape cache. -/
theorem step_head? (m : YoungLaplaceShape E) (x : ℚ) (h : m.dense.t_breaks.head? = some x) :
    (step m).2.dense.t_breaks.head? = some x := by
  rcases step_dense m with e | ⟨t, y, v, a, e⟩
  · rw [e]; exact h
  · rw [e]; exact HermiteQuinticSplineND.push_back_head? _ _ _ _ _ _ h

end YoungLaplaceShape

namespace YoungLaplaceShape
variable {E : Externals}

/-- `step()` throws runtime errors only. -/
theorem step_error (m : YoungLaplaceShape E) (e : Exn) (h : (step m).1 = .error e) :
    ∃ what, e = .runtime_error what := by
  unfold step at h
  dsimp only at h
  split_ifs at h <;> exact ⟨_, (Except.error.inj h).symm⟩

theorem step_while_eq (fuel : ℕ) (m : YoungLaplaceShape E) (target : ℚ) :
    step_while fuel m target =
      match m.dense.domain with
      | .error e => some (.error e, m)
      | .ok (_, back) =>
        if back < target then
          match fuel with
          | 0 => none
          | fuel + 1 =>
            match step m with
            | (.error e, m) => some (.error e, m)
            | (.ok (), m) => step_while fuel m target
        else some (.ok (), m) := by
  cases fuel with
  | zero => rw [step_while]
  | succ n => rw [step_while]

/-- With the frontier at or beyond the target the loop body never runs. -/
theorem step_while_noop (fuel : ℕ) (m : YoungLaplaceShape E) (target a b : ℚ)
    (hd : m.dense.domain = .ok (a, b)) (h : ¬ b < target) :
    step_while fuel m target = some (.ok (), m) := by
  rw [step_while_eq, hd]
  simp only [h, if_false]

theorem domain_of_head? {N : ℕ} (d : HermiteQuinticSplineND N) (x : ℚ)
    (h : d.t_breaks.head? = some x) :
    d.domain = .ok (x, d.t_breaks.getD (d.t_breaks.length - 1) 0) := by
  have hl : 0 < d.t_breaks.length := by
    cases hs : d.t_breaks with
    | nil => rw [hs] at h; cases h
    | cons b bs => simp
  have hx : d.t_breaks.getD 0 0 = x := by
    have := head?_eq_getD _ hl
    rw [h] at this
    exact (Option.some.inj this).symm
  rw [HermiteQuinticSplineND.domain_eq d hl, hx]

/-- What the stepping loop guarantees when it ends, for a shape cache that starts
at `x`: the cache still starts at `x`, and either the loop completed with the
frontier at or beyond the target, or `step()` threw a runtime error. -/
theorem step_while_spec (fuel : ℕ) (m : YoungLaplaceShape E) (target x : ℚ)
    (h : m.dense.t_breaks.head? = some x) (r : Except Exn Unit) (m' : YoungLaplaceShape E)
    (hr : step_while fuel m target = some (r, m')) :
    m'.dense.t_breaks.head? = some x ∧
      ((r = .ok () ∧ ¬ m'.dense.t_breaks.getD (m'.dense.t_breaks.length - 1) 0 < target)
        ∨ ∃ what, r = .error (.runtime_error what)) := by
  induction fuel generalizing m with
  | zero =>
    rw [step_while_eq, domain_of_head? _ x h] at hr
    dsimp only at hr
    split_ifs at hr with hlt
    cases hr
    exact ⟨h, Or.inl ⟨rfl, hlt⟩⟩
  | succ n ih =>
    rw [step_while_eq, domain_of_head? _ x h] at hr
    dsimp only at hr
    split_ifs at hr with hlt
    · have hh := step_head? m x h
      rcases hs : step m with ⟨r1, m1⟩
      rw [hs] at hr hh
      cases r1 with
      | error e =>
        dsimp only at hr
        cases hr
        obtain ⟨what, rfl⟩ := step_error m e (by rw [hs])
        exact ⟨hh, Or.inr ⟨what, rfl⟩⟩
      | ok u =>
        exact ih m1 hh hr
    · cases hr
      exact ⟨h, Or.inl ⟨rfl, hlt⟩⟩

end YoungLaplaceShape

namespace YoungLaplaceShape
variable {E : Externals}

theorem step_DBo_while_eq (fuel n : ℕ) (m : YoungLaplaceShape E) (target : ℚ) :
    step_DBo_while fuel n m target =
      match m.dense_DBo.domain with
      | .error e => some (.error e, m)
      | .ok (_, back) =>
        if back < target then
          match n with
          | 0 => none
          | n + 1 =>
            match step_DBo fuel m with
            | none => none
            | some (.error e, m) => some (.error e, m)
            | some (.ok (), m) => step_DBo_while fuel n m target
        else some (.ok (), m) := by
  cases n with
  | zero => rw [step_DBo_while]
  | succ n => rw [step_DBo_while]

/-- With the sensitivity frontier at or beyond the target the loop body never runs. -/
theorem step_DBo_while_noop (fuel n : ℕ) (m : YoungLaplaceShape E) (target a b : ℚ)
    (hd : m.dense_DBo.domain = .ok (a, b)) (h : ¬ b < target) :
    step_DBo_while fuel n m target = some (.ok (), m) := by
  rw [step_DBo_while_eq, hd]
  simp only [h, if_false]

/-- A query outside `[-MAX_ARCLENGTH, MAX_ARCLENGTH]` is rejected by `operator()`
before anything else happens. -/
theorem call_out_of_range (fuel : ℕ) (m : YoungLaplaceShape E) (s : ℚ)
    (h : s < -MAX_ARCLENGTH ∨ s > MAX_ARCLENGTH) :
    call fuel m s = some (.error .domain_error, m) := by
  unfold call
  rw [check_domain_error s h]

/-- A query outside `[-MAX_ARCLENGTH, MAX_ARCLENGTH]` is rejected by `DBo`
before anything else happens. -/
theorem DBo_out_of_range (fuel : ℕ) (m : YoungLaplaceShape E) (s : ℚ)
    (h : s < -MAX_ARCLENGTH ∨ s > MAX_ARCLENGTH) :
    DBo fuel m s = some (.error .domain_error, m) := by
  unfold DBo
  rw [check_domain_error s h]

/-- Inside the range, `operator()` on a model whose shape cache starts at `s = 0`
never ends with a domain error. -/
theorem call_in_range_not_domain_error (fuel : ℕ) (m : YoungLaplaceShape E) (s : ℚ)
    (h0 : m.dense.t_breaks.head? = some 0) (h : ¬ (s < -MAX_ARCLENGTH ∨ s > MAX_ARCLENGTH)) :
    thrown (call fuel m s) ≠ some .domain_error := by
  rw [not_or, not_lt, not_lt] at h
  have habs : (if DiffValue.toReal s ≥ 0 then s else -s) = |s| := by
    rw [rat_toReal]
    split
    · rw [abs_of_nonneg (by assumption)]
    · rw [rat_neg, abs_of_neg (by linarith)]
  have hle : |s| ≤ MAX_ARCLENGTH := abs_le.mpr ⟨h.1, h.2⟩
  unfold call
  rw [(check_domain_iff s).mpr (by rw [not_or, not_lt, not_lt]; exact h)]
  dsimp only
  rw [habs, rat_toReal, min_eq_left hle]
  cases hw : step_while fuel m |s| with
  | none => simp [thrown]
  | some p =>
    obtain ⟨r, m'⟩ := p
    obtain ⟨hh, hr⟩ := step_while_spec fuel m |s| 0 h0 r m' hw
    rcases hr with ⟨rfl, hback⟩ | ⟨what, rfl⟩
    · dsimp only
      have hl : 0 < m'.dense.t_breaks.length := by
        cases hs : m'.dense.t_breaks with
        | nil => rw [hs] at hh; cases hh
        | cons b bs => simp
      have hfront : m'.dense.t_breaks.getD 0 0 = 0 := by
        have := head?_eq_getD _ hl
        rw [hh] at this
        exact (Option.some.inj this).symm
      have hcd : m'.dense.check_domain (DiffValue.toReal |s|) = .ok () :=
        HermiteQuinticSplineND.check_domain_ok _ _ hl (by rw [hfront]; exact abs_nonneg s)
          (not_lt.mp hback)
      cases hc : m'.dense.call |s| with
      | error e =>
        have := HermiteQuinticSplineND.call_error_of_check_domain_ok _ _ hcd e hc
        subst this
        simp [thrown]
      | ok ans => simp [thrown]
    · simp [thrown]

/-- Negating the `r` component of a result. -/
theorem update_neg (ans : Fin 2 → ℚ) :
    Function.update ans 0 (ans 0 * (-1)) = ![-(ans 0), ans 1] := by
  funext j
  fin_cases j
  · simp
  · simp

end YoungLaplaceShape

theorem HermiteQuinticSplineND.domain_ok {N : ℕ} (d : HermiteQuinticSplineND N) (a b : ℚ)
    (h : d.domain = .ok (a, b)) :
    ∃ hne : d.t_breaks ≠ [], d.t_breaks.head hne = a ∧ d.t_breaks.getLast hne = b := by
  unfold HermiteQuinticSplineND.domain at h
  cases hs : d.t_breaks with
  | nil => rw [hs] at h; cases h
  | cons x xs =>
    have hne : d.t_breaks ≠ [] := by rw [hs]; exact List.cons_ne_nil _ _
    have e1 := List.head?_eq_head hne
    have e2 := List.getLast?_eq_getLast _ hne
    rw [e1, e2] at h
    simp only [Except.ok.injEq, Prod.mk.injEq] at h
    refine ⟨List.cons_ne_nil _ _, ?_, ?_⟩
    · simpa [hs] using h.1
    · simpa [hs] using h.2

theorem Example.drop_dense_built : Example.drop.dense.Built :=
  .push_back _ _ _ _ _ (.push_back _ _ _ _ _ (.push_back _ _ _ _ _ .empty))

theorem Example.drop_dense_DBo_built : Example.drop.dense_DBo.Built :=
  .push_back _ _ _ _ _ (.push_back _ _ _ _ _ (.push_back _ _ _ _ _ .empty))

namespace YoungLaplaceShape
variable {E : Externals}

/-- A plain query inside a built cache's domain is answered by the cache. -/
theorem cache_call_ok {d : HermiteQuinticSplineND 2} (hb : d.Built) (a b s : ℚ)
    (hd : d.domain = .ok (a, b)) (ha : a ≤ s) (hsb : s ≤ b) : ∃ ans, d.call s = .ok ans := by
  obtain ⟨hne, h1, h2⟩ := HermiteQuinticSplineND.domain_ok d a b hd
  apply HermiteQuinticSplineND.call_ok hb s hne
  rw [rat_toReal, h1, h2, not_or, not_lt, not_lt]
  exact ⟨ha, hsb⟩

end YoungLaplaceShape

namespace YoungLaplaceShape
variable {E : Externals}

/-- The caches of a freshly constructed model: one breakpoint each, at `s = 0`,
holding the initial condition; the latch is clear. -/
theorem new_caches (bond : ℚ) (m : YoungLaplaceShape E) (h : new E bond = .ok m) :
    m.bond = bond
    ∧ m.dense = HermiteQuinticSplineND.empty.push_back 0 ![0, 0] ![1, 0] ![0, 1]
    ∧ m.dense_DBo = HermiteQuinticSplineND.empty.push_back 0 ![0, 0] ![0, 0] ![0, 0]
    ∧ m.dense_z_inv = LinearSpline1D.empty.push_back 0 0
    ∧ m.max_z_solved = false := by
  unfold new at h
  simp only [bind, Except.bind, pure, Except.pure] at h
  repeat' split at h
  all_goals cases h
  exact ⟨rfl, rfl, rfl, rfl, rfl⟩

/-- `step()` keeps the shape cache built. -/
theorem step_built (m : YoungLaplaceShape E) (h : m.dense.Built) : (step m).2.dense.Built := by
  rcases step_dense m with e | ⟨t, y, v, a, e⟩
  · rw [e]; exact h
  · rw [e]; exact .push_back _ _ _ _ _ h

/-- The shape cache of a freshly constructed model is built and starts at `s = 0`. -/
theorem new_dense (bond : ℚ) (m : YoungLaplaceShape E) (h : new E bond = .ok m) :
    m.dense.Built ∧ m.dense.t_breaks.head? = some 0 ∧ m.dense.domain = .ok (0, 0) := by
  obtain ⟨-, hd, -, -, -⟩ := new_caches bond m h
  rw [hd]
  exact ⟨.push_back _ _ _ _ _ .empty, rfl, rfl⟩

/-- The sensitivity cache of a freshly constructed model is built and starts at
`s = 0`. -/
theorem new_dense_DBo (bond : ℚ) (m : YoungLaplaceShape E) (h : new E bond = .ok m) :
    m.dense_DBo.Built ∧ m.dense_DBo.domain = .ok (0, 0) := by
  obtain ⟨-, -, hd, -, -⟩ := new_caches bond m h
  rw [hd]
  exact ⟨.push_back _ _ _ _ _ .empty, rfl⟩

/-- The stepping loop keeps the shape cache built. -/
theorem step_while_built (fuel : ℕ) (m : YoungLaplaceShape E) (target : ℚ) (h : m.dense.Built)
    (r : Except Exn Unit) (m' : YoungLaplaceShape E)
    (hr : step_while fuel m target = some (r, m')) : m'.dense.Built := by
  induction fuel generalizing m with
  | zero =>
    rw [step_while_eq] at hr
    split at hr
    · cases hr; exact h
    · split_ifs at hr
      cases hr; exact h
  | succ n ih =>
    rw [step_while_eq] at hr
    split at hr
    · cases hr; exact h
    · split_ifs at hr
      · have hb := step_built m h
        rcases hs : step m with ⟨r1, m1⟩
        rw [hs] at hr hb
        cases r1 with
        | error e => dsimp only at hr; cases hr; exact hb
        | ok u => exact ih m1 hb hr
      · cases hr; exact h

end YoungLaplaceShape

namespace HermiteQuinticSplineND

/-- The segment polynomial expanded about its left end: value `y0`, slope `v0`,
curvature `a0`, and a remainder of order `h^3`. -/
theorem horner_taylor_left (d : ℚ) (hd : d ≠ 0) (y0 y1 v0 v1 a0 a1 : ℚ) :
    ∃ c0 c1 c2 : ℚ, ∀ h : ℚ,
      horner d (h / d) y0 y1 v0 v1 a0 a1
        = y0 + v0 * h + a0 / 2 * h ^ 2 + h ^ 3 * (c0 + c1 * h + c2 * h ^ 2) := by
  refine ⟨(-10*y0 - 6*d*v0 - 3*d^2/2*a0 + d^2/2*a1 - 4*d*v1 + 10*y1) / d^3,
    (15*y0 + 8*d*v0 + 3*d^2/2*a0 - d^2*a1 + 7*d*v1 - 15*y1) / d^4,
    (-6*y0 - 3*d*v0 - d^2/2*a0 + d^2/2*a1 - 3*d*v1 + 6*y1) / d^5, fun h => ?_⟩
  rw [horner_eq_basis]
  field_simp
  ring

/-- The segment polynomial expanded about its right end: value `y1`, slope `v1`,
curvature `a1`, and a remainder of order `h^3`. -/
theorem horner_taylor_right (d : ℚ) (hd : d ≠ 0) (y0 y1 v0 v1 a0 a1 : ℚ) :
    ∃ c0 c1 c2 : ℚ, ∀ h : ℚ,
      horner d ((d + h) / d) y0 y1 v0 v1 a0 a1
        = y1 + v1 * h + a1 / 2 * h ^ 2 + h ^ 3 * (c0 + c1 * h + c2 * h ^ 2) := by
  refine ⟨-(-10*y1 + 6*d*v1 - 3*d^2/2*a1 + d^2/2*a0 + 4*d*v0 + 10*y0) / d^3,
    (15*y1 - 8*d*v1 + 3*d^2/2*a1 - d^2*a0 - 7*d*v0 - 15*y0) / d^4,
    -(-6*y1 + 3*d*v1 - d^2/2*a1 + d^2/2*a0 + 3*d*v0 + 6*y0) / d^5, fun h => ?_⟩
  rw [horner_eq_basis]
  field_simp
  ring

end HermiteQuinticSplineND

namespace HermiteQuinticSplineND
variable {N : ℕ}

/-- Plain evaluation of the polynomial of segment `i + 1` near its left end
`t[i]`: it is `y[i] + v[i] h + a[i]/2 h^2` up to a remainder of order `h^3`. -/
theorem interpolate_taylor_left {s : HermiteQuinticSplineND N} (hb : Built s) (hi : Increasing s)
    (i : ℕ) (hi1 : i + 1 < s.t_breaks.length) :
    ∃ c0 c1 c2 : Fin N → ℚ, ∀ h : ℚ,
      s.interpolate ((i : ℤ) + 1) (s.t_breaks.getD i 0 + h) = .ok (fun j =>
        s.y_breaks.getD i 0 j + s.v_breaks.getD i 0 j * h + s.a_breaks.getD i 0 j / 2 * h ^ 2
          + h ^ 3 * (c0 j + c1 j * h + c2 j * h ^ 2)) := by
  have hdt : s.t_breaks.getD (i + 1) 0 - s.t_breaks.getD i 0 ≠ 0 :=
    ne_of_gt (sub_pos.mpr (increasing_getD_lt _ hi i (i + 1) (by omega) hi1))
  choose c0 c1 c2 hc using fun j => horner_taylor_left _ hdt
    (s.y_breaks.getD i 0 j) (s.y_breaks.getD (i + 1) 0 j)
    (s.v_breaks.getD i 0 j) (s.v_breaks.getD (i + 1) 0 j)
    (s.a_breaks.getD i 0 j) (s.a_breaks.getD (i + 1) 0 j)
  refine ⟨c0, c1, c2, fun h => ?_⟩
  rw [interpolate_ok hb i hi1]
  congr 1
  funext j
  rw [← hc j h, rat_sub, rat_ofReal, rat_hdiv, add_sub_cancel_left]

/-- Plain evaluation of the polynomial of segment `i + 1` near its right end
`t[i + 1]`: it is `y[i+1] + v[i+1] h + a[i+1]/2 h^2` up to a remainder of order
`h^3`. -/
theorem interpolate_taylor_right {s : HermiteQuinticSplineND N} (hb : Built s)
    (hi : Increasing s) (i : ℕ) (hi1 : i + 1 < s.t_breaks.length) :
    ∃ c0 c1 c2 : Fin N → ℚ, ∀ h : ℚ,
      s.interpolate ((i : ℤ) + 1) (s.t_breaks.getD (i + 1) 0 + h) = .ok (fun j =>
        s.y_breaks.getD (i + 1) 0 j + s.v_breaks.getD (i + 1) 0 j * h
          + s.a_breaks.getD (i + 1) 0 j / 2 * h ^ 2
          + h ^ 3 * (c0 j + c1 j * h + c2 j * h ^ 2)) := by
  have hdt : s.t_breaks.getD (i + 1) 0 - s.t_breaks.getD i 0 ≠ 0 :=
    ne_of_gt (sub_pos.mpr (increasing_getD_lt _ hi i (i + 1) (by omega) hi1))
  choose c0 c1 c2 hc using fun j => horner_taylor_right _ hdt
    (s.y_breaks.getD i 0 j) (s.y_breaks.getD (i + 1) 0 j)
    (s.v_breaks.getD i 0 j) (s.v_breaks.getD (i + 1) 0 j)
    (s.a_breaks.getD i 0 j) (s.a_breaks.getD (i + 1) 0 j)
  refine ⟨c0, c1, c2, fun h => ?_⟩
  rw [interpolate_ok hb i hi1]
  congr 1
  funext j
  rw [← hc j h, rat_sub, rat_ofReal, rat_hdiv]
  congr 2
  ring

end HermiteQuinticSplineND

/-! ### Cached evaluation, the inverse-height lookup -/

namespace YoungLaplaceShape
variable {E : Externals}

/-- A query whose target is not beyond the frontier is answered from the cache:
no step runs, whatever the fuel, and the model is unchanged. -/
theorem call_cached {T : Type} [DiffValue T] (m : YoungLaplaceShape E) (s : T) (a b : ℚ)
    (hd : m.dense.domain = .ok (a, b))
    (hs : DiffValue.toReal (if DiffValue.toReal s ≥ 0 then s else -s) ≤ b) :
    ∃ r, ∀ fuel, call fuel m s = some (r, m) := by
  have hno : ∀ fuel, step_while fuel m
      (min (DiffValue.toReal (if DiffValue.toReal s ≥ 0 then s else -s)) MAX_ARCLENGTH)
        = some (.ok (), m) :=
    fun fuel => step_while_noop fuel m _ a b hd (not_lt.mpr (le_trans (min_le_left _ _) hs))
  unfold call
  cases check_domain s with
  | error e => exact ⟨_, fun _ => rfl⟩
  | ok u =>
    dsimp only
    cases hc : m.dense.call (if DiffValue.toReal s ≥ 0 then s else -s) with
    | error e => exact ⟨.error e, fun fuel => by simp only [hno fuel, hc]⟩
    | ok ans =>
      exact ⟨.ok (if DiffValue.toReal s < 0 then Function.update ans 0 (ans 0 * (-1)) else ans),
        fun fuel => by simp only [hno fuel, hc]⟩

theorem rat_abs_arg (s : ℚ) :
    DiffValue.toReal (if DiffValue.toReal s ≥ 0 then s else -s) = |s| := by
  simp only [rat_toReal, rat_neg]
  split
  · rw [abs_of_nonneg (by assumption)]
  · rw [abs_of_neg (by linarith)]

theorem fvar_abs_arg {n : ℕ} (s : FVar n) :
    DiffValue.toReal (if DiffValue.toReal s ≥ 0 then s else -s) = |s.c 0| := by
  simp only [FVar.toReal_eq]
  split
  · rw [abs_of_nonneg (by assumption)]
  · rw [FVar.neg_c, abs_of_neg (by linarith)]

theorem z_inv_while_eq (fuel : ℕ) (m : YoungLaplaceShape E) (z : ℚ) :
    z_inv_while fuel m z =
      match m.dense_z_inv.domain with
      | .error e => some (.error e, m)
      | .ok (_, back) =>
        if back < z ∧ !m.max_z_solved then
          match fuel with
          | 0 => none
          | fuel + 1 =>
            match step m with
            | (.error e, m) => some (.error e, m)
            | (.ok (), m) => z_inv_while fuel m z
        else some (.ok (), m) := by
  cases fuel with
  | zero => rw [z_inv_while]
  | succ n => rw [z_inv_while]

/-- With the lookup's frontier at or beyond `z`, or with the latch set, the loop
body of `z_inv` never runs. -/
theorem z_inv_while_noop (fuel : ℕ) (m : YoungLaplaceShape E) (z a b : ℚ)
    (hd : m.dense_z_inv.domain = .ok (a, b)) (h : ¬ (b < z ∧ m.max_z_solved = false)) :
    z_inv_while fuel m z = some (.ok (), m) := by
  rw [z_inv_while_eq, hd]
  dsimp only
  rw [if_neg]
  simpa using h

/-- When the loop of `z_inv` completes, the lookup is not empty and its loop
condition is false. -/
theorem z_inv_while_spec (fuel : ℕ) (m m' : YoungLaplaceShape E) (z : ℚ)
    (h : z_inv_while fuel m z = some (.ok (), m')) :
    ∃ front back, m'.dense_z_inv.domain = .ok (front, back)
      ∧ ¬ (back < z ∧ m'.max_z_solved = false) := by
  induction fuel generalizing m with
  | zero =>
    rw [z_inv_while_eq] at h
    cases hd : m.dense_z_inv.domain with
    | error e => rw [hd] at h; cases h
    | ok p =>
      obtain ⟨a, b⟩ := p
      rw [hd] at h
      dsimp only at h
      split_ifs at h with hc
      cases h
      exact ⟨a, b, hd, by simpa using hc⟩
  | succ n ih =>
    rw [z_inv_while_eq] at h
    cases hd : m.dense_z_inv.domain with
    | error e => rw [hd] at h; cases h
    | ok p =>
      obtain ⟨a, b⟩ := p
      rw [hd] at h
      dsimp only at h
      split_ifs at h with hc
      · rcases hs : step m with ⟨r1, m1⟩
        rw [hs] at h
        cases r1 with
        | error e => dsimp only at h; cases h
        | ok u => exact ih m1 h
      · cases h
        exact ⟨a, b, hd, by simpa using hc⟩

end YoungLaplaceShape

namespace LinearSpline1D

/-- The bounds that `check_domain` tests are those that `domain()` returns. -/
theorem linear_check_domain_of_domain (s : LinearSpline1D) (t front back : ℚ)
    (h : s.domain = .ok (front, back)) :
    s.check_domain t = if t < front ∨ t > back then .error .domain_error else .ok () := by
  unfold domain at h
  unfold check_domain
  cases hs : s.t_breaks with
  | nil => rw [hs] at h; cases h
  | cons x xs =>
    rw [hs] at h
    have hl : ¬ (x :: xs).length < 1 := by simp
    rw [if_neg hl]
    cases hg : (x :: xs).getLast? with
    | none => rw [hg] at h; cases h
    | some b =>
      rw [hg] at h
      simp only [List.head?_cons, Except.ok.injEq, Prod.mk.injEq] at h
      obtain ⟨rfl, rfl⟩ := h
      rfl

/-- Once `check_domain` has passed, `operator()` can only fail by an out-of-range read. -/
theorem linear_call_error_of_check_domain_ok {T : Type} [DiffValue T] (s : LinearSpline1D)
    (t : T) (hcd : s.check_domain (DiffValue.toReal t) = .ok ()) (e : Exn)
    (h : s.call t = .error e) : e = .undefined := by
  unfold call at h
  rw [hcd] at h
  change (if s.t_breaks.length = 1 then _ else _) = _ at h
  split at h
  · refine bind_error_undefined _ _ (index_error _ _) (fun y0 e h => ?_) e h
    cases h
  · refine bind_error_undefined _ _ (index_error _ _) (fun t0 e h => ?_) e h
    refine bind_error_undefined _ _ (index_error _ _) (fun y0 e h => ?_) e h
    refine bind_error_undefined _ _ (index_error _ _) (fun sl e h => ?_) e h
    cases h

end LinearSpline1D

/-! ### Append-only growth and the invariants of the caches -/

namespace Evolve
variable {Mem : Type}

/-- What `run` returns is one of the ways the call can end. -/
theorem run_leaf (rhs : ℚ → Vec4 → Vec4) (t : Evolve Mem) :
    Leaf t (run rhs t).1 (run rhs t).2.1 (run rhs t).2.2.1 (run rhs t).2.2.2 := by
  induction t with
  | done flag mem nv tcur => exact .done flag mem nv tcur
  | rhs s y k ih => exact .rhs s y k (rhs s y) _ _ _ _ (ih (rhs s y))

/-- A relation that every right-hand-side callback respects is respected by the
whole integrator call, and what `runM` returns is one of the ways the call can
end. -/
theorem runM_rel {σ : Type} (R : σ → σ → Prop) (hrefl : ∀ a, R a a)
    (htrans : ∀ a b c, R a b → R b c → R a c) (rhs : σ → ℚ → Vec4 → Outcome σ Vec4)
    (hrhs : ∀ st s y r st', rhs st s y = some (r, st') → R st st')
    (t : Evolve Mem) (st : σ) (r : Except Exn (ℤ × Mem × Vec4 × ℚ)) (st' : σ)
    (h : runM rhs t st = some (r, st')) :
    R st st' ∧ ∀ flag mem nv tcur, r = .ok (flag, mem, nv, tcur) → Leaf t flag mem nv tcur := by
  induction t generalizing st with
  | done flag mem nv tcur =>
    simp only [runM, Option.some.injEq, Prod.mk.injEq] at h
    obtain ⟨rfl, rfl⟩ := h
    refine ⟨hrefl _, fun flag' mem' nv' tcur' he => ?_⟩
    simp only [Except.ok.injEq, Prod.mk.injEq] at he
    obtain ⟨rfl, rfl, rfl, rfl⟩ := he
    exact .done _ _ _ _
  | rhs s y k ih =>
    rw [runM] at h
    cases hq : rhs st s y with
    | none => rw [hq] at h; cases h
    | some p =>
      obtain ⟨r1, st1⟩ := p
      have h1 := hrhs st s y r1 st1 hq
      rw [hq] at h
      cases r1 with
      | error e =>
        simp only [Option.some.injEq, Prod.mk.injEq] at h
        obtain ⟨rfl, rfl⟩ := h
        exact ⟨h1, fun _ _ _ _ he => by cases he⟩
      | ok dy =>
        obtain ⟨h2, h3⟩ := ih dy st1 h
        exact ⟨htrans _ _ _ h1 h2, fun flag mem nv tcur he => .rhs s y k dy _ _ _ _ (h3 _ _ _ _ he)⟩

end Evolve

namespace HermiteQuinticSplineND
variable {N : ℕ}

theorem prefix_refl (d : HermiteQuinticSplineND N) : d.Prefix d :=
  ⟨List.prefix_refl _, List.prefix_refl _, List.prefix_refl _, List.prefix_refl _⟩

theorem prefix_trans {a b c : HermiteQuinticSplineND N} (h1 : a.Prefix b) (h2 : b.Prefix c) :
    a.Prefix c :=
  ⟨h1.1.trans h2.1, h1.2.1.trans h2.2.1, h1.2.2.1.trans h2.2.2.1, h1.2.2.2.trans h2.2.2.2⟩

theorem prefix_push_back (d : HermiteQuinticSplineND N) (t : ℚ) (y v a : Fin N → ℚ) :
    d.Prefix (d.push_back t y v a) :=
  ⟨List.prefix_append _ _, List.prefix_append _ _, List.prefix_append _ _,
    List.prefix_append _ _⟩

theorem head?_append_of_some {α : Type} (l : List α) (x a : α) (h : l.head? = some a) :
    (l ++ [x]).head? = some a := by
  cases l with
  | nil => cases h
  | cons b bs => simpa using h

/-- Appending a breakpoint keeps the apex breakpoint first. -/
theorem apex_push_back (d : HermiteQuinticSplineND 2) (t : ℚ) (y v a : Fin 2 → ℚ)
    (h : d.Apex) : (d.push_back t y v a).Apex :=
  ⟨head?_append_of_some _ _ _ h.1, head?_append_of_some _ _ _ h.2.1,
    head?_append_of_some _ _ _ h.2.2.1, head?_append_of_some _ _ _ h.2.2.2⟩

/-- Appending a breakpoint after all the others keeps the cache strictly increasing. -/
theorem increasing_push_back (d : HermiteQuinticSplineND N) (t : ℚ) (y v a : Fin N → ℚ)
    (h : d.Increasing) (hlt : ∀ x ∈ d.t_breaks, x < t) : (d.push_back t y v a).Increasing := by
  show (d.t_breaks ++ [t]).Pairwise (· < ·)
  rw [List.pairwise_append]
  refine ⟨h, List.pairwise_singleton _ _, fun x hx y hy => ?_⟩
  rw [List.mem_singleton] at hy
  subst hy
  exact hlt x hx

theorem mem_push_back (d : HermiteQuinticSplineND N) (t : ℚ) (y v a : Fin N → ℚ) (x : ℚ)
    (h : x ∈ (d.push_back t y v a).t_breaks) : x ∈ d.t_breaks ∨ x = t := by
  have h' : x ∈ d.t_breaks ++ [t] := h
  rw [List.mem_append, List.mem_singleton] at h'
  exact h'

end HermiteQuinticSplineND

namespace YoungLaplaceShape
variable {E : Externals}

theorem shapeExt_refl (m : YoungLaplaceShape E) : ShapeExt m m :=
  ⟨rfl, rfl, rfl, rfl, HermiteQuinticSplineND.prefix_refl _, fun _ h => h⟩

theorem shapeExt_trans {a b c : YoungLaplaceShape E} (h1 : ShapeExt a b) (h2 : ShapeExt b c) :
    ShapeExt a c :=
  ⟨h2.bond.trans h1.bond, h2.dense_DBo.trans h1.dense_DBo, h2.mem_DBo.trans h1.mem_DBo,
    h2.nv_DBo.trans h1.nv_DBo, HermiteQuinticSplineND.prefix_trans h1.pref h2.pref, fun ha hi => h2.inv ha (h1.inv ha hi)⟩

theorem ext_refl (m : YoungLaplaceShape E) : Ext m m :=
  ⟨HermiteQuinticSplineND.prefix_refl _, HermiteQuinticSplineND.prefix_refl _, fun _ h => h⟩

theorem ext_trans {a b c : YoungLaplaceShape E} (h1 : Ext a b) (h2 : Ext b c) : Ext a c :=
  ⟨HermiteQuinticSplineND.prefix_trans h1.pref h2.pref, HermiteQuinticSplineND.prefix_trans h1.pref_DBo h2.pref_DBo, fun ha hi => h2.inv ha (h1.inv ha hi)⟩

/-- A call that only steps the shape is a query like any other. -/
theorem ShapeExt.toExt {a b : YoungLaplaceShape E} (h : ShapeExt a b) : Ext a b := by
  refine ⟨h.pref, ?_, fun ha hi => ⟨h.inv ha hi.1, ?_⟩⟩
  · rw [h.dense_DBo]; exact HermiteQuinticSplineND.prefix_refl _
  · unfold InvD
    rw [h.dense_DBo, h.mem_DBo]
    exact hi.2

/-- The shape integrator of a model that satisfies the invariant is not before
time `0`. -/
theorem InvS.time_nonneg {m : YoungLaplaceShape E} (h : InvS m) : 0 ≤ E.time m.arkode_mem := by
  obtain ⟨-, ha, -, ht⟩ := h
  apply ht
  have h0 := ha.1
  cases hs : m.dense.t_breaks with
  | nil => rw [hs] at h0; cases h0
  | cons b bs =>
    rw [hs] at h0
    simp only [List.head?_cons, Option.some.injEq] at h0
    subst h0
    exact List.mem_cons_self _ _

theorem tnext_def (mem : E.Mem) :
    (if (E.ERKStepGetCurrentTime mem).2 = 0 then some ((E.ERKStepGetCurrentTime mem).2 + 1/10)
      else none) = E.tnext mem := rfl

/-- `step()` does not touch the Bond number or the sensitivity side. -/
theorem step_frame (m : YoungLaplaceShape E) :
    (step m).2.bond = m.bond ∧ (step m).2.dense_DBo = m.dense_DBo
      ∧ (step m).2.arkode_mem_DBo = m.arkode_mem_DBo ∧ (step m).2.nv_DBo = m.nv_DBo := by
  unfold step
  dsimp only
  split_ifs <;> exact ⟨rfl, rfl, rfl, rfl⟩

/-- What `step()` does to the shape cache and to the shape integrator: for one of
the ways the integrator call can end, either nothing is appended and the
integrator is the old or the reported one, or the call did not fail, one
breakpoint is appended at the reported time `tcur`, and the integrator is the
reported one, possibly with root finding disabled. -/
theorem step_spec (m : YoungLaplaceShape E) :
    ∃ flag mem nv tcur,
      (E.ERKStepEvolve m.arkode_mem (E.tnext m.arkode_mem) m.nv).Leaf flag mem nv tcur ∧
      (((step m).2.dense = m.dense
          ∧ ((step m).2.arkode_mem = m.arkode_mem ∨ (flag < 0 ∧ (step m).2.arkode_mem = mem)))
        ∨ (0 ≤ flag ∧ (∃ y v a, (step m).2.dense = m.dense.push_back tcur y v a)
            ∧ ((step m).2.arkode_mem = mem
                ∨ (step m).2.arkode_mem = (E.ERKStepRootInit mem 0).2))) := by
  have hl := Evolve.run_leaf (arkrhs m) (E.ERKStepEvolve m.arkode_mem (E.tnext m.arkode_mem) m.nv)
  unfold step
  dsimp only
  rw [tnext_def]
  generalize Evolve.run (arkrhs m) (E.ERKStepEvolve m.arkode_mem (E.tnext m.arkode_mem) m.nv)
    = res at hl ⊢
  obtain ⟨flag, mem, nv, tcur⟩ := res
  refine ⟨flag, mem, nv, tcur, hl, ?_⟩
  dsimp only
  split_ifs with h1 h2 h3 h4
  · exact Or.inl ⟨rfl, Or.inl rfl⟩
  · exact Or.inl ⟨rfl, Or.inr ⟨h2, rfl⟩⟩
  · exact Or.inr ⟨not_lt.mp h2, ⟨_, _, _, rfl⟩, Or.inr rfl⟩
  · exact Or.inr ⟨not_lt.mp h2, ⟨_, _, _, rfl⟩, Or.inl rfl⟩
  · exact Or.inr ⟨not_lt.mp h2, ⟨_, _, _, rfl⟩, Or.inl rfl⟩

end YoungLaplaceShape

namespace YoungLaplaceShape
variable {E : Externals}

/-- `step()` only steps the shape. -/
theorem step_shapeExt (m : YoungLaplaceShape E) : ShapeExt m (step m).2 := by
  obtain ⟨hb, hd, hm, hn⟩ := step_frame m
  refine ⟨hb, hd, hm, hn, ?_, fun hadv hinv => ?_⟩
  · rcases step_dense m with e | ⟨t, y, v, a, e⟩
    · rw [e]; exact HermiteQuinticSplineND.prefix_refl _
    · rw [e]; exact HermiteQuinticSplineND.prefix_push_back _ _ _ _ _
  · obtain ⟨flag, mem, nv, tcur, hl, hcase⟩ := step_spec m
    obtain ⟨hmono, hsucc⟩ := hadv.evolve _ _ _ _ _ _ hinv.time_nonneg hl
    obtain ⟨hbuilt, hapex, hinc, hle⟩ := hinv
    rcases hcase with ⟨hd, hmem⟩ | ⟨hflag, ⟨y, v, a, hd⟩, hmem⟩
    · unfold InvS
      rw [hd]
      refine ⟨hbuilt, hapex, hinc, fun t ht => ?_⟩
      rcases hmem with e | ⟨_, e⟩
      · rw [e]; exact hle t ht
      · rw [e]; exact le_trans (hle t ht) hmono
    · obtain ⟨hlt, hle'⟩ := hsucc hflag
      have htime : tcur ≤ E.time (step m).2.arkode_mem := by
        rcases hmem with e | e
        · rw [e]; exact hle'
        · rw [e, hadv.rootInit]; exact hle'
      unfold InvS
      rw [hd]
      refine ⟨.push_back _ _ _ _ _ hbuilt, HermiteQuinticSplineND.apex_push_back _ _ _ _ _ hapex,
        HermiteQuinticSplineND.increasing_push_back _ _ _ _ _ hinc
          (fun x hx => lt_of_le_of_lt (hle x hx) hlt), fun t ht => ?_⟩
      rcases HermiteQuinticSplineND.mem_push_back _ _ _ _ _ _ ht with h | h
      · exact le_trans (le_of_lt (lt_of_le_of_lt (hle t h) hlt)) htime
      · rw [h]; exact htime

/-- The stepping loop of `operator()` only steps the shape. -/
theorem step_while_shapeExt (fuel : ℕ) (m : YoungLaplaceShape E) (target : ℚ)
    (r : Except Exn Unit) (m' : YoungLaplaceShape E)
    (h : step_while fuel m target = some (r, m')) : ShapeExt m m' := by
  induction fuel generalizing m with
  | zero =>
    rw [step_while_eq] at h
    split at h
    · cases h; exact shapeExt_refl _
    · split_ifs at h
      cases h; exact shapeExt_refl _
  | succ n ih =>
    rw [step_while_eq] at h
    split at h
    · cases h; exact shapeExt_refl _
    · split_ifs at h
      · have h1 := step_shapeExt m
        rcases hs : step m with ⟨r1, m1⟩
        rw [hs] at h h1
        cases r1 with
        | error e => dsimp only at h; cases h; exact h1
        | ok u => exact shapeExt_trans h1 (ih m1 h)
      · cases h; exact shapeExt_refl _

/-- The stepping loop of `z_inv` only steps the shape. -/
theorem z_inv_while_shapeExt (fuel : ℕ) (m : YoungLaplaceShape E) (z : ℚ)
    (r : Except Exn Unit) (m' : YoungLaplaceShape E)
    (h : z_inv_while fuel m z = some (r, m')) : ShapeExt m m' := by
  induction fuel generalizing m with
  | zero =>
    rw [z_inv_while_eq] at h
    split at h
    · cases h; exact shapeExt_refl _
    · split_ifs at h
      cases h; exact shapeExt_refl _
  | succ n ih =>
    rw [z_inv_while_eq] at h
    split at h
    · cases h; exact shapeExt_refl _
    · split_ifs at h
      · have h1 := step_shapeExt m
        rcases hs : step m with ⟨r1, m1⟩
        rw [hs] at h h1
        cases r1 with
        | error e => dsimp only at h; cases h; exact h1
        | ok u => exact shapeExt_trans h1 (ih m1 h)
      · cases h; exact shapeExt_refl _

/-- `operator()` only steps the shape. -/
theorem call_shapeExt {T : Type} [DiffValue T] (fuel : ℕ) (m : YoungLaplaceShape E) (s : T)
    (r : Except Exn (Fin 2 → T)) (m' : YoungLaplaceShape E)
    (h : call fuel m s = some (r, m')) : ShapeExt m m' := by
  unfold call at h
  cases hc : check_domain s with
  | error e => rw [hc] at h; cases h; exact shapeExt_refl _
  | ok u =>
    rw [hc] at h
    dsimp only at h
    generalize hw : step_while fuel m _ = w at h
    cases w with
    | none => cases h
    | some p =>
      obtain ⟨r1, m1⟩ := p
      have h1 := step_while_shapeExt _ _ _ _ _ hw
      cases r1 with
      | error e => cases h; exact h1
      | ok u =>
        dsimp only at h
        split at h
        · cases h; exact h1
        · cases h; exact h1

/-- `z_inv` only steps the shape. -/
theorem z_inv_shapeExt {T : Type} [DiffValue T] (fuel : ℕ) (m : YoungLaplaceShape E) (z : T)
    (r : Except Exn T) (m' : YoungLaplaceShape E)
    (h : z_inv fuel m z = some (r, m')) : ShapeExt m m' := by
  unfold z_inv at h
  generalize hw : z_inv_while fuel m _ = w at h
  cases w with
  | none => cases h
  | some p =>
    obtain ⟨r1, m1⟩ := p
    have h1 := z_inv_while_shapeExt _ _ _ _ _ hw
    cases r1 with
    | error e => cases h; exact h1
    | ok u =>
      dsimp only at h
      split at h
      · cases h; exact h1
      · split_ifs at h
        · cases h; exact h1
        · generalize m1.dense_z_inv.call z = c at h
          cases c with
          | error e => cases h; exact h1
          | ok ans => cases h; exact h1

/-- The Newton loop of `closest` only steps the shape. -/
theorem closest_loop_shapeExt (fuel : ℕ) (r z : ℚ) (n : ℕ) (m : YoungLaplaceShape E) (s : ℚ)
    (res : Except Exn ℚ) (m' : YoungLaplaceShape E)
    (h : closest_loop fuel r z n m s = some (res, m')) : ShapeExt m m' := by
  induction n generalizing m s with
  | zero => rw [closest_loop] at h; cases h; exact shapeExt_refl _
  | succ n ih =>
    rw [closest_loop] at h
    dsimp only at h
    generalize hw : call fuel m (FVar.make_fvar 2 s) = w at h
    cases w with
    | none => cases h
    | some p =>
      obtain ⟨r1, m1⟩ := p
      have h1 := call_shapeExt _ _ _ _ _ hw
      cases r1 with
      | error e => cases h; exact h1
      | ok predict =>
        dsimp only at h
        split_ifs at h
        all_goals first
          | (cases h; exact h1)
          | exact shapeExt_trans h1 (ih _ _ h)

/-- The initial guess of `closest` only steps the shape. -/
theorem closest_guess_shapeExt (fuel : ℕ) (m : YoungLaplaceShape E) (z : ℚ)
    (res : Except Exn ℚ) (m' : YoungLaplaceShape E)
    (h : closest_guess fuel m z = some (res, m')) : ShapeExt m m' := by
  unfold closest_guess at h
  split_ifs at h
  · generalize hw : z_inv fuel m z = w at h
    cases w with
    | none => cases h
    | some p =>
      obtain ⟨r1, m1⟩ := p
      have h1 := z_inv_shapeExt _ _ _ _ _ hw
      cases r1 with
      | error e => cases e <;> (cases h; exact h1)
      | ok s => cases h; exact h1
  · cases h; exact shapeExt_refl _

/-- `closest` only steps the shape. -/
theorem closest_shapeExt (fuel : ℕ) (m : YoungLaplaceShape E) (r z : ℚ)
    (res : Except Exn ℚ) (m' : YoungLaplaceShape E)
    (h : closest fuel m r z = some (res, m')) : ShapeExt m m' := by
  unfold closest at h
  generalize hw : closest_guess fuel m z = w at h
  cases w with
  | none => cases h
  | some p =>
    obtain ⟨r1, m1⟩ := p
    have h1 := closest_guess_shapeExt _ _ _ _ _ hw
    cases r1 with
    | error e => cases h; exact h1
    | ok s => exact shapeExt_trans h1 (closest_loop_shapeExt _ _ _ _ _ _ _ _ h)

end YoungLaplaceShape

namespace YoungLaplaceShape
variable {E : Externals}

/-- `ode_DBo` only steps the shape. -/
theorem ode_DBo_shapeExt (fuel : ℕ) (m : YoungLaplaceShape E) (s : ℚ) (y dy_ds : Fin 2 → ℚ)
    (r : Except Exn (Fin 2 → ℚ)) (m' : YoungLaplaceShape E)
    (h : ode_DBo fuel m s y dy_ds = some (r, m')) : ShapeExt m m' := by
  unfold ode_DBo at h
  dsimp only at h
  generalize hw : call fuel m (FVar.make_fvar 1 s) = w at h
  cases w with
  | none => cases h
  | some p =>
    obtain ⟨r1, m1⟩ := p
    have h1 := call_shapeExt _ _ _ _ _ hw
    cases r1 with
    | error e => cases h; exact h1
    | ok f => cases h; exact h1

/-- `arkrhs_DBo` only steps the shape. -/
theorem arkrhs_DBo_shapeExt (fuel : ℕ) (m : YoungLaplaceShape E) (s : ℚ) (nv : Vec4)
    (r : Except Exn Vec4) (m' : YoungLaplaceShape E)
    (h : arkrhs_DBo fuel m s nv = some (r, m')) : ShapeExt m m' := by
  unfold arkrhs_DBo at h
  dsimp only at h
  generalize hw : ode_DBo fuel m s _ _ = w at h
  cases w with
  | none => cases h
  | some p =>
    obtain ⟨r1, m1⟩ := p
    have h1 := ode_DBo_shapeExt _ _ _ _ _ _ _ hw
    cases r1 with
    | error e => cases h; exact h1
    | ok f => cases h; exact h1

/-- Storing what a sensitivity step reports, when the step failed: nothing is
appended. -/
theorem ext_DBo_failed (m : YoungLaplaceShape E) (flag : ℤ) (mem : E.Mem) (nv : Vec4) (tcur : ℚ)
    (hl : (E.ERKStepEvolve m.arkode_mem_DBo (E.tnext m.arkode_mem_DBo) m.nv_DBo).Leaf
      flag mem nv tcur) :
    Ext m { m with arkode_mem_DBo := mem, nv_DBo := nv } := by
  refine ⟨HermiteQuinticSplineND.prefix_refl _, HermiteQuinticSplineND.prefix_refl _,
    fun hadv hi => ⟨hi.1, ?_⟩⟩
  obtain ⟨hinc, h0, hle⟩ := hi.2
  obtain ⟨hmono, -⟩ := hadv.evolve _ _ _ _ _ _ h0 hl
  exact ⟨hinc, le_trans h0 hmono, fun t ht => le_trans (hle t ht) hmono⟩

/-- Storing what a sensitivity step reports, when the step did not fail: after
the shape has possibly been stepped, one breakpoint is appended to the
sensitivity cache at the reported time. -/
theorem ext_DBo_push (m m3 : YoungLaplaceShape E) (flag : ℤ) (mem : E.Mem) (nv : Vec4) (tcur : ℚ)
    (hl : (E.ERKStepEvolve m.arkode_mem_DBo (E.tnext m.arkode_mem_DBo) m.nv_DBo).Leaf
      flag mem nv tcur) (hflag : 0 ≤ flag)
    (hse : ShapeExt { m with arkode_mem_DBo := mem, nv_DBo := nv } m3) (y v a : Fin 2 → ℚ) :
    Ext m { m3 with dense_DBo := m3.dense_DBo.push_back tcur y v a } := by
  refine ⟨hse.pref, ?_, fun hadv hi => ⟨hse.inv hadv hi.1, ?_⟩⟩
  · show m.dense_DBo.Prefix (m3.dense_DBo.push_back tcur y v a)
    rw [hse.dense_DBo]
    exact HermiteQuinticSplineND.prefix_push_back _ _ _ _ _
  · obtain ⟨hinc, h0, hle⟩ := hi.2
    obtain ⟨hmono, hsucc⟩ := hadv.evolve _ _ _ _ _ _ h0 hl
    obtain ⟨hlt, hle'⟩ := hsucc hflag
    show (m3.dense_DBo.push_back tcur y v a).Increasing ∧ 0 ≤ E.time m3.arkode_mem_DBo
      ∧ ∀ t ∈ (m3.dense_DBo.push_back tcur y v a).t_breaks, t ≤ E.time m3.arkode_mem_DBo
    rw [hse.dense_DBo, hse.mem_DBo]
    refine ⟨HermiteQuinticSplineND.increasing_push_back _ _ _ _ _ hinc
      (fun x hx => lt_of_le_of_lt (hle x hx) hlt), le_trans h0 hmono, fun t ht => ?_⟩
    rcases HermiteQuinticSplineND.mem_push_back _ _ _ _ _ _ ht with h | h
    · exact le_trans (hle t h) hmono
    · rw [h]; exact hle'

/-- `step_DBo()` only appends to the caches and keeps the invariants. -/
theorem step_DBo_ext (fuel : ℕ) (m : YoungLaplaceShape E) (r : Except Exn Unit)
    (m' : YoungLaplaceShape E) (h : step_DBo fuel m = some (r, m')) : Ext m m' := by
  unfold step_DBo at h
  dsimp only at h
  rw [tnext_def] at h
  split_ifs at h with h1
  · cases h; exact ext_refl _
  · generalize hw : Evolve.runM (arkrhs_DBo fuel) _ m = w at h
    cases w with
    | none => cases h
    | some p =>
      obtain ⟨r1, m1⟩ := p
      obtain ⟨hse, hleaf⟩ := Evolve.runM_rel ShapeExt shapeExt_refl
        (fun _ _ _ => shapeExt_trans) (arkrhs_DBo fuel) (arkrhs_DBo_shapeExt fuel) _ m r1 m1 hw
      cases r1 with
      | error e => cases h; exact hse.toExt
      | ok q =>
        obtain ⟨flag, mem, nv, tcur⟩ := q
        have hl := hleaf flag mem nv tcur rfl
        rw [← hse.mem_DBo, ← hse.nv_DBo] at hl
        dsimp only at h
        split_ifs at h with hf
        · cases h
          exact ext_trans hse.toExt (ext_DBo_failed m1 flag mem nv tcur hl)
        · generalize hw2 : ode_DBo fuel _ _ _ _ = w2 at h
          cases w2 with
          | none => cases h
          | some p2 =>
            obtain ⟨r2, m3⟩ := p2
            have h3 := ode_DBo_shapeExt _ _ _ _ _ _ _ hw2
            cases r2 with
            | error e =>
              cases h
              exact ext_trans hse.toExt (ext_trans (ext_DBo_failed m1 flag mem nv tcur hl) h3.toExt)
            | ok d2y =>
              cases h
              exact ext_trans hse.toExt (ext_DBo_push m1 m3 flag mem nv tcur hl (not_lt.mp hf) h3 _ _ _)

/-- The stepping loop of `DBo` only appends to the caches and keeps the invariants. -/
theorem step_DBo_while_ext (fuel n : ℕ) (m : YoungLaplaceShape E) (target : ℚ)
    (r : Except Exn Unit) (m' : YoungLaplaceShape E)
    (h : step_DBo_while fuel n m target = some (r, m')) : Ext m m' := by
  induction n generalizing m with
  | zero =>
    rw [step_DBo_while_eq] at h
    split at h
    · cases h; exact ext_refl _
    · split_ifs at h
      cases h; exact ext_refl _
  | succ n ih =>
    rw [step_DBo_while_eq] at h
    split at h
    · cases h; exact ext_refl _
    · split_ifs at h
      · dsimp only at h
        generalize hs : step_DBo fuel m = w at h
        cases w with
        | none => cases h
        | some p =>
          obtain ⟨r1, m1⟩ := p
          have h1 := step_DBo_ext _ _ _ _ hs
          cases r1 with
          | error e => cases h; exact h1
          | ok u => exact ext_trans h1 (ih m1 h)
      · cases h; exact ext_refl _

/-- `DBo` only appends to the caches and keeps the invariants. -/
theorem DBo_ext {T : Type} [DiffValue T] (fuel : ℕ) (m : YoungLaplaceShape E) (s : T)
    (r : Except Exn (Fin 2 → T)) (m' : YoungLaplaceShape E)
    (h : DBo fuel m s = some (r, m')) : Ext m m' := by
  unfold DBo at h
  cases hc : check_domain s with
  | error e => rw [hc] at h; cases h; exact ext_refl _
  | ok u =>
    rw [hc] at h
    dsimp only at h
    generalize hw : step_DBo_while fuel fuel m _ = w at h
    cases w with
    | none => cases h
    | some p =>
      obtain ⟨r1, m1⟩ := p
      have h1 := step_DBo_while_ext _ _ _ _ _ _ hw
      cases r1 with
      | error e => cases h; exact h1
      | ok u =>
        dsimp only at h
        split at h
        · cases h; exact h1
        · cases h; exact h1

end YoungLaplaceShape

namespace YoungLaplaceShape
variable {E : Externals}

/-- Both integrators of a freshly constructed model are at time `0`. -/
theorem new_time (bond : ℚ) (m : YoungLaplaceShape E) (h : new E bond = .ok m)
    (hadv : E.Advancing) : E.time m.arkode_mem = 0 ∧ E.time m.arkode_mem_DBo = 0 := by
  unfold new at h
  simp only [bind, Except.bind, pure, Except.pure] at h
  repeat' split at h
  all_goals cases h
  dsimp only
  constructor
  · rw [hadv.sStolerances, hadv.setTableNum, hadv.setUserData, hadv.rootInit]
    exact hadv.create _ _ _ _ (by assumption)
  · rw [hadv.sStolerances, hadv.setTableNum, hadv.setUserData]
    exact hadv.create _ _ _ _ (by assumption)

/-- A freshly constructed model satisfies both invariants. -/
theorem new_inv (bond : ℚ) (m : YoungLaplaceShape E) (h : new E bond = .ok m)
    (hadv : E.Advancing) : InvS m ∧ InvD m := by
  obtain ⟨-, hd, hdb, -, -⟩ := new_caches bond m h
  obtain ⟨ht, htd⟩ := new_time bond m h hadv
  unfold InvS InvD
  rw [hd, hdb, ht, htd]
  refine ⟨⟨.push_back _ _ _ _ _ .empty, ⟨rfl, rfl, rfl, rfl⟩, List.pairwise_singleton _ _,
    fun t ht' => ?_⟩, List.pairwise_singleton _ _, le_refl _, fun t ht' => ?_⟩
  · have h1 : t ∈ [(0 : ℚ)] := ht'
    rw [List.mem_singleton] at h1
    exact le_of_eq h1
  · have h1 : t ∈ [(0 : ℚ)] := ht'
    rw [List.mem_singleton] at h1
    exact le_of_eq h1

/-- Every model state reached from construction by queries satisfies both
invariants, if steps advance. -/
theorem queried_inv {m : YoungLaplaceShape E} (h : Queried m) (hadv : E.Advancing) :
    InvS m ∧ InvD m := by
  induction h with
  | new bond m h => exact new_inv bond m h hadv
  | call fuel m s r m' _ hc ih => exact (call_shapeExt fuel m s r m' hc).toExt.inv hadv ih
  | DBo fuel m s r m' _ hc ih => exact (DBo_ext fuel m s r m' hc).inv hadv ih
  | z_inv fuel m z r m' _ hc ih => exact (z_inv_shapeExt fuel m z r m' hc).toExt.inv hadv ih
  | closest fuel m r z res m' _ hc ih =>
    exact (closest_shapeExt fuel m r z res m' hc).toExt.inv hadv ih

end YoungLaplaceShape

namespace HermiteQuinticSplineND
variable {N : ℕ}

/-- Plain evaluation at a breakpoint returns the stored value. -/
theorem call_breakpoint_value {s : HermiteQuinticSplineND N} (hb : Built s) (hi : Increasing s)
    (k : ℕ) (hk : k < s.t_breaks.length) :
    s.call (s.t_breaks.getD k 0) = .ok (s.y_breaks.getD k 0) := by
  have hcd : s.check_domain (DiffValue.toReal (s.t_breaks.getD k 0)) = .ok () :=
    check_domain_ok s _ (by omega) (increasing_getD_le _ hi 0 k (by omega) hk)
      (increasing_getD_le _ hi k _ (by omega) (by omega))
  by_cases hlen : s.t_breaks.length = 1
  · have hk0 : k = 0 := by omega
    subst hk0
    rw [call_single hb _ hcd hlen]
    congr 1
    funext j
    simp
  · rw [call_eq_interpolate s _ hcd hlen, rat_toReal, segment_breakpoint _ hi k hk]
    by_cases hkl : k + 1 = s.t_breaks.length
    · obtain ⟨i, rfl⟩ : ∃ i, k = i + 1 := ⟨k - 1, by omega⟩
      rw [if_pos hkl, (by simp : ((i + 1 : ℕ) : ℤ) = (i : ℤ) + 1)]
      obtain ⟨c0, c1, c2, hc⟩ := interpolate_taylor_right hb hi i hk
      have := hc 0
      rw [add_zero] at this
      rw [this]
      congr 1
      funext j
      ring
    · rw [if_neg hkl]
      obtain ⟨c0, c1, c2, hc⟩ := interpolate_taylor_left hb hi k (by omega)
      have := hc 0
      rw [add_zero] at this
      rw [this]
      congr 1
      funext j
      ring

end HermiteQuinticSplineND

/-- How a step of the integrator `stepper g` ends. -/
theorem Example.stepper_leaf (g mem : ℚ) (tout : Option ℚ) (nv : Vec4) (flag : ℤ) (mem' : ℚ)
    (nv' : Vec4) (tcur : ℚ)
    (hl : Evolve.Leaf ((Example.stepper g).ERKStepEvolve mem tout nv) flag mem' nv' tcur) :
    mem' = tcur ∧ tcur = tout.getD (g * mem) := by
  cases tout with
  | none =>
    cases hl with
    | rhs _ _ _ dy _ _ _ _ hd =>
      cases hd
      exact ⟨rfl, rfl⟩
  | some t =>
    cases hl with
    | rhs _ _ _ dy _ _ _ _ hd =>
      cases hd
      exact ⟨rfl, rfl⟩

/-- The integrator `stepper 3` advances: from time `0` it goes to `1/10`, from a
later time `t` to `3 t`. -/
theorem Example.stepper_advancing : (Example.stepper 3).Advancing := by
  refine ⟨?_, fun _ _ => rfl, fun _ => rfl, fun _ => rfl, fun _ _ _ => rfl, ?_⟩
  · intro rhs t0 nv mem h
    have h' : some t0 = some mem := h
    exact (Option.some.inj h').symm
  · intro (mem : ℚ) nv flag (mem' : ℚ) nv' tcur (h0 : (0 : ℚ) ≤ mem) hl
    show mem ≤ mem' ∧ (0 ≤ flag → mem < tcur ∧ tcur ≤ mem')
    by_cases hm : mem = 0
    · have ht : (Example.stepper 3).tnext mem = some (mem + 1/10) := if_pos hm
      rw [ht] at hl
      obtain ⟨h1, h2⟩ := Example.stepper_leaf 3 mem _ nv flag mem' nv' tcur hl
      rw [Option.getD] at h2
      subst h1
      refine ⟨by linarith, fun _ => ⟨by linarith, le_refl _⟩⟩
    · have ht : (Example.stepper 3).tnext mem = none := if_neg hm
      rw [ht] at hl
      have hpos : 0 < mem := lt_of_le_of_ne h0 (Ne.symm hm)
      obtain ⟨h1, h2⟩ := Example.stepper_leaf 3 mem _ nv flag mem' nv' tcur hl
      rw [Option.getD] at h2
      subst h1
      refine ⟨by linarith, fun _ => ⟨by linarith, le_refl _⟩⟩

/-! ### Copies, the apex, and the concrete models -/

theorem outcome_getD {σ α : Type} (o : Outcome σ α) (d : σ) (h : o.isSome = true) :
    ∃ r, o = some (r, (state_after o).getD d) := by
  cases o with
  | none => cases h
  | some p => exact ⟨p.1, rfl⟩

theorem state_after_getD {σ α : Type} (o : Outcome σ α) (d : σ) (h : o.isSome = true) :
    state_after o = some ((state_after o).getD d) := by
  cases o with
  | none => cases h
  | some p => rfl

theorem except_getD {α : Type} (x : Except Exn α) (d : α) (h : x.toOption.isSome = true) :
    x = .ok (x.toOption.getD d) := by
  cases x with
  | error e => cases h
  | ok a => rfl

theorem getD_zero_of_head? {α : Type} (l : List α) (a d : α) (h : l.head? = some a) :
    l.getD 0 d = a := by
  cases l with
  | nil => cases h
  | cons b bs =>
    simp only [List.head?_cons, Option.some.injEq] at h
    subst h
    rfl

theorem Example.sprout_new (root : ℚ) :
    YoungLaplaceShape.new (Example.tracker root) (21 / 100) = .ok (Example.sprout root) := rfl

theorem Example.cached_reached :
    ∃ r, Example.fresh.call 10 (1 / 2 : ℚ) = some (r, Example.cached) :=
  outcome_getD _ _ (by decide!)

theorem Example.cached_copy_ok : Example.cached.copy = .ok Example.cached_copy :=
  except_getD _ _ (by decide!)

theorem Example.latched_reached :
    ∃ r, (Example.sprout (1 / 2)).call 10 (2 / 5 : ℚ) = some (r, Example.latched) :=
  outcome_getD _ _ (by decide!)

theorem Example.latched_copy_ok : Example.latched.copy = .ok Example.latched_copy :=
  except_getD _ _ (by decide!)

theorem Example.fresh_queried : Example.fresh.Queried := .new (21 / 100) _ rfl

theorem Example.cached_queried : Example.cached.Queried := by
  obtain ⟨r, h⟩ := Example.cached_reached
  exact .call 10 _ _ r _ Example.fresh_queried h

namespace YoungLaplaceShape
variable {E : Externals}

/-- The copy constructor copies the Bond number, the shape cache, the
sensitivity cache and the latch; the lookup of the copy is the freshly
constructed one. -/
theorem copy_fields (m c : YoungLaplaceShape E) (h : copy m = .ok c) :
    c.bond = m.bond ∧ c.dense = m.dense ∧ c.dense_DBo = m.dense_DBo
      ∧ c.max_z_solved = m.max_z_solved
      ∧ c.dense_z_inv = LinearSpline1D.empty.push_back 0 0 := by
  unfold copy at h
  simp only [bind, Except.bind, pure, Except.pure] at h
  cases hn : new E m.bond with
  | error e => rw [hn] at h; cases h
  | ok self =>
    rw [hn] at h
    obtain ⟨hb, -, -, hz, -⟩ := new_caches m.bond self hn
    cases h
    exact ⟨hb, rfl, rfl, rfl, hz⟩

/-- The copy assignment copies the Bond number, the shape cache, the
sensitivity cache and the latch, also when it throws; the lookup of the target
is left as it was. -/
theorem assign_fields (self m : YoungLaplaceShape E) :
    (self.operator_assign m).2.bond = m.bond ∧ (self.operator_assign m).2.dense = m.dense
      ∧ (self.operator_assign m).2.dense_DBo = m.dense_DBo
      ∧ (self.operator_assign m).2.max_z_solved = m.max_z_solved
      ∧ (self.operator_assign m).2.dense_z_inv = self.dense_z_inv := by
  unfold operator_assign
  dsimp only
  split_ifs <;> exact ⟨rfl, rfl, rfl, rfl, rfl⟩

/-- A query whose target is not beyond the frontier gets one and the same answer
from every model that holds the same shape cache. -/
theorem call_cached_dense {T : Type} [DiffValue T] (d : HermiteQuinticSplineND 2) (s : T)
    (a b : ℚ) (hd : d.domain = .ok (a, b))
    (hs : DiffValue.toReal (if DiffValue.toReal s ≥ 0 then s else -s) ≤ b) :
    ∃ r, ∀ (fuel : ℕ) (m : YoungLaplaceShape E), m.dense = d → call fuel m s = some (r, m) := by
  have hno : ∀ fuel (m : YoungLaplaceShape E), m.dense = d → step_while fuel m
      (min (DiffValue.toReal (if DiffValue.toReal s ≥ 0 then s else -s)) MAX_ARCLENGTH)
        = some (.ok (), m) :=
    fun fuel m hm => step_while_noop fuel m _ a b (by rw [hm]; exact hd)
      (not_lt.mpr (le_trans (min_le_left _ _) hs))
  cases hc : check_domain s with
  | error e =>
    refine ⟨.error e, fun fuel m hm => ?_⟩
    unfold call
    rw [hc]
  | ok u =>
    cases hcall : d.call (if DiffValue.toReal s ≥ 0 then s else -s) with
    | error e =>
      refine ⟨.error e, fun fuel m hm => ?_⟩
      unfold call
      rw [hc]
      simp only [hno fuel m hm, hm, hcall]
    | ok ans =>
      refine ⟨.ok (if DiffValue.toReal s < 0 then Function.update ans 0 (ans 0 * (-1)) else ans),
        fun fuel m hm => ?_⟩
      unfold call
      rw [hc]
      simp only [hno fuel m hm, hm, hcall]

end YoungLaplaceShape

theorem Example.latched_domain : Example.latched.dense.domain = .ok (0, 1 / 2) := by
  have ht : Example.latched.dense.t_breaks = [0, 1 / 10, 3 / 10, 1 / 2] := by decide!
  unfold HermiteQuinticSplineND.domain
  rw [ht]
  rfl

namespace YoungLaplaceShape
variable {E : Externals}

/-- What the invariant of the shape side says about the first breakpoint and
the frontier. -/
theorem InvS.apex_facts {m : YoungLaplaceShape E} (h : InvS m) :
    ∃ back, m.dense.domain = .ok (0, back) ∧ 0 ≤ back ∧ 0 < m.dense.t_breaks.length
      ∧ m.dense.t_breaks.getD 0 0 = 0 ∧ m.dense.y_breaks.getD 0 0 = ![0, 0]
      ∧ m.dense.v_breaks.getD 0 0 = ![1, 0] ∧ m.dense.a_breaks.getD 0 0 = ![0, 1] := by
  obtain ⟨-, ⟨ht, hy, hv, ha⟩, hinc, -⟩ := h
  have hl : 0 < m.dense.t_breaks.length := by
    cases hs : m.dense.t_breaks with
    | nil => rw [hs] at ht; cases ht
    | cons b bs => simp
  have h0 := getD_zero_of_head? _ _ 0 ht
  refine ⟨_, domain_of_head? _ 0 ht, ?_, hl, h0, getD_zero_of_head? _ _ 0 hy,
    getD_zero_of_head? _ _ 0 hv, getD_zero_of_head? _ _ 0 ha⟩
  have := increasing_getD_le _ hinc 0 (m.dense.t_breaks.length - 1) (by omega) (by omega)
  rw [h0] at this
  exact this

/-- On a model that satisfies the invariant, `shape(0)` returns `(0, 0)` from the
cache. -/
theorem call_apex_rat {m : YoungLaplaceShape E} (h : InvS m) (fuel : ℕ) :
    call fuel m (0 : ℚ) = some (.ok ![0, 0], m) := by
  obtain ⟨back, hd, hb0, hl, ht, hy, -, -⟩ := h.apex_facts
  have hans : m.dense.call (0 : ℚ) = .ok ![0, 0] := by
    have := HermiteQuinticSplineND.call_breakpoint_value h.1 h.2.2.1 0 hl
    rw [ht, hy] at this
    exact this
  have hM : (0 : ℚ) < MAX_ARCLENGTH := by norm_num [MAX_ARCLENGTH]
  have hnoop : step_while fuel m (min 0 MAX_ARCLENGTH) = some (.ok (), m) :=
    step_while_noop fuel m _ 0 back hd (not_lt.mpr (le_trans (min_le_left _ _) hb0))
  unfold call
  rw [(check_domain_iff 0).mpr (by rw [not_or, not_lt, not_lt]; exact ⟨by linarith, le_of_lt hM⟩)]
  simp only [rat_toReal, ge_iff_le, le_refl, if_true, hnoop, hans, lt_irrefl, if_false]

/-- On a model that satisfies the invariant, `shape` at the differentiable
arclength `0` returns from the cache the apex values in its Taylor coefficients. -/
theorem call_apex_fvar {m : YoungLaplaceShape E} (h : InvS m) (n : ℕ) (hn : 2 ≤ n) :
    ∃ f : Fin 2 → FVar n, (∀ fuel, call fuel m (FVar.make_fvar n 0) = some (.ok f, m))
      ∧ (f 0).c 0 = 0 ∧ (f 0).c 1 = 1 ∧ (f 0).c 2 = 0
      ∧ (f 1).c 0 = 0 ∧ (f 1).c 1 = 0 ∧ (f 1).c 2 = 1 / 2 := by
  obtain ⟨back, hd, hb0, hl, ht, hy, hv, ha⟩ := h.apex_facts
  obtain ⟨f, hf, hj⟩ := HermiteQuinticSplineND.call_breakpoint_jet h.1 h.2.2.1 0 hl n hn
  simp only [hy, hv, ha] at hj
  rw [ht] at hf
  have hM : (0 : ℚ) < MAX_ARCLENGTH := by norm_num [MAX_ARCLENGTH]
  have hcd : check_domain (FVar.make_fvar n 0) = .ok () := by
    unfold check_domain
    rw [FVar.toReal_eq, FVar.make_fvar_c_zero, if_neg]
    rw [not_or, not_lt, not_lt]
    exact ⟨by linarith, le_of_lt hM⟩
  refine ⟨f, fun fuel => ?_, ?_⟩
  · have hnoop : step_while fuel m (min 0 MAX_ARCLENGTH) = some (.ok (), m) :=
      step_while_noop fuel m _ 0 back hd (not_lt.mpr (le_trans (min_le_left _ _) hb0))
    unfold call
    rw [hcd]
    simp only [FVar.toReal_eq, FVar.make_fvar_c_zero, ge_iff_le, le_refl, if_true, hnoop, hf,
      lt_irrefl, if_false]
  · have h0 := hj 0
    have h1 := hj 1
    simp only [Matrix.cons_val_zero, Matrix.cons_val_one, Matrix.head_cons] at h0 h1
    obtain ⟨a0, a1, a2⟩ := h0
    obtain ⟨b0, b1, b2⟩ := h1
    refine ⟨a0, a1, ?_, b0, b1, b2⟩
    rw [a2]; norm_num

/-- The squared distance of the first Newton step of `closest(0, z)` at the apex:
its first derivative is `0` and its second derivative is `2 (1 - z)`. -/
theorem apex_distance (z : ℚ) (f : Fin 2 → FVar 2)
    (hf : (f 0).c 0 = 0 ∧ (f 0).c 1 = 1 ∧ (f 0).c 2 = 0
      ∧ (f 1).c 0 = 0 ∧ (f 1).c 1 = 0 ∧ (f 1).c 2 = 1 / 2) :
    (((DiffValue.ofReal 0 - f 0) * (DiffValue.ofReal 0 - f 0)
        + (DiffValue.ofReal z - f 1) * (DiffValue.ofReal z - f 1) : FVar 2)).derivative 1 = 0
    ∧ (((DiffValue.ofReal 0 - f 0) * (DiffValue.ofReal 0 - f 0)
        + (DiffValue.ofReal z - f 1) * (DiffValue.ofReal z - f 1) : FVar 2)).derivative 2
        = 2 * (1 - z) := by
  obtain ⟨a0, a1, a2, b0, b1, b2⟩ := hf
  constructor
  · simp only [FVar.derivative, FVar.add_c, FVar.mul_c_one (le_of_lt (by norm_num : 1 < 2)),
      FVar.sub_c, FVar.ofReal_c_zero, FVar.ofReal_c_one, a0, a1, b0, b1]
    norm_num
  · simp only [FVar.derivative, FVar.add_c, FVar.mul_c_two (le_refl 2),
      FVar.sub_c, FVar.ofReal_c_zero, FVar.ofReal_c_one, FVar.ofReal_c_two, a0, a1, a2, b0, b1, b2]
    norm_num [Nat.factorial]
    ring

/-- On a model that satisfies the invariant, one iteration of the Newton loop of
`closest(0, z)` from `s = 0` ends the loop at `s = 0`. -/
theorem closest_loop_apex {m : YoungLaplaceShape E} (h : InvS m) (fuel n : ℕ) (z : ℚ) :
    closest_loop fuel 0 z (n + 1) m 0 = some (.ok 0, m) := by
  obtain ⟨f, hf, hc⟩ := call_apex_fvar h 2 (le_refl 2)
  obtain ⟨h1, h2⟩ := apex_distance z f hc
  rw [closest_loop]
  dsimp only
  rw [hf fuel]
  dsimp only
  rw [h1, h2]
  have hM : (0 : ℚ) < MAX_ARCLENGTH := by norm_num [MAX_ARCLENGTH]
  have hT : (0 : ℚ) < CLOSEST_TOL := by norm_num [CLOSEST_TOL]
  have e0 : (0 : ℚ) - 0 / |2 * (1 - z)| = 0 := by simp
  rw [e0, if_neg (show ¬ (0 : ℚ) > MAX_ARCLENGTH from not_lt.mpr (le_of_lt hM)),
    if_neg (show ¬ (0 : ℚ) < -MAX_ARCLENGTH by linarith), sub_zero, abs_zero, if_pos hT]

end YoungLaplaceShape

namespace YoungLaplaceShape
variable {E : Externals}

theorem prefix_head? {α : Type} (l1 l2 : List α) (a : α) (h : l1 <+: l2)
    (h1 : l1.head? = some a) : l2.head? = some a := by
  obtain ⟨t, rfl⟩ := h
  cases l1 with
  | nil => cases h1
  | cons b bs => simpa using h1

/-- A call that only steps the shape keeps the first breakpoint of the shape cache. -/
theorem ShapeExt.head? {m m' : YoungLaplaceShape E} (h : ShapeExt m m') (a : ℚ)
    (h1 : m.dense.t_breaks.head? = some a) : m'.dense.t_breaks.head? = some a :=
  prefix_head? _ _ a h.pref.1 h1

/-- Inside the range, `operator()` with a differentiable query on a model whose
shape cache starts at `s = 0` never ends with a domain error. -/
theorem call_in_range_fvar {n : ℕ} (fuel : ℕ) (m : YoungLaplaceShape E) (s : FVar n)
    (h0 : m.dense.t_breaks.head? = some 0)
    (h : ¬ (s.c 0 < -MAX_ARCLENGTH ∨ s.c 0 > MAX_ARCLENGTH)) :
    thrown (call fuel m s) ≠ some .domain_error := by
  have hin := h
  rw [not_or, not_lt, not_lt] at h
  have habs := fvar_abs_arg s
  have hle : |s.c 0| ≤ MAX_ARCLENGTH := abs_le.mpr ⟨h.1, h.2⟩
  have hcd : check_domain s = .ok () := by
    unfold check_domain
    rw [FVar.toReal_eq, if_neg hin]
  unfold call
  rw [hcd]
  dsimp only
  rw [habs, min_eq_left hle]
  cases hw : step_while fuel m |s.c 0| with
  | none => simp [thrown]
  | some p =>
    obtain ⟨r, m'⟩ := p
    obtain ⟨hh, hr⟩ := step_while_spec fuel m |s.c 0| 0 h0 r m' hw
    rcases hr with ⟨rfl, hback⟩ | ⟨what, rfl⟩
    · dsimp only
      have hl : 0 < m'.dense.t_breaks.length := by
        cases hs : m'.dense.t_breaks with
        | nil => rw [hs] at hh; cases hh
        | cons b bs => simp
      have hfront : m'.dense.t_breaks.getD 0 0 = 0 := getD_zero_of_head? _ _ 0 hh
      have hcd : m'.dense.check_domain
          (DiffValue.toReal (if DiffValue.toReal s ≥ 0 then s else -s)) = .ok () := by
        rw [habs]
        exact HermiteQuinticSplineND.check_domain_ok _ _ hl
          (by rw [hfront]; exact abs_nonneg _) (not_lt.mp hback)
      cases hc : m'.dense.call (if DiffValue.toReal s ≥ 0 then s else -s) with
      | error e =>
        have := HermiteQuinticSplineND.call_error_of_check_domain_ok _ _ hcd e hc
        subst this
        simp [thrown]
      | ok ans => simp [thrown]
    · simp [thrown]

/-- From an iterate inside the range, on a model whose shape cache starts at
`s = 0`, the Newton loop of `closest` never ends with a domain error. -/
theorem closest_loop_no_domain_error (fuel : ℕ) (r z : ℚ) (n : ℕ) (m : YoungLaplaceShape E)
    (s : ℚ) (h0 : m.dense.t_breaks.head? = some 0)
    (h : ¬ (s < -MAX_ARCLENGTH ∨ s > MAX_ARCLENGTH)) :
    thrown (closest_loop fuel r z n m s) ≠ some .domain_error := by
  induction n generalizing m s with
  | zero => rw [closest_loop]; simp [thrown]
  | succ n ih =>
    have hcall := call_in_range_fvar fuel m (FVar.make_fvar 2 s) h0
      (by rw [FVar.make_fvar_c_zero]; exact h)
    rw [closest_loop]
    dsimp only
    cases hw : call fuel m (FVar.make_fvar 2 s) with
    | none => simp [thrown]
    | some p =>
      obtain ⟨r1, m1⟩ := p
      have hh := (call_shapeExt _ _ _ _ _ hw).head? 0 h0
      rw [hw] at hcall
      cases r1 with
      | error e =>
        dsimp only
        exact hcall
      | ok predict =>
        dsimp only
        have hM : (0 : ℚ) < MAX_ARCLENGTH := by norm_num [MAX_ARCLENGTH]
        split_ifs
        all_goals first
          | (simp [thrown]; done)
          | (apply ih m1 _ hh
             rw [not_or, not_lt, not_lt]
             constructor <;> linarith)

/-- The initial guess of `closest` never ends with a domain error: the one of
`z_inv` is caught. -/
theorem closest_guess_no_domain_error (fuel : ℕ) (m : YoungLaplaceShape E) (z : ℚ) :
    thrown (closest_guess fuel m z) ≠ some .domain_error := by
  unfold closest_guess
  split_ifs
  · cases hw : z_inv fuel m z with
    | none => simp [thrown]
    | some p =>
      obtain ⟨r1, m1⟩ := p
      cases r1 with
      | error e => cases e <;> simp [thrown]
      | ok s => simp [thrown]
  · simp [thrown]

/-- Where the initial guess of `closest` comes from. -/
theorem closest_guess_cases (fuel : ℕ) (m : YoungLaplaceShape E) (z s : ℚ)
    (m1 : YoungLaplaceShape E) (h : closest_guess fuel m z = some (.ok s, m1)) :
    (z ≤ 0 ∧ s = 0) ∨ (0 < z ∧ thrown (z_inv fuel m z) = some .domain_error ∧ s = MAX_ARCLENGTH)
      ∨ (0 < z ∧ z_inv fuel m z = some (.ok s, m1)) := by
  unfold closest_guess at h
  split_ifs at h with hz
  · cases hw : z_inv fuel m z with
    | none => rw [hw] at h; cases h
    | some p =>
      obtain ⟨r1, m2⟩ := p
      rw [hw] at h
      cases r1 with
      | error e =>
        cases e with
        | domain_error =>
          simp only [Option.some.injEq, Prod.mk.injEq, Except.ok.injEq] at h
          exact Or.inr (Or.inl ⟨hz, rfl, h.1.symm⟩)
        | runtime_error w => cases h
        | undefined => cases h
      | ok s' =>
        simp only [Option.some.injEq, Prod.mk.injEq, Except.ok.injEq] at h
        obtain ⟨rfl, rfl⟩ := h
        exact Or.inr (Or.inr ⟨hz, rfl⟩)
  · simp only [Option.some.injEq, Prod.mk.injEq, Except.ok.injEq] at h
    exact Or.inl ⟨not_lt.mp hz, h.1.symm⟩

end YoungLaplaceShape

/-! ### Relations that every step respects -/

namespace YoungLaplaceShape
variable {E : Externals}

/-- The stepping loop of `operator()` respects every reflexive and transitive relation that `step()` respects. -/
theorem step_while_rel (R : YoungLaplaceShape E → YoungLaplaceShape E → Prop)
    (hrefl : ∀ a, R a a) (htrans : ∀ a b c, R a b → R b c → R a c)
    (hstep : ∀ m, R m (step m).2) (fuel : ℕ) (m : YoungLaplaceShape E) (target : ℚ)
    (r : Except Exn Unit) (m' : YoungLaplaceShape E)
    (h : step_while fuel m target = some (r, m')) : R m m' := by
  induction fuel generalizing m with
  | zero =>
    rw [step_while_eq] at h
    split at h
    · cases h; exact hrefl _
    · split_ifs at h
      cases h; exact hrefl _
  | succ n ih =>
    rw [step_while_eq] at h
    split at h
    · cases h; exact hrefl _
    · split_ifs at h
      · have h1 := hstep m
        rcases hs : step m with ⟨r1, m1⟩
        rw [hs] at h h1
        cases r1 with
        | error e => dsimp only at h; cases h; exact h1
        | ok u => exact htrans _ _ _ h1 (ih m1 h)
      · cases h; exact hrefl _

/-- The stepping loop of `z_inv` respects every reflexive and transitive relation that `step()` respects. -/
theorem z_inv_while_rel (R : YoungLaplaceShape E → YoungLaplaceShape E → Prop)
    (hrefl : ∀ a, R a a) (htrans : ∀ a b c, R a b → R b c → R a c)
    (hstep : ∀ m, R m (step m).2) (fuel : ℕ) (m : YoungLaplaceShape E) (z : ℚ)
    (r : Except Exn Unit) (m' : YoungLaplaceShape E)
    (h : z_inv_while fuel m z = some (r, m')) : R m m' := by
  induction fuel generalizing m with
  | zero =>
    rw [z_inv_while_eq] at h
    split at h
    · cases h; exact hrefl _
    · split_ifs at h
      cases h; exact hrefl _
  | succ n ih =>
    rw [z_inv_while_eq] at h
    split at h
    · cases h; exact hrefl _
    · split_ifs at h
      · have h1 := hstep m
        rcases hs : step m with ⟨r1, m1⟩
        rw [hs] at h h1
        cases r1 with
        | error e => dsimp only at h; cases h; exact h1
        | ok u => exact htrans _ _ _ h1 (ih m1 h)
      · cases h; exact hrefl _

/-- `operator()` respects every reflexive and transitive relation that `step()` respects. -/
theorem call_rel {T : Type} [DiffValue T] (R : YoungLaplaceShape E → YoungLaplaceShape E → Prop)
    (hrefl : ∀ a, R a a) (htrans : ∀ a b c, R a b → R b c → R a c)
    (hstep : ∀ m, R m (step m).2) (fuel : ℕ) (m : YoungLaplaceShape E) (s : T)
    (r : Except Exn (Fin 2 → T)) (m' : YoungLaplaceShape E)
    (h : call fuel m s = some (r, m')) : R m m' := by
  unfold call at h
  cases hc : check_domain s with
  | error e => rw [hc] at h; cases h; exact hrefl _
  | ok u =>
    rw [hc] at h
    dsimp only at h
    generalize hw : step_while fuel m _ = w at h
    cases w with
    | none => cases h
    | some p =>
      obtain ⟨r1, m1⟩ := p
      have h1 := step_while_rel R hrefl htrans hstep _ _ _ _ _ hw
      cases r1 with
      | error e => cases h; exact h1
      | ok u =>
        dsimp only at h
        split at h
        · cases h; exact h1
        · cases h; exact h1

/-- `z_inv` respects every reflexive and transitive relation that `step()` respects. -/
theorem z_inv_rel {T : Type} [DiffValue T] (R : YoungLaplaceShape E → YoungLaplaceShape E → Prop)
    (hrefl : ∀ a, R a a) (htrans : ∀ a b c, R a b → R b c → R a c)
    (hstep : ∀ m, R m (step m).2) (fuel : ℕ) (m : YoungLaplaceShape E) (z : T)
    (r : Except Exn T) (m' : YoungLaplaceShape E)
    (h : z_inv fuel m z = some (r, m')) : R m m' := by
  unfold z_inv at h
  generalize hw : z_inv_while fuel m _ = w at h
  cases w with
  | none => cases h
  | some p =>
    obtain ⟨r1, m1⟩ := p
    have h1 := z_inv_while_rel R hrefl htrans hstep _ _ _ _ _ hw
    cases r1 with
    | error e => cases h; exact h1
    | ok u =>
      dsimp only at h
      split at h
      · cases h; exact h1
      · split_ifs at h
        · cases h; exact h1
        · generalize m1.dense_z_inv.call z = c at h
          cases c with
          | error e => cases h; exact h1
          | ok ans => cases h; exact h1

/-- The Newton loop of `closest` respects every reflexive and transitive relation that `step()` respects. -/
theorem closest_loop_rel (R : YoungLaplaceShape E → YoungLaplaceShape E → Prop)
    (hrefl : ∀ a, R a a) (htrans : ∀ a b c, R a b → R b c → R a c)
    (hstep : ∀ m, R m (step m).2) (fuel : ℕ) (r z : ℚ) (n : ℕ) (m : YoungLaplaceShape E) (s : ℚ)
    (res : Except Exn ℚ) (m' : YoungLaplaceShape E)
    (h : closest_loop fuel r z n m s = some (res, m')) : R m m' := by
  induction n generalizing m s with
  | zero => rw [closest_loop] at h; cases h; exact hrefl _
  | succ n ih =>
    rw [closest_loop] at h
    dsimp only at h
    generalize hw : call fuel m (FVar.make_fvar 2 s) = w at h
    cases w with
    | none => cases h
    | some p =>
      obtain ⟨r1, m1⟩ := p
      have h1 := call_rel R hrefl htrans hstep _ _ _ _ _ hw
      cases r1 with
      | error e => cases h; exact h1
      | ok predict =>
        dsimp only at h
        split_ifs at h
        all_goals first
          | (cases h; exact h1)
          | exact htrans _ _ _ h1 (ih _ _ h)

/-- The initial guess of `closest` respects every reflexive and transitive relation that `step()` respects. -/
theorem closest_guess_rel (R : YoungLaplaceShape E → YoungLaplaceShape E → Prop)
    (hrefl : ∀ a, R a a) (htrans : ∀ a b c, R a b → R b c → R a c)
    (hstep : ∀ m, R m (step m).2) (fuel : ℕ) (m : YoungLaplaceShape E) (z : ℚ)
    (res : Except Exn ℚ) (m' : YoungLaplaceShape E)
    (h : closest_guess fuel m z = some (res, m')) : R m m' := by
  unfold closest_guess at h
  split_ifs at h
  · generalize hw : z_inv fuel m z = w at h
    cases w with
    | none => cases h
    | some p =>
      obtain ⟨r1, m1⟩ := p
      have h1 := z_inv_rel R hrefl htrans hstep _ _ _ _ _ hw
      cases r1 with
      | error e => cases e <;> (cases h; exact h1)
      | ok s => cases h; exact h1
  · cases h; exact hrefl _

/-- `closest` respects every reflexive and transitive relation that `step()` respects. -/
theorem closest_rel (R : YoungLaplaceShape E → YoungLaplaceShape E → Prop)
    (hrefl : ∀ a, R a a) (htrans : ∀ a b c, R a b → R b c → R a c)
    (hstep : ∀ m, R m (step m).2) (fuel : ℕ) (m : YoungLaplaceShape E) (r z : ℚ)
    (res : Except Exn ℚ) (m' : YoungLaplaceShape E)
    (h : closest fuel m r z = some (res, m')) : R m m' := by
  unfold closest at h
  generalize hw : closest_guess fuel m z = w at h
  cases w with
  | none => cases h
  | some p =>
    obtain ⟨r1, m1⟩ := p
    have h1 := closest_guess_rel R hrefl htrans hstep _ _ _ _ _ hw
    cases r1 with
    | error e => cases h; exact h1
    | ok s => exact htrans _ _ _ h1 (closest_loop_rel R hrefl htrans hstep _ _ _ _ _ _ _ _ h)

end YoungLaplaceShape

namespace YoungLaplaceShape
variable {E : Externals}

theorem lookup_push_back (s : LinearSpline1D) (t y : ℚ) :
    (s.push_back t y).t_breaks = s.t_breaks ++ [t]
      ∧ (s.push_back t y).y_breaks = s.y_breaks ++ [y] := by
  unfold LinearSpline1D.push_back
  dsimp only
  split_ifs <;> exact ⟨rfl, rfl⟩

/-- With the latch set, `step()` leaves the latch and the lookup alone. -/
theorem step_latched (m : YoungLaplaceShape E) (h : m.max_z_solved = true) :
    (step m).2.max_z_solved = true ∧ (step m).2.dense_z_inv = m.dense_z_inv := by
  unfold step
  dsimp only
  split_ifs <;> simp_all

/-- With the latch clear, a `step()` that returns appends the pair of the new
height and the new arclength to the lookup and sets the latch iff the integrator
reported a root; a `step()` that throws leaves both alone. -/
theorem step_unlatched (m : YoungLaplaceShape E) (h : m.max_z_solved = false) :
    ((step m).1 = .ok () →
      (step m).2.dense_z_inv = m.dense_z_inv.push_back
          ((Evolve.run (arkrhs m) (E.ERKStepEvolve m.arkode_mem (E.tnext m.arkode_mem) m.nv)).2.2.1 1)
          (Evolve.run (arkrhs m) (E.ERKStepEvolve m.arkode_mem (E.tnext m.arkode_mem) m.nv)).2.2.2
        ∧ ((step m).2.max_z_solved = true ↔
            (Evolve.run (arkrhs m) (E.ERKStepEvolve m.arkode_mem (E.tnext m.arkode_mem) m.nv)).1
              = ARK_ROOT_RETURN))
    ∧ (∀ e, (step m).1 = .error e →
        (step m).2.dense_z_inv = m.dense_z_inv ∧ (step m).2.max_z_solved = false) := by
  unfold step
  dsimp only
  rw [tnext_def]
  generalize Evolve.run (arkrhs m) (E.ERKStepEvolve m.arkode_mem (E.tnext m.arkode_mem) m.nv) = res
  obtain ⟨flag, mem, nv, tcur⟩ := res
  dsimp only
  split_ifs <;> simp_all

end YoungLaplaceShape

/-! ### The single-breakpoint branch, index safety, linear interpolation -/

namespace FVar
variable {n : ℕ}

/-- The Taylor coefficients of `make_fvar n t0 - t0`: only the first-order one
is set. -/
theorem eps_c (t0 : ℚ) (i : ℕ) :
    (FVar.make_fvar n t0 - DiffValue.ofReal t0).c i = if i = 1 ∧ 1 ≤ n then 1 else 0 := by
  rw [FVar.sub_c, FVar.ofReal_c]
  show (if i = 0 then t0 else if i = 1 ∧ 1 ≤ n then 1 else 0) - _ = _
  by_cases h0 : i = 0
  · subst h0; simp
  · simp [h0]

/-- A product of two values whose only nonzero coefficient is the first-order
one has no coefficient of order 3 or more. -/
theorem mul_c_high (a b : FVar n) (ha : ∀ j, j ≠ 1 → a.c j = 0) (hb : ∀ j, j ≠ 1 → b.c j = 0)
    (i : ℕ) (hi : 3 ≤ i) : (a * b).c i = 0 := by
  by_cases h : i ≤ n
  · rw [FVar.mul_c a b i h]
    apply Finset.sum_eq_zero
    intro j _
    by_cases hj : j = 1
    · rw [hb (i - j) (by omega), mul_zero]
    · rw [ha j hj, zero_mul]
  · exact FVar.mul_c_of_lt a b i (by omega)

end FVar

namespace HermiteQuinticSplineND
variable {N : ℕ}

/-- The single-breakpoint branch at the breakpoint itself, for a differentiable
query of any order: the Taylor coefficients are the stored value, the stored
velocity, half the stored acceleration, and zero from order 3 on. -/
theorem call_single_jet {s : HermiteQuinticSplineND N} (hb : Built s)
    (hlen : s.t_breaks.length = 1) (n : ℕ) :
    ∃ f, s.call (FVar.make_fvar n (s.t_breaks.getD 0 0)) = .ok f ∧
      ∀ j, (f j).c 0 = s.y_breaks.getD 0 0 j
        ∧ (1 ≤ n → (f j).c 1 = s.v_breaks.getD 0 0 j)
        ∧ (2 ≤ n → (f j).c 2 = s.a_breaks.getD 0 0 j / 2)
        ∧ ∀ i, 3 ≤ i → (f j).c i = 0 := by
  have hcd : s.check_domain (DiffValue.toReal (FVar.make_fvar n (s.t_breaks.getD 0 0))) = .ok () :=
    check_domain_ok s _ (by omega) (le_refl _) (by rw [hlen]; exact le_refl _)
  rw [call_single hb _ hcd hlen]
  refine ⟨_, rfl, fun j => ⟨?_, fun h1 => ?_, fun h2 => ?_, fun i hi => ?_⟩⟩
  · simp [FVar.ofReal_c_zero]
  · simp [FVar.ofReal_c_zero, FVar.ofReal_c_one, FVar.mul_c_one h1, FVar.make_fvar_c_one h1]
  · have h1 : 1 ≤ n := by omega
    simp [FVar.ofReal_c_zero, FVar.ofReal_c_one, FVar.ofReal_c_two, FVar.mul_c_one h1,
      FVar.mul_c_two h2, FVar.make_fvar_c_one h1, FVar.make_fvar_c_two]
    ring
  · have he : ∀ k, k ≠ 1 →
        (FVar.make_fvar n (s.t_breaks.getD 0 0) - DiffValue.ofReal (s.t_breaks.getD 0 0)).c k
          = 0 := fun k hk => by
      rw [FVar.eps_c, if_neg (fun h => hk h.1)]
    have hhalf : ∀ k, k ≠ 1 →
        (DiffValue.ofReal (1 / 2)
          * (FVar.make_fvar n (s.t_breaks.getD 0 0) - DiffValue.ofReal (s.t_breaks.getD 0 0))).c k
          = 0 := fun k hk => by
      rw [FVar.ofReal_mul_c, he k hk, mul_zero, ite_self]
    have h3 : i ≠ 0 := by omega
    have h4 : i ≠ 1 := by omega
    rw [FVar.add_c, FVar.add_c, FVar.ofReal_c, if_neg h3, FVar.mul_ofReal_c, he i h4,
      FVar.mul_ofReal_c, FVar.mul_c_high _ _ hhalf he i hi]
    simp

end HermiteQuinticSplineND

namespace LinearSpline1D

/-- What a passed `check_domain` says about the query. -/
theorem linear_bounds_of_check_domain (s : LinearSpline1D) (t : ℚ)
    (h : s.check_domain t = .ok ()) :
    0 < s.t_breaks.length ∧ s.t_breaks.getD 0 0 ≤ t
      ∧ t ≤ s.t_breaks.getD (s.t_breaks.length - 1) 0 := by
  by_cases hne : s.t_breaks = []
  · rw [linear_check_domain_nil s t hne] at h; cases h
  · have hl : 0 < s.t_breaks.length := List.length_pos.mpr hne
    rw [linear_check_domain_eq s t hne, head_eq_getD, getLast_eq_getD] at h
    split_ifs at h with hc
    rw [not_or, not_lt, not_lt] at hc
    exact ⟨hl, hc.1, hc.2⟩

end LinearSpline1D

theorem nondecreasing_getD_le (xs : List ℚ) (h : xs.Pairwise (· ≤ ·)) (i j : ℕ) (hij : i ≤ j)
    (hj : j < xs.length) : xs.getD i 0 ≤ xs.getD j 0 := by
  rcases Nat.eq_or_lt_of_le hij with rfl | hlt
  · exact le_rfl
  · have hi : i < xs.length := by omega
    rw [List.getD_eq_getElem _ _ hi, List.getD_eq_getElem _ _ hj]
    exact List.pairwise_iff_getElem.mp h i j hi hj hlt

/-- A linear interpolant stays between the values at the ends of its segment. -/
theorem lerp_between (y0 y1 t0 t1 t : ℚ) (h01 : t0 < t1) (h0 : t0 ≤ t) (h1 : t ≤ t1) :
    min y0 y1 ≤ y0 + (y1 - y0) / (t1 - t0) * (t - t0)
      ∧ y0 + (y1 - y0) / (t1 - t0) * (t - t0) ≤ max y0 y1 := by
  have hd : 0 < t1 - t0 := sub_pos.mpr h01
  have e : y0 + (y1 - y0) / (t1 - t0) * (t - t0) = y0 + (y1 - y0) * ((t - t0) / (t1 - t0)) := by
    field_simp
  have hl0 : 0 ≤ (t - t0) / (t1 - t0) := div_nonneg (by linarith) (le_of_lt hd)
  have hl1 : (t - t0) / (t1 - t0) ≤ 1 := by
    rw [div_le_one hd]; linarith
  rw [e]
  rcases le_total y0 y1 with h | h
  · rw [min_eq_left h, max_eq_right h]
    constructor
    · nlinarith
    · nlinarith
  · rw [min_eq_right h, max_eq_left h]
    constructor
    · nlinarith
    · nlinarith

/-- On a segment whose end values do not decrease, a linear interpolant does not
decrease. -/
theorem lerp_mono (y0 y1 t0 t1 t t' : ℚ) (h01 : t0 < t1) (hy : y0 ≤ y1) (h : t ≤ t') :
    y0 + (y1 - y0) / (t1 - t0) * (t - t0) ≤ y0 + (y1 - y0) / (t1 - t0) * (t' - t0) := by
  have hd : 0 < t1 - t0 := sub_pos.mpr h01
  have hs : 0 ≤ (y1 - y0) / (t1 - t0) := div_nonneg (by linarith) (le_of_lt hd)
  nlinarith

namespace YoungLaplaceShape
variable {E : Externals}

/-- What `z_inv` returns is what the lookup returns, for a query that passed the
lookup's `check_domain`. -/
theorem z_inv_ok {T : Type} [DiffValue T] (fuel : ℕ) (m m' : YoungLaplaceShape E) (z ans : T)
    (h : z_inv fuel m z = some (.ok ans, m')) :
    m'.dense_z_inv.check_domain (DiffValue.toReal z) = .ok () ∧ m'.dense_z_inv.call z = .ok ans := by
  unfold z_inv at h
  generalize z_inv_while fuel m _ = w at h
  cases w with
  | none => cases h
  | some p =>
    obtain ⟨r1, m1⟩ := p
    cases r1 with
    | error e => cases h
    | ok u =>
      dsimp only at h
      cases hd : m1.dense_z_inv.domain with
      | error e => rw [hd] at h; cases h
      | ok q =>
        obtain ⟨front, back⟩ := q
        rw [hd] at h
        dsimp only at h
        split_ifs at h with hc
        · cases h
        cases hcall : m1.dense_z_inv.call z with
        | error e => rw [hcall] at h; cases h
        | ok a =>
          rw [hcall] at h
          simp only [Option.some.injEq, Prod.mk.injEq, Except.ok.injEq] at h
          obtain ⟨rfl, rfl⟩ := h
          exact ⟨by rw [LinearSpline1D.linear_check_domain_of_domain _ _ front back hd, if_neg hc],
            hcall⟩

end YoungLaplaceShape

namespace HermiteQuinticSplineND
variable {N : ℕ}

theorem getD_append_left {α : Type} (l : List α) (x d : α) (i : ℕ) (h : i < l.length) :
    (l ++ [x]).getD i d = l.getD i d :=
  List.getD_append l [x] d i h

/-- Every breakpoint of a strictly increasing cache is at most the last one. -/
theorem mem_le_last (xs : List ℚ) (h : xs.Pairwise (· < ·)) (x : ℚ) (hx : x ∈ xs) :
    x ≤ xs.getD (xs.length - 1) 0 := by
  obtain ⟨k, hk, rfl⟩ := List.getElem_of_mem hx
  have := increasing_getD_le xs h k (xs.length - 1) (by omega) (by omega)
  rw [List.getD_eq_getElem _ _ hk] at this
  exact this

/-- Appending a breakpoint after the last one does not change the plain value
anywhere in the previous domain. -/
theorem call_push_back {s : HermiteQuinticSplineND N} (hb : Built s) (hi : Increasing s)
    (hne : 0 < s.t_breaks.length) (t' : ℚ) (y v a : Fin N → ℚ)
    (hgt : s.t_breaks.getD (s.t_breaks.length - 1) 0 < t') (t : ℚ)
    (h0 : s.t_breaks.getD 0 0 ≤ t) (h1 : t ≤ s.t_breaks.getD (s.t_breaks.length - 1) 0) :
    (s.push_back t' y v a).call t = s.call t := by
  have hb' : Built (s.push_back t' y v a) := .push_back _ _ _ _ _ hb
  have hi' : Increasing (s.push_back t' y v a) :=
    increasing_push_back _ _ _ _ _ hi
      (fun x hx => lt_of_le_of_lt (mem_le_last _ hi x hx) hgt)
  obtain ⟨hy, hv, ha⟩ := hb.lengths
  have hlen' : (s.push_back t' y v a).t_breaks.length = s.t_breaks.length + 1 := by
    show (s.t_breaks ++ [t']).length = _
    simp
  have ht : ∀ i, i < s.t_breaks.length →
      (s.push_back t' y v a).t_breaks.getD i 0 = s.t_breaks.getD i 0 :=
    fun i h => getD_append_left _ _ _ i h
  have hyb : ∀ i, i < s.t_breaks.length →
      (s.push_back t' y v a).y_breaks.getD i 0 = s.y_breaks.getD i 0 :=
    fun i h => getD_append_left _ _ _ i (by omega)
  have hvb : ∀ i, i < s.t_breaks.length →
      (s.push_back t' y v a).v_breaks.getD i 0 = s.v_breaks.getD i 0 :=
    fun i h => getD_append_left _ _ _ i (by omega)
  have hab : ∀ i, i < s.t_breaks.length →
      (s.push_back t' y v a).a_breaks.getD i 0 = s.a_breaks.getD i 0 :=
    fun i h => getD_append_left _ _ _ i (by omega)
  by_cases hlast : t = s.t_breaks.getD (s.t_breaks.length - 1) 0
  · -- the previous last breakpoint: stored value on both sides
    have e1 := call_breakpoint_value hb hi (s.t_breaks.length - 1) (by omega)
    have e2 := call_breakpoint_value hb' hi' (s.t_breaks.length - 1) (by omega)
    rw [ht _ (by omega), hyb _ (by omega)] at e2
    rw [hlast, e1, e2]
  · have hlt : t < s.t_breaks.getD (s.t_breaks.length - 1) 0 := lt_of_le_of_ne h1 hlast
    have hlen : 2 ≤ s.t_breaks.length := by
      by_contra hc
      have h1' : s.t_breaks.length - 1 = 0 := by omega
      rw [h1'] at hlt
      linarith
    obtain ⟨i, hseg, hi1⟩ := segment_range s.t_breaks t hlen h0 h1
    obtain ⟨hbl, hbr, hbe⟩ := segment_bracket s.t_breaks hi t hlen h1 i hseg
    have hbr' : t < s.t_breaks.getD (i + 1) 0 := by
      rcases lt_or_eq_of_le hbr with h | h
      · exact h
      · exfalso
        have := hbe h
        have e : i + 1 = s.t_breaks.length - 1 := by omega
        rw [e] at h
        exact hlast h
    have hcd : s.check_domain (DiffValue.toReal t) = .ok () :=
      check_domain_ok s t hne h0 h1
    have hcd' : (s.push_back t' y v a).check_domain (DiffValue.toReal t) = .ok () := by
      apply check_domain_ok _ t (by omega)
      · rw [ht 0 hne]; exact h0
      · rw [hlen']
        have e : s.t_breaks.length + 1 - 1 = s.t_breaks.length := by omega
        have e3 : (s.push_back t' y v a).t_breaks.getD s.t_breaks.length 0 = t' :=
          getD_append_last _ _ _ rfl
        rw [e, e3]
        linarith
    have hseg' : segment (s.push_back t' y v a).t_breaks t = (i : ℤ) + 1 := by
      have hlast' := getLast?_eq_getD (s.push_back t' y v a).t_breaks (by omega)
      have e3 : (s.push_back t' y v a).t_breaks.getD s.t_breaks.length 0 = t' :=
        getD_append_last _ _ _ rfl
      unfold segment
      rw [hlast', hlen', Nat.add_sub_cancel, e3, if_neg (by
        intro h
        have := Option.some.inj h
        linarith)]
      have := upper_bound_eq (s.push_back t' y v a).t_breaks hi' t i (by omega)
        (by rw [ht i (by omega)]; exact hbl) (by rw [ht (i + 1) hi1]; exact hbr')
      rw [this]
      simp
    rw [call_eq_interpolate _ _ hcd' (by omega), call_eq_interpolate _ _ hcd (by omega),
      rat_toReal, hseg, hseg', interpolate_ok hb i hi1, interpolate_ok hb' i (by omega),
      ht i (by omega), ht (i + 1) hi1, hyb i (by omega), hyb (i + 1) hi1, hvb i (by omega),
      hvb (i + 1) hi1, hab i (by omega), hab (i + 1) hi1]

end HermiteQuinticSplineND

theorem Example.tall_reached :
    ∃ r, (Example.sprout 1000).z_inv 10 (200000 : ℚ) = some (r, Example.tall) :=
  outcome_getD _ _ (by decide!)

theorem Example.tall_domain : Example.tall.dense.domain = .ok (0, 2187 / 10) := by
  have ht : Example.tall.dense.t_breaks
      = [0, 1 / 10, 3 / 10, 9 / 10, 27 / 10, 81 / 10, 243 / 10, 729 / 10, 2187 / 10] := by
    decide!
  unfold HermiteQuinticSplineND.domain
  rw [ht]
  rfl

namespace YoungLaplaceShape
variable {E : Externals}

/-- Once the frontier of the shape cache has reached `MAX_ARCLENGTH`, `operator()`
runs no step, whatever the query. -/
theorem call_no_step {T : Type} [DiffValue T] (m : YoungLaplaceShape E) (s : T) (a b : ℚ)
    (hd : m.dense.domain = .ok (a, b)) (hb : MAX_ARCLENGTH ≤ b) :
    ∃ r, ∀ fuel, call fuel m s = some (r, m) := by
  have hno : ∀ fuel, step_while fuel m
      (min (DiffValue.toReal (if DiffValue.toReal s ≥ 0 then s else -s)) MAX_ARCLENGTH)
        = some (.ok (), m) :=
    fun fuel => step_while_noop fuel m _ a b hd (not_lt.mpr (le_trans (min_le_right _ _) hb))
  unfold call
  cases check_domain s with
  | error e => exact ⟨_, fun _ => rfl⟩
  | ok u =>
    dsimp only
    cases hc : m.dense.call (if DiffValue.toReal s ≥ 0 then s else -s) with
    | error e => exact ⟨.error e, fun fuel => by simp only [hno fuel, hc]⟩
    | ok ans =>
      exact ⟨.ok (if DiffValue.toReal s < 0 then Function.update ans 0 (ans 0 * (-1)) else ans),
        fun fuel => by simp only [hno fuel, hc]⟩

/-- Once the frontier of the shape cache has reached `MAX_ARCLENGTH`, the Newton
loop of `closest` runs no step. -/
theorem closest_loop_no_step (m : YoungLaplaceShape E) (a b : ℚ)
    (hd : m.dense.domain = .ok (a, b)) (hb : MAX_ARCLENGTH ≤ b) (r z : ℚ) (n : ℕ) (s : ℚ) :
    (∀ fuel, closest_loop fuel r z n m s = closest_loop 0 r z n m s)
      ∧ ∃ res, closest_loop 0 r z n m s = some (res, m) := by
  induction n generalizing s with
  | zero => exact ⟨fun fuel => by rw [closest_loop, closest_loop], .ok s, by rw [closest_loop]⟩
  | succ n ih =>
    obtain ⟨r1, h1⟩ := call_no_step m (FVar.make_fvar 2 s) a b hd hb
    constructor
    · intro fuel
      rw [closest_loop, closest_loop]
      dsimp only
      rw [h1 fuel, h1 0]
      cases r1 with
      | error e => rfl
      | ok predict =>
        dsimp only
        split_ifs
        all_goals first
          | rfl
          | exact (ih _).1 fuel
    · rw [closest_loop]
      dsimp only
      rw [h1 0]
      cases r1 with
      | error e => exact ⟨_, rfl⟩
      | ok predict =>
        dsimp only
        split_ifs
        all_goals first
          | exact ⟨_, rfl⟩
          | exact (ih _).2

/-- With the lookup's frontier at or beyond `z`, or with the latch set, `z_inv`
runs no step. -/
theorem z_inv_no_step {T : Type} [DiffValue T] (m : YoungLaplaceShape E) (z : T) (a b : ℚ)
    (hd : m.dense_z_inv.domain = .ok (a, b))
    (h : ¬ (b < DiffValue.toReal z ∧ m.max_z_solved = false)) :
    ∃ r, ∀ fuel, z_inv fuel m z = some (r, m) := by
  have hno : ∀ fuel, z_inv_while fuel m (DiffValue.toReal z) = some (.ok (), m) :=
    fun fuel => z_inv_while_noop fuel m _ a b hd h
  unfold z_inv
  by_cases hc : DiffValue.toReal z < a ∨ DiffValue.toReal z > b
  · exact ⟨.error .domain_error, fun fuel => by simp only [hno fuel, hd, if_pos hc]⟩
  · cases hcall : m.dense_z_inv.call z with
    | error e => exact ⟨.error e, fun fuel => by simp only [hno fuel, hd, if_neg hc, hcall]⟩
    | ok ans => exact ⟨.ok ans, fun fuel => by simp only [hno fuel, hd, if_neg hc, hcall]⟩

end YoungLaplaceShape

namespace YoungLaplaceShape
variable {E : Externals}

/-- The derivative with respect to the Bond number of the right-hand side of
`ode` along a trajectory that depends on the Bond number, with the perturbation
taken as `0`. -/
theorem ode_hasDerivAt (hE : E.denorm_min = 0) (m : YoungLaplaceShape E)
    (r z r' z' : ℚ → ℚ) (B rB zB r'B z'B : ℚ) (hr : r B ≠ 0)
    (h1 : HasDerivAt r rB B) (h2 : HasDerivAt z zB B) (h3 : HasDerivAt r' r'B B)
    (h4 : HasDerivAt z' z'B B) :
    HasDerivAt (fun b => ode { m with bond := b } ![r b, z b] ![r' b, z' b] 0)
        (-z'B * (2 - B * z B - z' B / r B)
          - z' B * (-(z B) - zB * B - z'B / r B + rB * z' B / (r B * r B))) B
      ∧ HasDerivAt (fun b => ode { m with bond := b } ![r b, z b] ![r' b, z' b] 1)
        (r'B * (2 - B * z B - z' B / r B)
          + r' B * (-(z B) - zB * B - z'B / r B + rB * z' B / (r B * r B))) B := by
  have hphi : HasDerivAt (fun b => 2 - b * z b - z' b / r b)
      (-(z B) - zB * B - z'B / r B + rB * z' B / (r B * r B)) B := by
    have := ((hasDerivAt_const B (2 : ℚ)).sub ((hasDerivAt_id B).mul h2)).sub (h4.div h1 hr)
    convert this using 1
    simp only [id]
    field_simp
    ring
  have e0 : (fun b => ode { m with bond := b } ![r b, z b] ![r' b, z' b] 0)
      = fun b => -(z' b) * (2 - b * z b - z' b / r b) := by
    funext b
    simp [ode, hE]
  have e1 : (fun b => ode { m with bond := b } ![r b, z b] ![r' b, z' b] 1)
      = fun b => r' b * (2 - b * z b - z' b / r b) := by
    funext b
    simp [ode, hE]
  rw [e0, e1]
  constructor
  · have := h4.neg.mul hphi
    convert this using 1
    ring
  · have := h3.mul hphi
    convert this using 1

/-- What `ode_DBo` returns once the shape has been sampled, with the
perturbation taken as `0`. -/
theorem ode_DBo_eq (hE : E.denorm_min = 0) (fuel : ℕ) (m m' : YoungLaplaceShape E) (s : ℚ)
    (y dy_ds : Fin 2 → ℚ) (f : Fin 2 → FVar 1)
    (h : call fuel m (FVar.make_fvar 1 s) = some (.ok f, m')) :
    ode_DBo fuel m s y dy_ds = some (.ok
      ![-(dy_ds 1) * (2 - m'.bond * (f 1).derivative 0 - (f 1).derivative 1 / (f 0).derivative 0)
          - (f 1).derivative 1 * (-((f 1).derivative 0) - y 1 * m'.bond
              - dy_ds 1 / (f 0).derivative 0
              + y 0 * (f 1).derivative 1 / ((f 0).derivative 0 * (f 0).derivative 0)),
        dy_ds 0 * (2 - m'.bond * (f 1).derivative 0 - (f 1).derivative 1 / (f 0).derivative 0)
          + (f 0).derivative 1 * (-((f 1).derivative 0) - y 1 * m'.bond
              - dy_ds 1 / (f 0).derivative 0
              + y 0 * (f 1).derivative 1 / ((f 0).derivative 0 * (f 0).derivative 0))], m') := by
  unfold ode_DBo
  dsimp only
  rw [h]
  simp only [hE, add_zero]

end YoungLaplaceShape

/-! ### Copies that integrate again from the apex -/

namespace YoungLaplaceShape
variable {E : Externals}

theorem arkrhs_congr (o c : YoungLaplaceShape E) (h : c.bond = o.bond) : arkrhs c = arkrhs o := by
  funext s nv
  simp only [arkrhs, ode, h]

/-- Two models with the same Bond number, shape integrator and latch take the
same step: it ends the same way for both, leaves them with the same shape
integrator and latch, and appends the same breakpoint to both shape caches. -/
theorem step_congr (o c : YoungLaplaceShape E) (hb : c.bond = o.bond)
    (hm : c.arkode_mem = o.arkode_mem) (hn : c.nv = o.nv)
    (hl : c.max_z_solved = o.max_z_solved) :
    (step c).1 = (step o).1 ∧ (step c).2.bond = (step o).2.bond
      ∧ (step c).2.arkode_mem = (step o).2.arkode_mem ∧ (step c).2.nv = (step o).2.nv
      ∧ (step c).2.max_z_solved = (step o).2.max_z_solved
      ∧ ((step o).1 = .ok () → ∃ t y v a, (step o).2.dense = o.dense.push_back t y v a
          ∧ (step c).2.dense = c.dense.push_back t y v a) := by
  have hr := arkrhs_congr o c hb
  unfold step
  simp only [hm, hn, hr, hl, ode, hb]
  split_ifs <;> refine ⟨rfl, ?_, ?_, ?_, ?_, ?_⟩ <;>
    first
    | rfl
    | assumption
    | exact fun _ => ⟨_, _, _, _, rfl, rfl⟩
    | exact fun h => by cases h

end YoungLaplaceShape

theorem getD_behind {α : Type} (P S : List α) (hP : P <+: S) (j : ℕ) (hj : 1 ≤ j ∨ P.length = 1)
    (hne : P ≠ []) (d : α) : (P ++ S.tail).getD (j + (P.length - 1)) d = S.getD j d := by
  obtain ⟨R, rfl⟩ := hP
  cases P with
  | nil => exact absurd rfl hne
  | cons b P' =>
    cases j with
    | zero =>
      have : P' = [] := List.eq_nil_of_length_eq_zero (by simpa using hj)
      subst this
      rfl
    | succ j' =>
      simp only [List.cons_append, List.tail_cons, List.length_cons, Nat.add_sub_cancel,
        List.getD_eq_getElem?_getD, Nat.add_right_comm j' 1 P'.length, List.getElem?_cons_succ]
      rw [List.getElem?_append_right (Nat.le_add_left _ _), Nat.add_sub_cancel]

theorem getD_front {α : Type} (P Q : List α) (j : ℕ) (hj : j < P.length) (d : α) :
    (P ++ Q).getD j d = P.getD j d :=
  List.getD_append P Q d j hj

theorem getD_initial {α : Type} (P S : List α) (hP : P <+: S) (j : ℕ) (hj : j < P.length)
    (d : α) : S.getD j d = P.getD j d := by
  obtain ⟨R, rfl⟩ := hP
  exact List.getD_append P R d j hj

/-- On a list split at `p` into elements that are at most `t` and elements that
are greater than `t`, sorted or not, `upper_bound` finds `p`. -/
theorem upper_bound_partition (xs : List ℚ) (t : ℚ) (p : ℕ) (hp : p ≤ xs.length)
    (hl : ∀ i, i < p → xs.getD i 0 ≤ t) (hr : ∀ i, p ≤ i → i < xs.length → t < xs.getD i 0) :
    upper_bound xs t = p := by
  have hle := upper_bound_le_length xs t
  rcases Nat.lt_trichotomy (upper_bound xs t) p with hlt | heq | hgt
  · have h2 := lt_upper_bound xs t (by omega)
    exact absurd h2 (not_lt.mpr (hl _ hlt))
  · exact heq
  · obtain ⟨i, hi⟩ : ∃ i, upper_bound xs t = i + 1 := ⟨upper_bound xs t - 1, by omega⟩
    have h2 := upper_bound_pred_le xs t i hi
    exact absurd (hr i (by omega) (by omega)) (not_lt.mpr h2)

namespace HermiteQuinticSplineND
variable {N : ℕ}

/-- On an index in range the reads of `interpolate` succeed, for lists of equal
lengths. -/
theorem interpolate_ok_of_lengths {T : Type} [DiffValue T] (s : HermiteQuinticSplineND N)
    (hy : s.y_breaks.length = s.t_breaks.length) (hv : s.v_breaks.length = s.t_breaks.length)
    (ha : s.a_breaks.length = s.t_breaks.length)
    (i : ℕ) (hi : i + 1 < s.t_breaks.length) (t : T) :
    s.interpolate ((i : ℤ) + 1) t = .ok (fun j =>
      horner (s.t_breaks.getD (i + 1) 0 - s.t_breaks.getD i 0)
        ((t - DiffValue.ofReal (s.t_breaks.getD i 0))
          / (s.t_breaks.getD (i + 1) 0 - s.t_breaks.getD i 0))
        (s.y_breaks.getD i 0 j) (s.y_breaks.getD (i + 1) 0 j)
        (s.v_breaks.getD i 0 j) (s.v_breaks.getD (i + 1) 0 j)
        (s.a_breaks.getD i 0 j) (s.a_breaks.getD (i + 1) 0 j)) := by
  have e : ((i : ℤ) + 1) = ((i + 1 : ℕ) : ℤ) := by simp
  unfold interpolate
  simp only [add_sub_cancel_right]
  rw [e, index_getD s.t_breaks i (by omega) 0, index_getD s.t_breaks (i + 1) hi 0,
    index_getD s.y_breaks i (by omega) 0, index_getD s.y_breaks (i + 1) (by omega) 0,
    index_getD s.v_breaks i (by omega) 0, index_getD s.v_breaks (i + 1) (by omega) 0,
    index_getD s.a_breaks i (by omega) 0, index_getD s.a_breaks (i + 1) (by omega) 0]
  rfl

/-- A cache `C` that holds the breakpoints of `D` followed by those of `S` after
its first, where `D` holds the first breakpoints of the increasing cache `S`:
beyond the last breakpoint of `D`, `C` and `S` give the same answer. -/
theorem call_behind {T : Type} [DiffValue T] {D S C : HermiteQuinticSplineND N} (hS : Built S)
    (hD : Built D) (hi : Increasing S) (hpre : D.Prefix S) (hne : 0 < D.t_breaks.length)
    (ht : C.t_breaks = D.t_breaks ++ S.t_breaks.tail)
    (hy : C.y_breaks = D.y_breaks ++ S.y_breaks.tail)
    (hv : C.v_breaks = D.v_breaks ++ S.v_breaks.tail)
    (ha : C.a_breaks = D.a_breaks ++ S.a_breaks.tail) (x : T)
    (h0 : D.t_breaks.getD (D.t_breaks.length - 1) 0 < DiffValue.toReal x)
    (h1 : DiffValue.toReal x ≤ S.t_breaks.getD (S.t_breaks.length - 1) 0) :
    C.call x = S.call x := by
  obtain ⟨hSy, hSv, hSa⟩ := hS.lengths
  obtain ⟨hDy, hDv, hDa⟩ := hD.lengths
  obtain ⟨pt, py, pv, pa⟩ := hpre
  have hDne : D.t_breaks ≠ [] := List.ne_nil_of_length_pos hne
  have hpn : D.t_breaks.length ≤ S.t_breaks.length := pt.length_le
  have hDS : ∀ j, j < D.t_breaks.length → S.t_breaks.getD j 0 = D.t_breaks.getD j 0 :=
    fun j hj => getD_initial _ _ pt j hj 0
  -- the cache of the source ends before that of the fresh run
  have hlt : D.t_breaks.length < S.t_breaks.length := by
    rcases Nat.lt_or_ge D.t_breaks.length S.t_breaks.length with h | h
    · exact h
    · have e : D.t_breaks.length = S.t_breaks.length := le_antisymm hpn h
      rw [← hDS _ (by omega), e] at h0
      exact absurd (lt_of_lt_of_le h0 h1) (lt_irrefl _)
  have hCl : C.t_breaks.length = S.t_breaks.length + (D.t_breaks.length - 1) := by
    rw [ht, List.length_append, List.length_tail]; omega
  have hCyl : C.y_breaks.length = C.t_breaks.length := by
    rw [hy, ht, List.length_append, List.length_append, List.length_tail, List.length_tail,
      hSy, hDy]
  have hCvl : C.v_breaks.length = C.t_breaks.length := by
    rw [hv, ht, List.length_append, List.length_append, List.length_tail, List.length_tail,
      hSv, hDv]
  have hCal : C.a_breaks.length = C.t_breaks.length := by
    rw [ha, ht, List.length_append, List.length_append, List.length_tail, List.length_tail,
      hSa, hDa]
  -- entries of `C` behind the copied part are those of `S`
  have hCt : ∀ j, (1 ≤ j ∨ D.t_breaks.length = 1) →
      C.t_breaks.getD (j + (D.t_breaks.length - 1)) 0 = S.t_breaks.getD j 0 :=
    fun j hj => by rw [ht]; exact getD_behind _ _ pt j hj hDne 0
  have hDyne : D.y_breaks ≠ [] := List.ne_nil_of_length_pos (by omega)
  have hDvne : D.v_breaks ≠ [] := List.ne_nil_of_length_pos (by omega)
  have hDane : D.a_breaks ≠ [] := List.ne_nil_of_length_pos (by omega)
  have hCy : ∀ j, (1 ≤ j ∨ D.t_breaks.length = 1) →
      C.y_breaks.getD (j + (D.t_breaks.length - 1)) 0 = S.y_breaks.getD j 0 :=
    fun j hj => by rw [hy, ← hDy]; exact getD_behind _ _ py j (by omega) hDyne 0
  have hCv : ∀ j, (1 ≤ j ∨ D.t_breaks.length = 1) →
      C.v_breaks.getD (j + (D.t_breaks.length - 1)) 0 = S.v_breaks.getD j 0 :=
    fun j hj => by rw [hv, ← hDv]; exact getD_behind _ _ pv j (by omega) hDvne 0
  have hCa : ∀ j, (1 ≤ j ∨ D.t_breaks.length = 1) →
      C.a_breaks.getD (j + (D.t_breaks.length - 1)) 0 = S.a_breaks.getD j 0 :=
    fun j hj => by rw [ha, ← hDa]; exact getD_behind _ _ pa j (by omega) hDane 0
  have hCfront : ∀ j, j < D.t_breaks.length → C.t_breaks.getD j 0 = S.t_breaks.getD j 0 :=
    fun j hj => by rw [ht, getD_front _ _ j hj, hDS j hj]
  have hback : S.t_breaks.getD (D.t_breaks.length - 1) 0 < DiffValue.toReal x := by
    rw [hDS _ (by omega)]; exact h0
  have hS0 : S.t_breaks.getD 0 0 ≤ DiffValue.toReal x :=
    le_trans (increasing_getD_le _ hi 0 _ (by omega) (by omega)) (le_of_lt hback)
  have hClast : C.t_breaks.getD (C.t_breaks.length - 1) 0
      = S.t_breaks.getD (S.t_breaks.length - 1) 0 := by
    have := hCt (S.t_breaks.length - 1) (by omega)
    rw [← this]
    congr 1
    omega
  have hcdS : S.check_domain (DiffValue.toReal x) = .ok () :=
    check_domain_ok S _ (by omega) hS0 h1
  have hcdC : C.check_domain (DiffValue.toReal x) = .ok () :=
    check_domain_ok C _ (by omega) (by rw [hCfront 0 hne]; exact hS0) (by rw [hClast]; exact h1)
  obtain ⟨i, hseg, hi1⟩ := segment_range S.t_breaks _ (by omega) hS0 h1
  obtain ⟨hb0, hb1, hb2⟩ := segment_bracket S.t_breaks hi _ (by omega) h1 i hseg
  have hip : D.t_breaks.length ≤ i + 1 := by
    by_contra hcon
    have := increasing_getD_le _ hi (i + 1) (D.t_breaks.length - 1) (by omega) (by omega)
    exact absurd (lt_of_lt_of_le hback hb1) (not_lt.mpr this)
  have hsegC : segment C.t_breaks (DiffValue.toReal x) = ((i + (D.t_breaks.length - 1) : ℕ) : ℤ) + 1 := by
    have hlastS := getLast?_eq_getD S.t_breaks (by omega)
    have hlastC := getLast?_eq_getD C.t_breaks (by omega)
    unfold segment at hseg ⊢
    rw [hlastC, hClast]
    rw [hlastS] at hseg
    by_cases hx : DiffValue.toReal x = S.t_breaks.getD (S.t_breaks.length - 1) 0
    · rw [if_pos (by rw [hx])] at hseg ⊢
      rw [hCl]
      push_cast
      omega
    · rw [if_neg (by simpa using hx)] at hseg ⊢
      have hxlt : DiffValue.toReal x < S.t_breaks.getD (i + 1) 0 := by
        rcases lt_or_eq_of_le hb1 with h | h
        · exact h
        · have := hb2 h
          exact absurd (by rw [h]; congr 1; omega) hx
      rw [upper_bound_partition C.t_breaks _ (i + (D.t_breaks.length - 1) + 1) (by omega)
        (fun j hj => ?_) (fun j hj1 hj2 => ?_)]
      · push_cast; ring
      · rcases Nat.lt_or_ge j D.t_breaks.length with hjp | hjp
        · rw [hCfront j hjp]
          exact le_trans (increasing_getD_le _ hi j (D.t_breaks.length - 1) (by omega) (by omega))
            (le_of_lt hback)
        · have := hCt (j - (D.t_breaks.length - 1)) (by omega)
          rw [show j - (D.t_breaks.length - 1) + (D.t_breaks.length - 1) = j by omega] at this
          rw [this]
          exact le_trans (increasing_getD_le _ hi (j - (D.t_breaks.length - 1)) i (by omega)
            (by omega)) hb0
      · have := hCt (j - (D.t_breaks.length - 1)) (by omega)
        rw [show j - (D.t_breaks.length - 1) + (D.t_breaks.length - 1) = j by omega] at this
        rw [this]
        exact lt_of_lt_of_le hxlt (increasing_getD_le _ hi (i + 1)
          (j - (D.t_breaks.length - 1)) (by omega) (by omega))
  rw [call_eq_interpolate C x hcdC (by omega), call_eq_interpolate S x hcdS (by omega), hseg,
    hsegC, interpolate_ok hS i hi1,
    interpolate_ok_of_lengths C hCyl hCvl hCal (i + (D.t_breaks.length - 1)) (by omega)]
  have e1 : i + (D.t_breaks.length - 1) + 1 = (i + 1) + (D.t_breaks.length - 1) := by omega
  have hip' : 1 ≤ i ∨ D.t_breaks.length = 1 := by omega
  rw [e1, hCt i hip', hCt (i + 1) (by omega), hCy i hip', hCy (i + 1) (by omega), hCv i hip',
    hCv (i + 1) (by omega), hCa i hip', hCa (i + 1) (by omega)]

end HermiteQuinticSplineND

theorem getD_append_tail {α : Type} (P S : List α) (j : ℕ) (hj : 1 ≤ j) (hne : P ≠ []) (d : α) :
    (P ++ S.tail).getD (j + (P.length - 1)) d = S.getD j d := by
  cases P with
  | nil => exact absurd rfl hne
  | cons b P' =>
    cases S with
    | nil =>
      simp only [List.tail_nil, List.append_nil, List.getD_eq_getElem?_getD, List.getElem?_nil,
        List.length_cons, Nat.add_sub_cancel]
      rw [List.getElem?_eq_none (by simp; omega)]
    | cons x S' =>
      obtain ⟨j', rfl⟩ : ∃ j', j = j' + 1 := ⟨j - 1, by omega⟩
      simp only [List.cons_append, List.tail_cons, List.length_cons, Nat.add_sub_cancel,
        List.getD_eq_getElem?_getD, Nat.add_right_comm j' 1 P'.length, List.getElem?_cons_succ]
      rw [List.getElem?_append_right (Nat.le_add_left _ _), Nat.add_sub_cancel]

namespace YoungLaplaceShape
variable {E : Externals}

/-- A step that returns appends one breakpoint to the shape cache. -/
theorem step_ok_dense (m m' : YoungLaplaceShape E) (h : step m = (.ok (), m')) :
    ∃ t y v a, m'.dense = m.dense.push_back t y v a := by
  obtain ⟨-, -, -, -, -, hd⟩ := step_congr m m rfl rfl rfl rfl
  rw [h] at hd
  obtain ⟨t, y, v, a, e, -⟩ := hd rfl
  exact ⟨t, y, v, a, e⟩

/-- A step keeps the two models of `Shadow` in step. -/
theorem step_shadow {D : HermiteQuinticSplineND 2} {o c : YoungLaplaceShape E}
    (h : Shadow D o c) (hb : o.dense.Built) (hne : 0 < o.dense.t_breaks.length) :
    (step c).1 = (step o).1 ∧ ((step o).1 = .ok () → Shadow D (step o).2 (step c).2) := by
  obtain ⟨h1, h2, h3, h4, h5, h6⟩ := step_congr o c h.bond h.mem h.nv h.latch
  refine ⟨h1, fun hok => ?_⟩
  obtain ⟨t, y, v, a, eo, ec⟩ := h6 hok
  obtain ⟨hy, hv, ha⟩ := hb.lengths
  refine ⟨h2, h3, h4, h5, ?_, ?_, ?_, ?_⟩
  · rw [eo, ec]
    show c.dense.t_breaks ++ [t] = D.t_breaks ++ (o.dense.t_breaks ++ [t]).tail
    rw [h.t, List.tail_append_of_ne_nil (List.ne_nil_of_length_pos hne), List.append_assoc]
  · rw [eo, ec]
    show c.dense.y_breaks ++ [y] = D.y_breaks ++ (o.dense.y_breaks ++ [y]).tail
    rw [h.y, List.tail_append_of_ne_nil (List.ne_nil_of_length_pos (by omega)),
      List.append_assoc]
  · rw [eo, ec]
    show c.dense.v_breaks ++ [v] = D.v_breaks ++ (o.dense.v_breaks ++ [v]).tail
    rw [h.v, List.tail_append_of_ne_nil (List.ne_nil_of_length_pos (by omega)),
      List.append_assoc]
  · rw [eo, ec]
    show c.dense.a_breaks ++ [a] = D.a_breaks ++ (o.dense.a_breaks ++ [a]).tail
    rw [h.a, List.tail_append_of_ne_nil (List.ne_nil_of_length_pos (by omega)),
      List.append_assoc]

/-- After the first step both models of `Shadow` have the same frontier. -/
theorem shadow_back {D : HermiteQuinticSplineND 2} {o c : YoungLaplaceShape E}
    (h : Shadow D o c) (hD : 0 < D.t_breaks.length) (hlen : 2 ≤ o.dense.t_breaks.length) :
    0 < c.dense.t_breaks.length ∧
    c.dense.t_breaks.getD (c.dense.t_breaks.length - 1) 0
      = o.dense.t_breaks.getD (o.dense.t_breaks.length - 1) 0 := by
  have hl : c.dense.t_breaks.length = o.dense.t_breaks.length - 1 + D.t_breaks.length := by
    rw [h.t, List.length_append, List.length_tail]; omega
  refine ⟨by omega, ?_⟩
  have := getD_append_tail D.t_breaks o.dense.t_breaks (o.dense.t_breaks.length - 1) (by omega)
    (List.ne_nil_of_length_pos hD) 0
  rw [← this, ← h.t]
  congr 1
  omega

/-- The stepping loops of the two models of `Shadow` run in step: with the same
fuel they end the same way, and if they return the models are still in step. -/
theorem step_while_shadow (D : HermiteQuinticSplineND 2) (target : ℚ)
    (hD : 0 < D.t_breaks.length) (fuel : ℕ) (o c : YoungLaplaceShape E) (h : Shadow D o c)
    (hb : o.dense.Built) (hne : 0 < o.dense.t_breaks.length) (hc : 0 < c.dense.t_breaks.length)
    (hbk : c.dense.t_breaks.getD (c.dense.t_breaks.length - 1) 0 < target
      ↔ o.dense.t_breaks.getD (o.dense.t_breaks.length - 1) 0 < target) :
    (step_while fuel o target = none → step_while fuel c target = none)
      ∧ ∀ r o', step_while fuel o target = some (r, o') →
          ∃ c', step_while fuel c target = some (r, c') ∧ (r = .ok () → Shadow D o' c') := by
  induction fuel generalizing o c with
  | zero =>
    rw [step_while_eq, step_while_eq, HermiteQuinticSplineND.domain_eq _ hne,
      HermiteQuinticSplineND.domain_eq _ hc]
    dsimp only
    by_cases hlt : o.dense.t_breaks.getD (o.dense.t_breaks.length - 1) 0 < target
    · rw [if_pos hlt, if_pos (hbk.mpr hlt)]
      exact ⟨fun _ => rfl, fun r o' hr => by cases hr⟩
    · rw [if_neg hlt, if_neg (fun hh => hlt (hbk.mp hh))]
      refine ⟨fun hh => (by cases hh), fun r o' hr => ?_⟩
      cases hr
      exact ⟨c, rfl, fun _ => h⟩
  | succ n ih =>
    rw [step_while_eq, step_while_eq, HermiteQuinticSplineND.domain_eq _ hne,
      HermiteQuinticSplineND.domain_eq _ hc]
    dsimp only
    by_cases hlt : o.dense.t_breaks.getD (o.dense.t_breaks.length - 1) 0 < target
    · rw [if_pos hlt, if_pos (hbk.mpr hlt)]
      obtain ⟨h1, h2⟩ := step_shadow h hb hne
      have hb1 := step_built o hb
      rcases hso : step o with ⟨ro, o1⟩
      rcases hsc : step c with ⟨rc, c1⟩
      rw [hso, hsc] at h1
      rw [hso] at hb1
      rw [hso, hsc] at h2
      dsimp only at h1 h2 hb1
      subst h1
      cases rc with
      | error e =>
        dsimp only
        exact ⟨fun hh => (by cases hh), fun r o' hr => (by
          cases hr; exact ⟨c1, rfl, fun hh => (by cases hh)⟩)⟩
      | ok u =>
        dsimp only
        have hsh := h2 rfl
        obtain ⟨t, y, v, a, ed⟩ := step_ok_dense o o1 hso
        have hlen : 2 ≤ o1.dense.t_breaks.length := by
          rw [ed]
          show 2 ≤ (o.dense.t_breaks ++ [t]).length
          rw [List.length_append]; simp; omega
        obtain ⟨hc1, hbk1⟩ := shadow_back hsh hD hlen
        exact ih o1 c1 hsh hb1 (by omega) hc1 (by rw [hbk1])
    · rw [if_neg hlt, if_neg (fun hh => hlt (hbk.mp hh))]
      refine ⟨fun hh => (by cases hh), fun r o' hr => ?_⟩
      cases hr
      exact ⟨c, rfl, fun _ => h⟩

/-- More fuel does not change the outcome of a stepping loop that ended. -/
theorem step_while_mono (fuel n : ℕ) (m : YoungLaplaceShape E) (target : ℚ)
    (x : Except Exn Unit × YoungLaplaceShape E) (h : step_while fuel m target = some x) :
    step_while (fuel + n) m target = some x := by
  induction fuel generalizing m with
  | zero =>
    rw [step_while_eq] at h ⊢
    split at h
    · exact h
    · split_ifs at h with hlt
      rw [if_neg hlt]
      exact h
  | succ k ih =>
    rw [show k + 1 + n = (k + n) + 1 by omega]
    rw [step_while_eq] at h ⊢
    split at h
    · exact h
    · split_ifs at h with hlt
      · rw [if_pos hlt]
        dsimp only at h ⊢
        rcases hs : step m with ⟨r1, m1⟩
        rw [hs] at h
        cases r1 with
        | error e => exact h
        | ok u => exact ih m1 h
      · rw [if_neg hlt]
        exact h

end YoungLaplaceShape

namespace YoungLaplaceShape
variable {E : Externals}

/-- The member `operator()` on an arclength inside the range, in terms of the
outcome of its stepping loop. -/
theorem call_eq_of_loop (fuel : ℕ) (m : YoungLaplaceShape E) (s : ℚ)
    (h : ¬ (s < -MAX_ARCLENGTH ∨ s > MAX_ARCLENGTH)) :
    call fuel m s = match step_while fuel m |s| with
      | none => none
      | some (.error e, m1) => some (.error e, m1)
      | some (.ok (), m1) =>
        some ((m1.dense.call |s|).map
          (fun ans => if s < 0 then Function.update ans 0 (ans 0 * (-1)) else ans), m1) := by
  have habs : (if DiffValue.toReal s ≥ 0 then s else -s) = |s| := by
    rw [rat_toReal]
    split
    · rw [abs_of_nonneg (by assumption)]
    · rw [rat_neg, abs_of_neg (by linarith)]
  have hle : |s| ≤ MAX_ARCLENGTH := by
    rw [not_or, not_lt, not_lt] at h
    exact abs_le.mpr ⟨h.1, h.2⟩
  unfold call
  rw [(check_domain_iff s).mpr h]
  dsimp only
  rw [habs, rat_toReal, min_eq_left hle]
  cases hw : step_while fuel m |s| with
  | none => rfl
  | some p =>
    obtain ⟨r, m1⟩ := p
    cases r with
    | error e => rfl
    | ok u =>
      dsimp only
      cases hc : m1.dense.call |s| with
      | error e => rfl
      | ok ans => rfl

/-- The states on the way of the shape integrator are reached by stepping the
shape only. -/
theorem trail_shapeExt {m0 m : YoungLaplaceShape E} {k : ℕ} (h : Trail m0 k m) :
    ShapeExt m0 m := by
  induction h with
  | zero => exact shapeExt_refl _
  | succ k m m' _ hs ih =>
    have := step_shapeExt m
    rw [hs] at this
    exact shapeExt_trans ih this

/-- After `k` steps that returned the shape cache holds `k` more breakpoints. -/
theorem trail_length {m0 m : YoungLaplaceShape E} {k : ℕ} (h : Trail m0 k m) :
    m.dense.t_breaks.length = m0.dense.t_breaks.length + k := by
  induction h with
  | zero => rfl
  | succ k m m' _ hs ih =>
    obtain ⟨t, y, v, a, e⟩ := step_ok_dense m m' hs
    rw [e]
    show (m.dense.t_breaks ++ [t]).length = _
    rw [List.length_append, ih]
    rfl

/-- A stepping loop that returns continues the way of the shape integrator. -/
theorem trail_step_while {m0 : YoungLaplaceShape E} (fuel : ℕ) (target : ℚ) :
    ∀ (k : ℕ) (m m' : YoungLaplaceShape E), Trail m0 k m →
      step_while fuel m target = some (.ok (), m') → ∃ k', Trail m0 k' m' := by
  induction fuel with
  | zero =>
    intro k m m' htr h
    rw [step_while_eq] at h
    split at h
    · cases h
    · split_ifs at h
      cases h
      exact ⟨k, htr⟩
  | succ n ih =>
    intro k m m' htr h
    rw [step_while_eq] at h
    split at h
    · cases h
    · split_ifs at h
      · rcases hs : step m with ⟨r1, m1⟩
        rw [hs] at h
        cases r1 with
        | error e => cases h
        | ok u => exact ih (k + 1) m1 m' (.succ k m m1 htr hs) h
      · cases h
        exact ⟨k, htr⟩

/-- A model reached from construction by shape queries that returned is on the
way of the shape integrator of the newly constructed model. -/
theorem evaluated_trail {m : YoungLaplaceShape E} (h : Evaluated m) :
    ∃ bond m0 k, new E bond = .ok m0 ∧ Trail m0 k m := by
  induction h with
  | new bond m h => exact ⟨bond, m, 0, h, .zero⟩
  | call fuel m s r m' _ hc ih =>
    obtain ⟨bond, m0, k, hn, htr⟩ := ih
    unfold call at hc
    cases hcd : check_domain s with
    | error e => rw [hcd] at hc; cases hc
    | ok u =>
      rw [hcd] at hc
      dsimp only at hc
      generalize hw : step_while fuel m _ = w at hc
      cases w with
      | none => cases hc
      | some p =>
        obtain ⟨r1, m1⟩ := p
        cases r1 with
        | error e => cases hc
        | ok u =>
          dsimp only at hc
          obtain ⟨k', htr'⟩ := trail_step_while fuel _ k m m1 htr hw
          split at hc
          · cases hc
          · cases hc
            exact ⟨bond, m0, k', hn, htr'⟩

/-- The frontier of a model that satisfies the invariant. -/
theorem InvS.frontier {m : YoungLaplaceShape E} (h : InvS m) :
    0 < m.dense.t_breaks.length ∧ m.dense.t_breaks.getD 0 0 = 0
      ∧ m.dense.domain = .ok (0, m.dense.t_breaks.getD (m.dense.t_breaks.length - 1) 0) := by
  have h0 := h.2.1.1
  have hl : 0 < m.dense.t_breaks.length := by
    cases hs : m.dense.t_breaks with
    | nil => rw [hs] at h0; cases h0
    | cons b bs => simp
  have hfront : m.dense.t_breaks.getD 0 0 = 0 := by
    have := head?_eq_getD _ hl
    rw [h0] at this
    exact (Option.some.inj this).symm
  exact ⟨hl, hfront, domain_of_head? _ 0 h0⟩

/-- A step that returns moves the frontier forward, if steps advance. -/
theorem step_ok_back (hadv : E.Advancing) (m m' : YoungLaplaceShape E) (hinv : InvS m)
    (hs : step m = (.ok (), m')) :
    m.dense.t_breaks.getD (m.dense.t_breaks.length - 1) 0
      < m'.dense.t_breaks.getD (m'.dense.t_breaks.length - 1) 0 := by
  have hinv' : InvS m' := by
    have := (step_shapeExt m).inv hadv hinv
    rw [hs] at this
    exact this
  obtain ⟨hl, -, -⟩ := hinv.frontier
  obtain ⟨t, y, v, a, e⟩ := step_ok_dense m m' hs
  have hinc := hinv'.2.2.1
  unfold HermiteQuinticSplineND.Increasing at hinc
  rw [e] at hinc ⊢
  have ht : (m.dense.push_back t y v a).t_breaks = m.dense.t_breaks ++ [t] := rfl
  rw [ht] at hinc ⊢
  have := increasing_getD_lt _ hinc (m.dense.t_breaks.length - 1) m.dense.t_breaks.length
    (by omega) (by rw [List.length_append]; simp)
  rw [HermiteQuinticSplineND.getD_append_left _ _ _ _ (by omega)] at this
  rw [List.length_append]
  simpa using this

/-- The stepping loop of a newly constructed model passes through every state on
the way of its shape integrator whose frontier is before the target: with fuel
for fewer steps than lead there it does not end, with more fuel it continues as
the loop from that state does. -/
theorem step_while_through (hadv : E.Advancing) {m0 m : YoungLaplaceShape E} {k : ℕ}
    (hinv : InvS m0) (htr : Trail m0 k m) (target : ℚ)
    (hlt : m.dense.t_breaks.getD (m.dense.t_breaks.length - 1) 0 < target) (fuel : ℕ) :
    step_while fuel m0 target
      = if fuel < k then none else step_while (fuel - k) m target := by
  induction htr generalizing fuel with
  | zero => simp
  | succ k m m' htr hs ih =>
    have hm : InvS m := (trail_shapeExt htr).inv hadv hinv
    have hback := step_ok_back hadv m m' hm hs
    have hlt' := lt_trans hback hlt
    rw [ih hlt' fuel]
    rcases Nat.lt_trichotomy fuel k with h | h | h
    · rw [if_pos h, if_pos (by omega)]
    · subst h
      rw [if_neg (lt_irrefl _), if_pos (by omega), Nat.sub_self, step_while_eq, hm.frontier.2.2]
      dsimp only
      rw [if_pos hlt']
    · rw [if_neg (by omega), if_neg (by omega)]
      obtain ⟨n, hn⟩ : ∃ n, fuel - k = n + 1 := ⟨fuel - k - 1, by omega⟩
      rw [hn, show fuel - (k + 1) = n by omega, step_while_eq (n + 1), hm.frontier.2.2]
      dsimp only
      rw [if_pos hlt', hs]

end YoungLaplaceShape

namespace YoungLaplaceShape
variable {E : Externals}

/-- A model that holds the shape cache of `m` and integrates again from `s = 0`
in step with the newly constructed model that `m` was reached from: `operator()`
ends the same way on `m` and on that model, which needs fuel for the steps that
led to `m` in addition. -/
theorem call_shadow (hadv : E.Advancing) {bond : ℚ} {m0 m c : YoungLaplaceShape E} {k : ℕ}
    (hn : new E bond = .ok m0) (htr : Trail m0 k m) (hsh : Shadow m.dense m0 c) (s : ℚ)
    (fuel : ℕ) (r : Except Exn (Fin 2 → ℚ)) :
    ((∃ m', m.call fuel s = some (r, m')) → ∃ c', c.call (fuel + k) s = some (r, c'))
      ∧ ((∃ c', c.call fuel s = some (r, c')) → ∃ m', m.call fuel s = some (r, m')) := by
  have hinv0 : InvS m0 := (new_inv bond m0 hn hadv).1
  have hm : InvS m := (trail_shapeExt htr).inv hadv hinv0
  obtain ⟨hl0, -, -⟩ := hinv0.frontier
  obtain ⟨hl, hfront, hdom⟩ := hm.frontier
  obtain ⟨-, hd0, -, -, -⟩ := new_caches bond m0 hn
  have hcd : c.dense = m.dense := by
    have h1 := hsh.t
    have h2 := hsh.y
    have h3 := hsh.v
    have h4 := hsh.a
    rw [hd0] at h1 h2 h3 h4
    simp only [HermiteQuinticSplineND.push_back, HermiteQuinticSplineND.empty, List.nil_append,
      List.tail_cons, List.append_nil] at h1 h2 h3 h4
    cases hc : c.dense
    cases hmd : m.dense
    rw [hc, hmd] at h1 h2 h3 h4
    simp only at h1 h2 h3 h4
    rw [h1, h2, h3, h4]
  by_cases hr : s < -MAX_ARCLENGTH ∨ s > MAX_ARCLENGTH
  · rw [call_out_of_range _ _ _ hr, call_out_of_range _ _ _ hr, call_out_of_range _ _ _ hr]
    constructor
    · rintro ⟨m', h⟩
      cases h
      exact ⟨c, rfl⟩
    · rintro ⟨c', h⟩
      cases h
      exact ⟨m, rfl⟩
  by_cases hfr : |s| ≤ m.dense.t_breaks.getD (m.dense.t_breaks.length - 1) 0
  · obtain ⟨r0, h0⟩ := call_cached_dense (E := E) m.dense s 0 _ hdom
      (by rw [rat_abs_arg]; exact hfr)
    rw [h0 fuel m rfl, h0 fuel c hcd, h0 (fuel + k) c hcd]
    constructor
    · rintro ⟨m', h⟩
      cases h
      exact ⟨c, rfl⟩
    · rintro ⟨c', h⟩
      cases h
      exact ⟨m, rfl⟩
  have hlt : m.dense.t_breaks.getD (m.dense.t_breaks.length - 1) 0 < |s| := not_le.mp hfr
  have hthrough := step_while_through hadv hinv0 htr |s| hlt
  have hbk : c.dense.t_breaks.getD (c.dense.t_breaks.length - 1) 0 < |s|
      ↔ m0.dense.t_breaks.getD (m0.dense.t_breaks.length - 1) 0 < |s| := by
    rw [hcd]
    refine ⟨fun _ => ?_, fun _ => hlt⟩
    have hz := increasing_getD_le _ hm.2.2.1 0 (m.dense.t_breaks.length - 1) (by omega)
      (by omega)
    rw [hfront] at hz
    have hpos : (0 : ℚ) < |s| := lt_of_le_of_lt hz hlt
    rw [hd0]
    exact hpos
  have hmirror := fun f => step_while_shadow m.dense |s| hl f m0 c hsh hinv0.1 hl0
    (by rw [hcd]; exact hl) hbk
  have hfinal : ∀ (f : ℕ) (o' c' : YoungLaplaceShape E), Shadow m.dense o' c' →
      step_while f m |s| = some (.ok (), o') → c'.dense.call |s| = o'.dense.call |s| := by
    intro f o' c' hs' hw
    have hext := step_while_shapeExt f m |s| _ _ hw
    have ho' : InvS o' := hext.inv hadv hm
    obtain ⟨-, hsp⟩ := step_while_spec f m |s| 0 hm.2.1.1 _ _ hw
    have hback : ¬ o'.dense.t_breaks.getD (o'.dense.t_breaks.length - 1) 0 < |s| := by
      rcases hsp with ⟨-, h⟩ | ⟨what, h⟩
      · exact h
      · cases h
    exact HermiteQuinticSplineND.call_behind ho'.1 hm.1 ho'.2.2.1 hext.pref hl hs'.t hs'.y hs'.v
      hs'.a |s| (by rw [rat_toReal]; exact hlt) (by rw [rat_toReal]; exact not_lt.mp hback)
  rw [call_eq_of_loop _ _ _ hr, call_eq_of_loop _ _ _ hr, call_eq_of_loop _ _ _ hr]
  constructor
  · rintro ⟨m', h⟩
    cases hw : step_while fuel m |s| with
    | none => rw [hw] at h; cases h
    | some p =>
      obtain ⟨r1, m1⟩ := p
      have h0 := hthrough (fuel + k)
      rw [if_neg (by omega), Nat.add_sub_cancel, hw] at h0
      obtain ⟨c1, hc1, hs1⟩ := (hmirror (fuel + k)).2 r1 m1 h0
      rw [hw] at h
      rw [hc1]
      cases r1 with
      | error e =>
        dsimp only at h ⊢
        cases h
        exact ⟨c1, rfl⟩
      | ok u =>
        dsimp only at h ⊢
        rw [hfinal fuel m1 c1 (hs1 rfl) hw]
        cases h
        exact ⟨c1, rfl⟩
  · rintro ⟨c', h⟩
    cases hw0 : step_while fuel m0 |s| with
    | none => rw [(hmirror fuel).1 hw0] at h; cases h
    | some p =>
      obtain ⟨r1, o1⟩ := p
      obtain ⟨c1, hc1, hs1⟩ := (hmirror fuel).2 r1 o1 hw0
      have h0 := hthrough fuel
      rw [hw0] at h0
      by_cases hk : fuel < k
      · rw [if_pos hk] at h0; cases h0
      · rw [if_neg hk] at h0
        have hw := step_while_mono (fuel - k) k m |s| _ h0.symm
        rw [show fuel - k + k = fuel by omega] at hw
        rw [hc1] at h
        rw [hw]
        cases r1 with
        | error e =>
          dsimp only at h ⊢
          cases h
          exact ⟨o1, rfl⟩
        | ok u =>
          dsimp only at h ⊢
          rw [hfinal fuel o1 c1 (hs1 rfl) hw] at h
          cases h
          exact ⟨o1, rfl⟩

end YoungLaplaceShape

namespace YoungLaplaceShape
variable {E : Externals}

/-- The state vector of a newly constructed model is the initial condition. -/
theorem new_nv (bond : ℚ) (m : YoungLaplaceShape E) (h : new E bond = .ok m) :
    m.nv = ![0, 0, 1, 0] := by
  unfold new at h
  simp only [bind, Except.bind, pure, Except.pure] at h
  repeat' split at h
  all_goals cases h
  rfl

/-- The copy constructor, applied to a model whose latch is clear, gives a model
that integrates again from `s = 0` in step with a newly constructed one. -/
theorem copy_shadow {bond : ℚ} {m0 m c : YoungLaplaceShape E} (hn : new E bond = .ok m0)
    (hb : m.bond = bond) (hl : m.max_z_solved = false) (hc : m.copy = .ok c) :
    Shadow m.dense m0 c := by
  obtain ⟨-, hd0, -, -, hl0⟩ := new_caches bond m0 hn
  unfold copy at hc
  simp only [bind, Except.bind, pure, Except.pure] at hc
  rw [hb, hn] at hc
  cases hc
  refine ⟨rfl, rfl, rfl, ?_, ?_, ?_, ?_, ?_⟩
  · show m.max_z_solved = m0.max_z_solved
    rw [hl, hl0]
  all_goals
    rw [hd0]
    simp [HermiteQuinticSplineND.push_back, HermiteQuinticSplineND.empty]

/-- The copy assignment from a model whose latch is clear gives a model that
integrates again from `s = 0` in step with a newly constructed one, if
re-initialising restores a new integrator. -/
theorem assign_shadow (hre : Restarting E) {bond : ℚ} {m0 m c self : YoungLaplaceShape E}
    (hn : new E bond = .ok m0) (hb : m.bond = bond) (hl : m.max_z_solved = false)
    (hc : self.operator_assign m = (.ok (), c)) : Shadow m.dense m0 c := by
  obtain ⟨hb0, hd0, -, -, hl0⟩ := new_caches bond m0 hn
  have hnv := new_nv bond m0 hn
  have hmem := hre bond m0 hn self.arkode_mem
  unfold operator_assign at hc
  simp only [hl, Bool.false_eq_true, if_false] at hc
  split_ifs at hc
  all_goals first | (cases hc; done) | skip
  cases hc
  refine ⟨?_, ?_, ?_, ?_, ?_, ?_, ?_, ?_⟩
  · show m.bond = m0.bond
    rw [hb, hb0]
  · exact hmem
  · exact hnv.symm
  · exact hl0.symm
  all_goals
    rw [hd0]
    simp [HermiteQuinticSplineND.push_back, HermiteQuinticSplineND.empty]

/-- More fuel does not change the outcome of a query that ended. -/
theorem call_mono {T : Type} [DiffValue T] (fuel n : ℕ) (m : YoungLaplaceShape E) (s : T)
    (x : Except Exn (Fin 2 → T) × YoungLaplaceShape E) (h : call fuel m s = some x) :
    call (fuel + n) m s = some x := by
  unfold call at h ⊢
  cases hcd : check_domain s with
  | error e => rw [hcd] at h; exact h
  | ok u =>
    rw [hcd] at h
    dsimp only at h ⊢
    generalize hw : step_while fuel m _ = w at h
    cases w with
    | none => cases h
    | some p =>
      rw [step_while_mono fuel n m _ p hw]
      exact h

end YoungLaplaceShape

theorem Example.cached_evaluated : Example.cached.Evaluated := by
  obtain ⟨r, h⟩ := Example.cached_reached
  cases r with
  | error e =>
    have ht : thrown (Example.fresh.call 10 (1 / 2 : ℚ)) = none := by decide!
    rw [h] at ht
    cases ht
  | ok v => exact .call 10 _ _ v _ (.new (21 / 100) _ rfl) h

theorem Example.stepper_restarting : YoungLaplaceShape.Restarting (Example.stepper 3) := by
  intro bond m0 h mem
  have hnew : YoungLaplaceShape.new (Example.stepper 3) bond
      = .ok { Example.fresh with bond := bond } := rfl
  rw [hnew] at h
  cases h
  rfl

theorem Example.bud_new : YoungLaplaceShape.new Example.swell (21 / 100) = .ok Example.bud := rfl

theorem Example.crested_reached :
    ∃ r, Example.bud.call 10 (2 / 5 : ℚ) = some (r, Example.crested) :=
  outcome_getD _ _ (by decide!)

theorem Example.crested_copy_ok : Example.crested.copy = .ok Example.crested_copy :=
  except_getD _ _ (by decide!)

theorem Example.stepper_assign_ok (self m : YoungLaplaceShape (Example.stepper 3)) :
    (self.operator_assign m).1 = .ok () := by
  unfold YoungLaplaceShape.operator_assign
  dsimp only
  split_ifs <;> first | rfl | (rename_i h; exact absurd rfl h)

/-! ## The claims -/

/-- C1: for a quintic spline built by `push_back` with strictly increasing
breakpoints, evaluation at any breakpoint `t[k]` with a differentiable query of
order at least 3 returns, in every component `j`, `derivative(0) = y[k][j]`,
`derivative(1) = v[k][j]` and `derivative(2) = a[k][j]`; the single breakpoint,
interior breakpoints and the last breakpoint are all covered by `k`. -/
theorem quintic_exact_at_breakpoints {N : ℕ} (s : HermiteQuinticSplineND N)
    (hb : s.Built) (hi : s.Increasing) (k : ℕ) (hk : k < s.t_breaks.length)
    (n : ℕ) (hn : 3 ≤ n) :
    ∃ f, s.call (FVar.make_fvar n (s.t_breaks.getD k 0)) = .ok f ∧
      ∀ j, (f j).derivative 0 = s.y_breaks.getD k 0 j
        ∧ (f j).derivative 1 = s.v_breaks.getD k 0 j
        ∧ (f j).derivative 2 = s.a_breaks.getD k 0 j := by
  obtain ⟨f, hf, hj⟩ := HermiteQuinticSplineND.call_breakpoint_jet hb hi k hk n (by omega)
  refine ⟨f, hf, fun j => ?_⟩
  obtain ⟨h0, h1, h2⟩ := hj j
  refine ⟨?_, ?_, ?_⟩
  · simp [FVar.derivative, h0]
  · simp [FVar.derivative, h1]
  · simp [FVar.derivative, h2, Nat.factorial]

/-- Witness for C1: the interior breakpoint `t[1] = 2` of the three-breakpoint
spline `Example.three`, queried at order 3. -/
theorem quintic_exact_at_breakpoints_witness :
    Example.three.Built ∧ Example.three.Increasing ∧ 1 < Example.three.t_breaks.length ∧
      ∃ f, Example.three.call (FVar.make_fvar 3 (Example.three.t_breaks.getD 1 0)) = .ok f ∧
        ∀ j, (f j).derivative 0 = Example.three.y_breaks.getD 1 0 j
          ∧ (f j).derivative 1 = Example.three.v_breaks.getD 1 0 j
          ∧ (f j).derivative 2 = Example.three.a_breaks.getD 1 0 j :=
  ⟨Example.three_built, Example.three_increasing, by decide,
    quintic_exact_at_breakpoints Example.three Example.three_built Example.three_increasing 1
      (by decide) 3 (by decide)⟩

/-- C2: for a quintic spline built by `push_back` with at least two strictly
increasing breakpoints and a plain query `t` in its domain, with `i` the selected
segment, `dt = t[i] - t[i-1] > 0` and `x = (t - t[i-1])/dt`, every component `j`
of `operator()(t)` is the sum of the six quintic Hermite basis polynomials of the
specification weighted by `y0, v0, a0, a1, v1, y1` of that component alone. -/
theorem quintic_call_eq_basis {N : ℕ} (s : HermiteQuinticSplineND N)
    (hb : s.Built) (hi : s.Increasing) (hlen : 2 ≤ s.t_breaks.length) (t : ℚ)
    (h0 : s.t_breaks.getD 0 0 ≤ t) (h1 : t ≤ s.t_breaks.getD (s.t_breaks.length - 1) 0) :
    ∃ i : ℕ, HermiteQuinticSplineND.segment s.t_breaks t = (i : ℤ) ∧ 1 ≤ i
      ∧ i < s.t_breaks.length ∧ 0 < s.t_breaks.getD i 0 - s.t_breaks.getD (i - 1) 0 ∧
      s.call t = .ok (fun j =>
        let dt := s.t_breaks.getD i 0 - s.t_breaks.getD (i - 1) 0
        let x := (t - s.t_breaks.getD (i - 1) 0) / dt
        let y0 := s.y_breaks.getD (i - 1) 0 j
        let y1 := s.y_breaks.getD i 0 j
        let v0 := s.v_breaks.getD (i - 1) 0 j
        let v1 := s.v_breaks.getD i 0 j
        let a0 := s.a_breaks.getD (i - 1) 0 j
        let a1 := s.a_breaks.getD i 0 j
        (1 - 10*x^3 + 15*x^4 - 6*x^5)*y0 + (x - 6*x^3 + 8*x^4 - 3*x^5)*dt*v0
          + (x^2/2 - 3/2*x^3 + 3/2*x^4 - 1/2*x^5)*dt^2*a0
          + (1/2*x^3 - x^4 + 1/2*x^5)*dt^2*a1
          + (-4*x^3 + 7*x^4 - 3*x^5)*dt*v1 + (10*x^3 - 15*x^4 + 6*x^5)*y1) := by
  obtain ⟨i, hseg, hi1⟩ := HermiteQuinticSplineND.segment_range s.t_breaks t hlen h0 h1
  have hcd : s.check_domain (DiffValue.toReal t) = .ok () :=
    HermiteQuinticSplineND.check_domain_ok s t (by omega) h0 h1
  refine ⟨i + 1, by simpa using hseg, by omega, hi1, ?_, ?_⟩
  · exact sub_pos.mpr (increasing_getD_lt _ hi i (i + 1) (by omega) hi1)
  · rw [HermiteQuinticSplineND.call_eq_interpolate s t hcd (by omega), rat_toReal, hseg,
      HermiteQuinticSplineND.interpolate_ok hb i hi1]
    simp only [HermiteQuinticSplineND.horner_eq_basis, rat_sub, rat_hdiv, rat_ofReal,
      Nat.add_sub_cancel]

/-- Witness for C2: the two-breakpoint spline of `test_hermite_quintic_spline_call`
queried at `0.5`; its value is within relative tolerance `1e-6` of `0.479415`. -/
theorem quintic_call_eq_basis_witness :
    (∃ i : ℕ, HermiteQuinticSplineND.segment Example.sine.t_breaks (1/2) = (i : ℤ) ∧ 1 ≤ i
      ∧ i < Example.sine.t_breaks.length
      ∧ 0 < Example.sine.t_breaks.getD i 0 - Example.sine.t_breaks.getD (i - 1) 0 ∧
      Example.sine.call (1/2 : ℚ) = .ok (fun j =>
        let dt := Example.sine.t_breaks.getD i 0 - Example.sine.t_breaks.getD (i - 1) 0
        let x := ((1/2 : ℚ) - Example.sine.t_breaks.getD (i - 1) 0) / dt
        let y0 := Example.sine.y_breaks.getD (i - 1) 0 j
        let y1 := Example.sine.y_breaks.getD i 0 j
        let v0 := Example.sine.v_breaks.getD (i - 1) 0 j
        let v1 := Example.sine.v_breaks.getD i 0 j
        let a0 := Example.sine.a_breaks.getD (i - 1) 0 j
        let a1 := Example.sine.a_breaks.getD i 0 j
        (1 - 10*x^3 + 15*x^4 - 6*x^5)*y0 + (x - 6*x^3 + 8*x^4 - 3*x^5)*dt*v0
          + (x^2/2 - 3/2*x^3 + 3/2*x^4 - 1/2*x^5)*dt^2*a0
          + (1/2*x^3 - x^4 + 1/2*x^5)*dt^2*a1
          + (-4*x^3 + 7*x^4 - 3*x^5)*dt*v1 + (10*x^3 - 15*x^4 + 6*x^5)*y1))
    ∧ ∃ f, Example.sine.call (1/2 : ℚ) = .ok f
        ∧ |f 0 - 479415/1000000| ≤ 1/1000000 * |f 0|
        ∧ |f 0 - 479415/1000000| ≤ 1/1000000 * |(479415/1000000 : ℚ)| := by
  have hw := quintic_call_eq_basis Example.sine Example.sine_built Example.sine_increasing
    (by decide) (1/2)
    (by norm_num [Example.sine, HermiteQuinticSplineND.push_back, HermiteQuinticSplineND.empty])
    (by norm_num [Example.sine, HermiteQuinticSplineND.push_back, HermiteQuinticSplineND.empty])
  refine ⟨hw, ?_⟩
  obtain ⟨i, hseg, -, -, -, hcall⟩ := hw
  have hi : i = 1 := by
    have : HermiteQuinticSplineND.segment Example.sine.t_breaks (1/2) = 1 := by
      norm_num [HermiteQuinticSplineND.segment, Example.sine, HermiteQuinticSplineND.push_back,
        HermiteQuinticSplineND.empty, upper_bound, upper_bound_loop]
    rw [this] at hseg
    exact_mod_cast hseg.symm
  subst hi
  refine ⟨_, hcall, ?_, ?_⟩
  · norm_num [Example.sine, HermiteQuinticSplineND.push_back, HermiteQuinticSplineND.empty]
    rw [abs_of_pos (by norm_num), abs_of_pos (by norm_num)]
    norm_num
  · norm_num [Example.sine, HermiteQuinticSplineND.push_back, HermiteQuinticSplineND.empty]
    rw [abs_of_pos (by norm_num), abs_of_pos (by norm_num)]
    norm_num

/-- C3: the quintic interpolant is C2 across breakpoints.  For a quintic spline
built by `push_back` with strictly increasing breakpoints and an interior
breakpoint `k` (so there are at least three breakpoints), the polynomial of the
segment `[t[k-1], t[k]]` and the polynomial of the segment `[t[k], t[k+1]]`
agree at `t[k]` in value, first derivative and second derivative with respect to
`t`, both giving `y[k]`, `v[k]`, `a[k]` in every component.  This is stated twice:
for a differentiable query of order at least 2 at `t[k]`, and for plain queries
`t[k] + h`, where both polynomials are `y[k] + v[k] h + a[k]/2 h^2` up to a
remainder `h^3 (c0 + c1 h + c2 h^2)`. -/
theorem quintic_segments_agree_at_breakpoint {N : ℕ} (s : HermiteQuinticSplineND N)
    (hb : s.Built) (hi : s.Increasing) (k : ℕ) (hk0 : 1 ≤ k) (hk1 : k + 1 < s.t_breaks.length)
    (n : ℕ) (hn : 2 ≤ n) :
    (∃ f g, s.interpolate (k : ℤ) (FVar.make_fvar n (s.t_breaks.getD k 0)) = .ok f
      ∧ s.interpolate ((k : ℤ) + 1) (FVar.make_fvar n (s.t_breaks.getD k 0)) = .ok g
      ∧ ∀ j,
        ((f j).derivative 0 = s.y_breaks.getD k 0 j ∧ (g j).derivative 0 = s.y_breaks.getD k 0 j)
        ∧ ((f j).derivative 1 = s.v_breaks.getD k 0 j
            ∧ (g j).derivative 1 = s.v_breaks.getD k 0 j)
        ∧ ((f j).derivative 2 = s.a_breaks.getD k 0 j
            ∧ (g j).derivative 2 = s.a_breaks.getD k 0 j))
    ∧ ∃ l0 l1 l2 r0 r1 r2 : Fin N → ℚ, ∀ h : ℚ,
        s.interpolate (k : ℤ) (s.t_breaks.getD k 0 + h) = .ok (fun j =>
          s.y_breaks.getD k 0 j + s.v_breaks.getD k 0 j * h + s.a_breaks.getD k 0 j / 2 * h ^ 2
            + h ^ 3 * (l0 j + l1 j * h + l2 j * h ^ 2))
        ∧ s.interpolate ((k : ℤ) + 1) (s.t_breaks.getD k 0 + h) = .ok (fun j =>
          s.y_breaks.getD k 0 j + s.v_breaks.getD k 0 j * h + s.a_breaks.getD k 0 j / 2 * h ^ 2
            + h ^ 3 * (r0 j + r1 j * h + r2 j * h ^ 2)) := by
  obtain ⟨i, rfl⟩ : ∃ i, k = i + 1 := ⟨k - 1, by omega⟩
  obtain ⟨f, hf, hfj⟩ := HermiteQuinticSplineND.interpolate_jet_right hb hi i (by omega) n hn
  obtain ⟨g, hg, hgj⟩ := HermiteQuinticSplineND.interpolate_jet_left hb hi (i + 1) hk1 n hn
  obtain ⟨l0, l1, l2, hl⟩ := HermiteQuinticSplineND.interpolate_taylor_right hb hi i (by omega)
  obtain ⟨r0, r1, r2, hr⟩ := HermiteQuinticSplineND.interpolate_taylor_left hb hi (i + 1) hk1
  refine ⟨⟨f, g, by simpa using hf, by simpa using hg, fun j => ?_⟩,
    l0, l1, l2, r0, r1, r2, fun h => ⟨by simpa using hl h, by simpa using hr h⟩⟩
  obtain ⟨f0, f1, f2⟩ := hfj j
  obtain ⟨g0, g1, g2⟩ := hgj j
  simp [FVar.derivative, f0, f1, f2, g0, g1, g2, Nat.factorial]

/-- Witness for C3: the interior breakpoint `t[1] = 2` of `Example.three`, at order 2. -/
theorem quintic_segments_agree_at_breakpoint_witness :
    Example.three.Built ∧ Example.three.Increasing ∧ 1 + 1 < Example.three.t_breaks.length ∧
    ((∃ f g, Example.three.interpolate ((1 : ℕ) : ℤ)
        (FVar.make_fvar 2 (Example.three.t_breaks.getD 1 0)) = .ok f
      ∧ Example.three.interpolate (((1 : ℕ) : ℤ) + 1)
        (FVar.make_fvar 2 (Example.three.t_breaks.getD 1 0)) = .ok g
      ∧ ∀ j,
        ((f j).derivative 0 = Example.three.y_breaks.getD 1 0 j
          ∧ (g j).derivative 0 = Example.three.y_breaks.getD 1 0 j)
        ∧ ((f j).derivative 1 = Example.three.v_breaks.getD 1 0 j
            ∧ (g j).derivative 1 = Example.three.v_breaks.getD 1 0 j)
        ∧ ((f j).derivative 2 = Example.three.a_breaks.getD 1 0 j
            ∧ (g j).derivative 2 = Example.three.a_breaks.getD 1 0 j))
    ∧ ∃ l0 l1 l2 r0 r1 r2 : Fin 1 → ℚ, ∀ h : ℚ,
        Example.three.interpolate ((1 : ℕ) : ℤ) (Example.three.t_breaks.getD 1 0 + h)
          = .ok (fun j =>
            Example.three.y_breaks.getD 1 0 j + Example.three.v_breaks.getD 1 0 j * h
              + Example.three.a_breaks.getD 1 0 j / 2 * h ^ 2
              + h ^ 3 * (l0 j + l1 j * h + l2 j * h ^ 2))
        ∧ Example.three.interpolate (((1 : ℕ) : ℤ) + 1) (Example.three.t_breaks.getD 1 0 + h)
          = .ok (fun j =>
            Example.three.y_breaks.getD 1 0 j + Example.three.v_breaks.getD 1 0 j * h
              + Example.three.a_breaks.getD 1 0 j / 2 * h ^ 2
              + h ^ 3 * (r0 j + r1 j * h + r2 j * h ^ 2))) :=
  ⟨Example.three_built, Example.three_increasing, by decide,
    quintic_segments_agree_at_breakpoint Example.three Example.three_built
      Example.three_increasing 1 (by decide) (by decide) 2 (by decide)⟩

/-- C5: for a linear spline built by `push_back` with at least two strictly
increasing breakpoints: evaluation at every breakpoint `t[k]` returns `y[k]`
(the last breakpoint selects the final segment); for every in-domain `t`, with `i` the
selected segment, the result is
`y[i-1] + (y[i] - y[i-1])/(t[i] - t[i-1]) * (t - t[i-1])`; and a differentiable
query of order at least 2 reports that value, first derivative equal to the
segment slope and second derivative 0. -/
theorem linear_exact_and_linear (s : LinearSpline1D) (hb : s.Built) (hi : s.Increasing)
    (hlen : 2 ≤ s.t_breaks.length) :
    (∀ k, k < s.t_breaks.length → s.call (s.t_breaks.getD k 0) = .ok (s.y_breaks.getD k 0)) ∧
    LinearSpline1D.segment s.t_breaks (s.t_breaks.getD (s.t_breaks.length - 1) 0)
      = (s.t_breaks.length : ℤ) - 1 ∧
    ∀ t : ℚ, s.t_breaks.getD 0 0 ≤ t → t ≤ s.t_breaks.getD (s.t_breaks.length - 1) 0 →
      ∃ i : ℕ, LinearSpline1D.segment s.t_breaks t = (i : ℤ) ∧ 1 ≤ i ∧ i < s.t_breaks.length ∧
        s.call t = .ok (s.y_breaks.getD (i - 1) 0
          + (s.y_breaks.getD i 0 - s.y_breaks.getD (i - 1) 0)
              / (s.t_breaks.getD i 0 - s.t_breaks.getD (i - 1) 0)
            * (t - s.t_breaks.getD (i - 1) 0)) ∧
        ∀ n, 2 ≤ n → ∃ f, s.call (FVar.make_fvar n t) = .ok f ∧
          f.derivative 0 = s.y_breaks.getD (i - 1) 0
            + (s.y_breaks.getD i 0 - s.y_breaks.getD (i - 1) 0)
                / (s.t_breaks.getD i 0 - s.t_breaks.getD (i - 1) 0)
              * (t - s.t_breaks.getD (i - 1) 0) ∧
          f.derivative 1 = (s.y_breaks.getD i 0 - s.y_breaks.getD (i - 1) 0)
                / (s.t_breaks.getD i 0 - s.t_breaks.getD (i - 1) 0) ∧
          f.derivative 2 = 0 := by
  refine ⟨?_, ?_, ?_⟩
  · intro k hk
    have h0 := increasing_getD_le _ hi 0 k (by omega) hk
    have h1 := increasing_getD_le _ hi k (s.t_breaks.length - 1) (by omega) (by omega)
    obtain ⟨i, hseg, hi1, hcall, -⟩ := LinearSpline1D.linear_call_in_domain hb hlen _ h0 h1
    rw [hcall]
    rw [LinearSpline1D.linear_segment_eq, HermiteQuinticSplineND.segment_breakpoint _ hi k hk]
      at hseg
    have hdt : s.t_breaks.getD (i + 1) 0 - s.t_breaks.getD i 0 ≠ 0 :=
      ne_of_gt (sub_pos.mpr (increasing_getD_lt _ hi i (i + 1) (by omega) hi1))
    by_cases hkl : k + 1 = s.t_breaks.length
    · rw [if_pos hkl] at hseg
      have hk' : k = i + 1 := by omega
      subst hk'
      rw [div_mul_cancel₀ _ hdt]
      congr 1
      ring
    · rw [if_neg hkl] at hseg
      have hk' : k = i := by omega
      subst hk'
      simp
  · rw [LinearSpline1D.linear_segment_eq,
      HermiteQuinticSplineND.segment_breakpoint _ hi (s.t_breaks.length - 1) (by omega),
      if_pos (by omega)]
    omega
  · intro t h0 h1
    obtain ⟨i, hseg, hi1, hcall, hd⟩ := LinearSpline1D.linear_call_in_domain hb hlen t h0 h1
    refine ⟨i + 1, by simpa using hseg, by omega, hi1, by simpa using hcall, fun n hn => ?_⟩
    obtain ⟨f, hf, f0, f1, f2⟩ := hd n (by omega)
    refine ⟨f, hf, ?_, ?_, ?_⟩
    · simp [FVar.derivative, f0]
    · simp [FVar.derivative, f1]
    · simp [FVar.derivative, f2]

/-- Witness for C5: the spline of `test_linear_spline_1d_call` with breakpoints
`(0,0)` and `(1,1)`; at `t = 0.5` the value is `0.5`, the derivative `1` and the
second derivative `0`. -/
theorem linear_exact_and_linear_witness :
    Example.line.call (1/2 : ℚ) = .ok (1/2)
    ∧ (∃ f, Example.line.call (FVar.make_fvar 2 (1/2)) = .ok f ∧ f.derivative 0 = 1/2
        ∧ f.derivative 1 = 1 ∧ f.derivative 2 = 0)
    ∧ Example.line.call (Example.line.t_breaks.getD 1 0) = .ok (Example.line.y_breaks.getD 1 0) := by
  have hw := linear_exact_and_linear Example.line Example.line_built Example.line_increasing
    (by decide)
  have e : Example.line.t_breaks = [0, 1] ∧ Example.line.y_breaks = [0, 1] := by
    simp [Example.line, LinearSpline1D.push_back, LinearSpline1D.empty]
  obtain ⟨i, hseg, -, -, hcall, hd⟩ := hw.2.2 (1/2) (by norm_num [e.1]) (by norm_num [e.1])
  have hi : i = 1 := by
    have : LinearSpline1D.segment Example.line.t_breaks (1/2) = 1 := by
      norm_num [LinearSpline1D.segment, e.1, upper_bound, upper_bound_loop]
    rw [this] at hseg
    exact_mod_cast hseg.symm
  subst hi
  obtain ⟨f, hf, f0, f1, f2⟩ := hd 2 (by decide)
  refine ⟨?_, ⟨f, hf, ?_, ?_, f2⟩, hw.1 1 (by decide)⟩
  · rw [hcall]; norm_num [e.1, e.2]
  · rw [f0]; norm_num [e.1, e.2]
  · rw [f1]; norm_num [e.1, e.2]

/-- C6: a linear spline holding exactly one breakpoint `(t0, y0)`, evaluated at
`t0` with a differentiable query of any order, returns a value (no error) whose
order-zero part is `y0` and whose derivative of every order at least 1 is `0`. -/
theorem linear_single_breakpoint_derivative_zero (t0 y0 : ℚ) (n : ℕ) :
    ∃ f, (LinearSpline1D.empty.push_back t0 y0).call (FVar.make_fvar n t0) = .ok f
      ∧ f.derivative 0 = y0 ∧ ∀ d, 1 ≤ d → f.derivative d = 0 := by
  have hb : (LinearSpline1D.empty.push_back t0 y0).Built := .push_back _ _ _ .empty
  have e : (LinearSpline1D.empty.push_back t0 y0).t_breaks = [t0]
      ∧ (LinearSpline1D.empty.push_back t0 y0).y_breaks = [y0] := by
    simp [LinearSpline1D.push_back, LinearSpline1D.empty]
  have hcd : (LinearSpline1D.empty.push_back t0 y0).check_domain
      (DiffValue.toReal (FVar.make_fvar n t0)) = .ok () := by
    apply LinearSpline1D.linear_check_domain_ok <;> simp [e.1]
  rw [LinearSpline1D.linear_call_single hb _ hcd (by simp [e.1]), e.2]
  refine ⟨_, rfl, ?_, fun d hd => ?_⟩
  · simp [FVar.derivative, FVar.ofNat_eq_ofReal, FVar.mul_ofReal_c, FVar.ofReal_c_zero]
  · have hd0 : d ≠ 0 := by omega
    simp [FVar.derivative, FVar.ofNat_eq_ofReal, FVar.mul_ofReal_c, FVar.ofReal_c, hd0]

/-- C8 (as amended): shape evaluation and sensitivity evaluation both fail with
a domain error whenever `s < -MAX_ARCLENGTH` or `s > MAX_ARCLENGTH`, with
`MAX_ARCLENGTH = 100`; this check comes before any integration step, so the model
state returned with the error is the state before the call.  The check passes
exactly for `-MAX_ARCLENGTH ≤ s ≤ MAX_ARCLENGTH`, in particular at
`s = ±MAX_ARCLENGTH`, and in that case shape evaluation on a model whose shape
cache starts at `s = 0` never ends with a domain error. -/
theorem arclength_domain_check {E : Externals} (m : YoungLaplaceShape E) (s : ℚ) (fuel : ℕ) :
    ((s < -YoungLaplaceShape.MAX_ARCLENGTH ∨ s > YoungLaplaceShape.MAX_ARCLENGTH) →
      m.call fuel s = some (.error .domain_error, m)
        ∧ m.DBo fuel s = some (.error .domain_error, m))
    ∧ (YoungLaplaceShape.check_domain s = .ok () ↔
        ¬ (s < -YoungLaplaceShape.MAX_ARCLENGTH ∨ s > YoungLaplaceShape.MAX_ARCLENGTH))
    ∧ (m.dense.t_breaks.head? = some 0 →
        ¬ (s < -YoungLaplaceShape.MAX_ARCLENGTH ∨ s > YoungLaplaceShape.MAX_ARCLENGTH) →
        thrown (m.call fuel s) ≠ some .domain_error)
    ∧ YoungLaplaceShape.MAX_ARCLENGTH = 100
    ∧ YoungLaplaceShape.check_domain YoungLaplaceShape.MAX_ARCLENGTH = .ok ()
    ∧ YoungLaplaceShape.check_domain (-YoungLaplaceShape.MAX_ARCLENGTH) = .ok () := by
  refine ⟨fun h => ⟨YoungLaplaceShape.call_out_of_range fuel m s h,
      YoungLaplaceShape.DBo_out_of_range fuel m s h⟩,
    YoungLaplaceShape.check_domain_iff s,
    YoungLaplaceShape.call_in_range_not_domain_error fuel m s, rfl, ?_, ?_⟩
  · rw [YoungLaplaceShape.check_domain_iff]
    norm_num [YoungLaplaceShape.MAX_ARCLENGTH]
  · rw [YoungLaplaceShape.check_domain_iff]
    norm_num [YoungLaplaceShape.MAX_ARCLENGTH]

/-- Counterexample to C8 as stated: on the freshly constructed model
`YoungLaplaceShape(0.21)`, over an integrator whose first step ends at `0.1` and
whose later steps triple the arclength, `DBo(100)` ends with a domain error
although `100` is within `[-MAX_ARCLENGTH, MAX_ARCLENGTH]`, while `DBo(72)`
returns: the sensitivity step that leaves arclength `72.9` evaluates its
right-hand side at arclength `218.7`, which samples the shape there. -/
theorem DBo_domain_error_in_range :
    YoungLaplaceShape.new (Example.stepper 3) (21 / 100) = .ok Example.fresh
    ∧ thrown (Example.fresh.DBo 10 (100 : ℚ)) = some .domain_error
    ∧ ¬ ((100 : ℚ) < -YoungLaplaceShape.MAX_ARCLENGTH
          ∨ (100 : ℚ) > YoungLaplaceShape.MAX_ARCLENGTH)
    ∧ (Example.fresh.DBo 10 (72 : ℚ)).isSome = true
    ∧ thrown (Example.fresh.DBo 10 (72 : ℚ)) = none :=
  ⟨rfl, by decide!, by norm_num [YoungLaplaceShape.MAX_ARCLENGTH], by decide!, by decide!⟩

/-- Witness for C8: the model `Example.drop` queried at `s = 101`. -/
theorem arclength_domain_check_witness :
    Example.drop.call 0 (101 : ℚ) = some (.error .domain_error, Example.drop)
    ∧ Example.drop.DBo 0 (101 : ℚ) = some (.error .domain_error, Example.drop)
    ∧ thrown (Example.drop.call 0 (100 : ℚ)) ≠ some .domain_error :=
  ⟨((arclength_domain_check Example.drop 101 0).1
      (by norm_num [YoungLaplaceShape.MAX_ARCLENGTH])).1,
    ((arclength_domain_check Example.drop 101 0).1
      (by norm_num [YoungLaplaceShape.MAX_ARCLENGTH])).2,
    (arclength_domain_check Example.drop 100 0).2.2.1 rfl
      (by norm_num [YoungLaplaceShape.MAX_ARCLENGTH])⟩

/-- C9: shape symmetry.  For a model whose shape cache is built by `push_back`
and has domain `[0, frontier]`, and every `s` with `0 < s ≤ frontier` and
`s ≤ MAX_ARCLENGTH`, `shape(s)` returns some `(r, z)` and `shape(-s)` returns
`(-r, z)`; neither call changes the model. -/
theorem shape_symmetry {E : Externals} (m : YoungLaplaceShape E) (fuel : ℕ) (s frontier : ℚ)
    (hb : m.dense.Built) (hd : m.dense.domain = .ok (0, frontier))
    (hs : 0 < s) (hsf : s ≤ frontier) (hmax : s ≤ YoungLaplaceShape.MAX_ARCLENGTH) :
    ∃ ans, m.call fuel s = some (.ok ans, m)
      ∧ m.call fuel (-s) = some (.ok ![-(ans 0), ans 1], m) := by
  obtain ⟨ans, hans⟩ := YoungLaplaceShape.cache_call_ok hb 0 frontier s hd (le_of_lt hs) hsf
  have hM : (0 : ℚ) < YoungLaplaceShape.MAX_ARCLENGTH := by
    norm_num [YoungLaplaceShape.MAX_ARCLENGTH]
  have hnoop : YoungLaplaceShape.step_while fuel m (min s YoungLaplaceShape.MAX_ARCLENGTH)
      = some (.ok (), m) :=
    YoungLaplaceShape.step_while_noop fuel m _ 0 frontier hd
      (not_lt.mpr (le_trans (min_le_left _ _) hsf))
  refine ⟨ans, ?_, ?_⟩
  · unfold YoungLaplaceShape.call
    rw [(YoungLaplaceShape.check_domain_iff s).mpr
      (by rw [not_or, not_lt, not_lt]; exact ⟨by linarith, hmax⟩)]
    simp only [rat_toReal, ge_iff_le, le_of_lt hs, if_true, hnoop, hans, not_lt.mpr (le_of_lt hs),
      if_false]
  · unfold YoungLaplaceShape.call
    rw [(YoungLaplaceShape.check_domain_iff (-s)).mpr
      (by rw [not_or, not_lt, not_lt]; exact ⟨by linarith, by linarith⟩)]
    have h1 : ¬ (-s ≥ 0) := by rw [ge_iff_le, not_le]; linarith
    have h2 : -s < 0 := by linarith
    simp only [rat_toReal, h1, if_false, rat_neg, neg_neg, hnoop, hans, h2, if_true,
      rat_mul, rat_ofNat, YoungLaplaceShape.update_neg]

/-- Witness for C9: the model `Example.drop`, whose shape cache reaches
arclength `3/10`, queried at `s = 1/5`. -/
theorem shape_symmetry_witness :
    ∃ ans, Example.drop.call 0 (1/5 : ℚ) = some (.ok ans, Example.drop)
      ∧ Example.drop.call 0 (-(1/5) : ℚ) = some (.ok ![-(ans 0), ans 1], Example.drop) :=
  shape_symmetry Example.drop 0 (1/5) (3/10) Example.drop_dense_built rfl (by norm_num)
    (by norm_num) (by norm_num [YoungLaplaceShape.MAX_ARCLENGTH])

/-- C10: sensitivity symmetry.  For a model whose sensitivity cache is built by
`push_back` and has domain `[0, frontier]`, and every `s` with
`0 < s ≤ frontier`: whenever `DBo(s)` returns `(dr/dBo, dz/dBo)`, `DBo(-s)`
returns `(-dr/dBo, dz/dBo)`, only the `r`-sensitivity being negated; and if
moreover `s ≤ MAX_ARCLENGTH`, `DBo(s)` does return, without running a step and
without changing the model. -/
theorem DBo_symmetry {E : Externals} (m : YoungLaplaceShape E) (fuel : ℕ) (s frontier : ℚ)
    (hb : m.dense_DBo.Built) (hd : m.dense_DBo.domain = .ok (0, frontier))
    (hs : 0 < s) (hsf : s ≤ frontier) :
    (∀ ans m', m.DBo fuel s = some (.ok ans, m') →
      m.DBo fuel (-s) = some (.ok ![-(ans 0), ans 1], m'))
    ∧ (s ≤ YoungLaplaceShape.MAX_ARCLENGTH →
      ∃ ans, m.DBo fuel s = some (.ok ans, m)
        ∧ m.DBo fuel (-s) = some (.ok ![-(ans 0), ans 1], m)) := by
  have key : s ≤ YoungLaplaceShape.MAX_ARCLENGTH →
      ∃ ans, m.DBo fuel s = some (.ok ans, m)
        ∧ m.DBo fuel (-s) = some (.ok ![-(ans 0), ans 1], m) := by
    intro hmax
    obtain ⟨ans, hans⟩ := YoungLaplaceShape.cache_call_ok hb 0 frontier s hd (le_of_lt hs) hsf
    have hnoop : YoungLaplaceShape.step_DBo_while fuel fuel m
        (min s YoungLaplaceShape.MAX_ARCLENGTH) = some (.ok (), m) :=
      YoungLaplaceShape.step_DBo_while_noop fuel fuel m _ 0 frontier hd
        (not_lt.mpr (le_trans (min_le_left _ _) hsf))
    refine ⟨ans, ?_, ?_⟩
    · unfold YoungLaplaceShape.DBo
      rw [(YoungLaplaceShape.check_domain_iff s).mpr
        (by rw [not_or, not_lt, not_lt]; exact ⟨by linarith, hmax⟩)]
      simp only [rat_toReal, rat_abs, abs_of_pos hs, hnoop, hans, not_lt.mpr (le_of_lt hs),
        if_false]
    · unfold YoungLaplaceShape.DBo
      rw [(YoungLaplaceShape.check_domain_iff (-s)).mpr
        (by rw [not_or, not_lt, not_lt]; exact ⟨by linarith, by linarith⟩)]
      have h2 : -s < 0 := by linarith
      simp only [rat_toReal, rat_abs, abs_neg, abs_of_pos hs, hnoop, hans, h2, if_true,
        rat_mul, rat_neg, rat_ofNat, YoungLaplaceShape.update_neg]
  refine ⟨fun ans m' h => ?_, key⟩
  by_cases hmax : s ≤ YoungLaplaceShape.MAX_ARCLENGTH
  · obtain ⟨ans0, h1, h2⟩ := key hmax
    rw [h1] at h
    simp only [Option.some.injEq, Prod.mk.injEq, Except.ok.injEq] at h
    obtain ⟨rfl, rfl⟩ := h
    exact h2
  · rw [YoungLaplaceShape.DBo_out_of_range fuel m s (Or.inr (not_le.mp hmax))] at h
    simp at h

/-- Witness for C10: the model `Example.drop`, whose sensitivity cache reaches
arclength `3/10`, queried at `s = 1/5`. -/
theorem DBo_symmetry_witness :
    ∃ ans, Example.drop.DBo 0 (1/5 : ℚ) = some (.ok ans, Example.drop)
      ∧ Example.drop.DBo 0 (-(1/5) : ℚ) = some (.ok ![-(ans 0), ans 1], Example.drop) :=
  (DBo_symmetry Example.drop 0 (1/5) (3/10) Example.drop_dense_DBo_built rfl (by norm_num)
    (by norm_num)).2 (by norm_num [YoungLaplaceShape.MAX_ARCLENGTH])

/-- C11: idempotence of cached evaluation.  For every model state whose shape
cache has a frontier and every `s` with `|s| ≤ frontier`, plain or
differentiable, `shape(s)` ends with one and the same result `r` for every
amount of fuel, zero included, so it calls `step()` zero times; the model state
after the call is the state before it, whole; hence a second call returns the
same result again.  (For `|s| > MAX_ARCLENGTH` that result is the domain error of
C8.) -/
theorem cached_evaluation_idempotent {E : Externals} (m : YoungLaplaceShape E) (a frontier : ℚ)
    (hd : m.dense.domain = .ok (a, frontier)) :
    (∀ s : ℚ, |s| ≤ frontier → ∃ r, ∀ fuel, m.call fuel s = some (r, m))
    ∧ (∀ (n : ℕ) (s : FVar n), |s.c 0| ≤ frontier → ∃ r, ∀ fuel, m.call fuel s = some (r, m))
    ∧ (∀ (s : ℚ) (fuel : ℕ) (r : Except Exn (Fin 2 → ℚ)) (m' : YoungLaplaceShape E),
        |s| ≤ frontier → m.call fuel s = some (r, m') →
          m' = m ∧ ∀ fuel', m'.call fuel' s = some (r, m')) := by
  have h1 : ∀ s : ℚ, |s| ≤ frontier → ∃ r, ∀ fuel, m.call fuel s = some (r, m) := fun s hs =>
    YoungLaplaceShape.call_cached m s a frontier hd (by rw [YoungLaplaceShape.rat_abs_arg]; exact hs)
  refine ⟨h1, fun n s hs => YoungLaplaceShape.call_cached m s a frontier hd
    (by rw [YoungLaplaceShape.fvar_abs_arg]; exact hs), fun s fuel r m' hs hc => ?_⟩
  obtain ⟨r0, h0⟩ := h1 s hs
  rw [h0 fuel] at hc
  simp only [Option.some.injEq, Prod.mk.injEq] at hc
  obtain ⟨rfl, rfl⟩ := hc
  exact ⟨rfl, h0⟩

/-- Witness for C11: the model `Example.drop`, whose shape cache reaches
arclength `3/10`, queried at `s = -1/5`. -/
theorem cached_evaluation_idempotent_witness :
    ∃ r, ∀ fuel, Example.drop.call fuel (-(1/5) : ℚ) = some (r, Example.drop) :=
  (cached_evaluation_idempotent Example.drop 0 (3/10) rfl).1 (-(1/5))
    (by rw [abs_neg, abs_of_pos] <;> norm_num)

/-- C15: when the stepping loop of `z_inv(z)` completes, leaving the model in
state `m'`, the lookup of `m'` has bounds `front` and `back`, and `z_inv(z)` fails
with a domain error iff `z < front`, or the max-height event is latched in `m'`
and `z > back`; if the event is not latched in `m'` then `z > back` is
impossible.  The state after the call is `m'`. -/
theorem z_inv_domain_error {E : Externals} {T : Type} [DiffValue T] (m m' : YoungLaplaceShape E)
    (fuel : ℕ) (z : T)
    (hloop : YoungLaplaceShape.z_inv_while fuel m (DiffValue.toReal z) = some (.ok (), m')) :
    ∃ front back, m'.dense_z_inv.domain = .ok (front, back)
      ∧ (thrown (m.z_inv fuel z) = some .domain_error ↔
          (DiffValue.toReal z < front ∨ (m'.max_z_solved = true ∧ DiffValue.toReal z > back)))
      ∧ (m'.max_z_solved = false → ¬ DiffValue.toReal z > back)
      ∧ state_after (m.z_inv fuel z) = some m' := by
  obtain ⟨front, back, hd, hc⟩ := YoungLaplaceShape.z_inv_while_spec fuel m m' _ hloop
  have hup : m'.max_z_solved = false → ¬ DiffValue.toReal z > back := fun hl hgt =>
    hc ⟨hgt, hl⟩
  refine ⟨front, back, hd, ?_, hup, ?_⟩
  · unfold YoungLaplaceShape.z_inv
    rw [hloop]
    dsimp only
    rw [hd]
    dsimp only
    by_cases h : DiffValue.toReal z < front ∨ DiffValue.toReal z > back
    · rw [if_pos h]
      refine ⟨fun _ => ?_, fun _ => rfl⟩
      rcases h with h | h
      · exact Or.inl h
      · refine Or.inr ⟨?_, h⟩
        cases hl : m'.max_z_solved with
        | true => rfl
        | false => exact absurd h (hup hl)
    · rw [if_neg h]
      have hcd : m'.dense_z_inv.check_domain (DiffValue.toReal z) = .ok () := by
        rw [LinearSpline1D.linear_check_domain_of_domain _ _ front back hd, if_neg h]
      constructor
      · intro ht
        cases hcall : m'.dense_z_inv.call z with
        | error e =>
          have he := LinearSpline1D.linear_call_error_of_check_domain_ok _ _ hcd e hcall
          rw [hcall] at ht
          subst he
          simp [thrown] at ht
        | ok ans =>
          rw [hcall] at ht
          simp [thrown] at ht
      · intro hz
        exact absurd (hz.imp id And.right) h
  · unfold YoungLaplaceShape.z_inv
    rw [hloop]
    dsimp only
    rw [hd]
    dsimp only
    split_ifs
    · rfl
    · cases m'.dense_z_inv.call z <;> rfl

/-- Witness for C15: on the freshly constructed model `Example.fresh`,
`z_inv(-1)` fails with a domain error, without a step. -/
theorem z_inv_domain_error_witness :
    thrown (Example.fresh.z_inv 0 (-1 : ℚ)) = some .domain_error := by
  obtain ⟨front, back, hd, hiff, -, -⟩ := z_inv_domain_error Example.fresh Example.fresh 0 (-1 : ℚ)
    (YoungLaplaceShape.z_inv_while_noop 0 Example.fresh _ 0 0 rfl (by norm_num))
  have h0 : Example.fresh.dense_z_inv.domain = .ok (0, 0) := rfl
  rw [h0] at hd
  simp only [Except.ok.injEq, Prod.mk.injEq] at hd
  obtain ⟨rfl, rfl⟩ := hd
  exact hiff.mpr (Or.inl (by norm_num))

/-- C19 (as amended): segment lookup, for the quintic and for the linear spline.
With at least two strictly increasing breakpoints `xs` and an in-domain query
`t`, the selected segment index `i + 1` is in range and
`xs[i] ≤ t ≤ xs[i + 1]`; moreover `t < xs[i + 1]` unless the final segment is
selected, so `t` lies in the interval `[xs[i], xs[i + 1])` closed on the left,
and a `t` equal to the last breakpoint selects the final segment. -/
theorem segment_lookup (xs : List ℚ) (hi : xs.Pairwise (· < ·)) (hlen : 2 ≤ xs.length) (t : ℚ)
    (h0 : xs.getD 0 0 ≤ t) (h1 : t ≤ xs.getD (xs.length - 1) 0) :
    ∃ i : ℕ, HermiteQuinticSplineND.segment xs t = (i : ℤ) + 1
      ∧ LinearSpline1D.segment xs t = (i : ℤ) + 1
      ∧ i + 1 < xs.length ∧ xs.getD i 0 ≤ t ∧ t ≤ xs.getD (i + 1) 0
      ∧ (t < xs.getD (i + 1) 0 ∨ i + 2 = xs.length)
      ∧ (t = xs.getD (xs.length - 1) 0 → i + 2 = xs.length) := by
  obtain ⟨i, hseg, hlt⟩ := HermiteQuinticSplineND.segment_range xs t hlen h0 h1
  obtain ⟨ha, hb, hc⟩ := HermiteQuinticSplineND.segment_bracket xs hi t hlen h1 i hseg
  refine ⟨i, hseg, hseg, hlt, ha, hb, ?_, fun ht => ?_⟩
  · rcases lt_or_eq_of_le hb with h | h
    · exact Or.inl h
    · exact Or.inr (hc h)
  · by_contra hne
    have hlt2 : i + 1 < xs.length - 1 := by omega
    have := increasing_getD_lt xs hi (i + 1) (xs.length - 1) hlt2 (by omega)
    rw [← ht] at this
    exact absurd hb (not_le.mpr this)

/-- Counterexample to C19 as stated: in the three-breakpoint quintic spline
`Example.three` (breakpoints `0, 2, 3`) the query `t = 2` selects segment `2`,
whose left end `t[1] = 2` is not strictly below `t`; in the linear spline
`Example.line` (breakpoints `0, 1`) the query `t = 0` selects segment `1`, whose
left end is `t[0] = 0`. -/
theorem segment_lookup_left_end :
    HermiteQuinticSplineND.segment Example.three.t_breaks 2 = 2
    ∧ ¬ (Example.three.t_breaks.getD 1 0 < 2 ∧ (2 : ℚ) ≤ Example.three.t_breaks.getD 2 0)
    ∧ LinearSpline1D.segment Example.line.t_breaks 0 = 1
    ∧ ¬ (Example.line.t_breaks.getD 0 0 < 0 ∧ (0 : ℚ) ≤ Example.line.t_breaks.getD 1 0) := by
  decide!

/-- Witness for C19: the spline `Example.three` queried at its interior
breakpoint `t = 2`. -/
theorem segment_lookup_witness :
    ∃ i : ℕ, HermiteQuinticSplineND.segment Example.three.t_breaks 2 = (i : ℤ) + 1
      ∧ LinearSpline1D.segment Example.three.t_breaks 2 = (i : ℤ) + 1
      ∧ i + 1 < Example.three.t_breaks.length ∧ Example.three.t_breaks.getD i 0 ≤ 2
      ∧ 2 ≤ Example.three.t_breaks.getD (i + 1) 0
      ∧ (2 < Example.three.t_breaks.getD (i + 1) 0 ∨ i + 2 = Example.three.t_breaks.length)
      ∧ ((2 : ℚ) = Example.three.t_breaks.getD (Example.three.t_breaks.length - 1) 0 →
          i + 2 = Example.three.t_breaks.length) :=
  segment_lookup Example.three.t_breaks Example.three_increasing (by decide) 2 (by decide!)
    (by decide!)

/-- C20, evaluated on the freshly constructed model `Example.fresh` (Bond number
`21/100`): the first sensitivity step appends the breakpoint at `tcur = 1/10`, and
the second derivative it stores is `ode_DBo` at arclength `21/100`, the Bond
number, not at `tcur = 1/10`, where `ode_DBo` gives `(0, 0)`. -/
theorem step_DBo_samples_at_bond :
    Example.fresh.bond = 21 / 100
    ∧ (state_after (Example.fresh.step_DBo 10)).map (fun m => m.dense_DBo.t_breaks)
        = some [0, 1 / 10]
    ∧ (state_after (Example.fresh.step_DBo 10)).map (fun m => m.dense_DBo.a_breaks.getLast?)
        = some (returned (Example.fresh.ode_DBo 10 (21 / 100) ![0, 0] ![0, 0]))
    ∧ returned (Example.fresh.ode_DBo 10 (1 / 10) ![0, 0] ![0, 0]) = some ![0, 0]
    ∧ (state_after (Example.fresh.step_DBo 10)).map (fun m => m.dense_DBo.a_breaks.getLast?)
        ≠ some (some ![0, 0]) :=
  ⟨rfl, by decide!, by decide!, by decide!, by decide!⟩

/-- C12 (as amended): copy equivalence.  For every model `m` and every copy `c`
of `m` made by the copy constructor or by copy assignment (to any target
`self`): (a) for every arclength `s` with `|s|` not beyond the frontier of the
shape cache of `m`, `shape(s)` on `c` and on `m` end with the same result `r`,
without a step and without changing either model; (b) if steps advance, `m` was
reached from construction by shape queries that returned, and the max-height
event of `m` is not latched, then for every arclength `s`, beyond the frontier
as well, `shape(s)` on `c` and on `m` end the same way, value or exception:
whatever the query on `m` ends with, the query on `c` ends with too, given fuel
for the steps that led to `m` in addition, and whatever the query on `c` ends
with, the query on `m` ends with too.  For a copy made by assignment, (b) assumes
that re-initialising restores a new integrator. -/
theorem copy_equivalence {E : Externals} (m : YoungLaplaceShape E) :
    (∀ (a frontier s : ℚ), m.dense.domain = .ok (a, frontier) → |s| ≤ frontier →
      ∃ r, (∀ fuel, m.call fuel s = some (r, m))
        ∧ (∀ c, m.copy = .ok c → ∀ fuel, c.call fuel s = some (r, c))
        ∧ (∀ (self : YoungLaplaceShape E) (fuel : ℕ), (self.operator_assign m).2.call fuel s
            = some (r, (self.operator_assign m).2)))
    ∧ (E.Advancing → m.Evaluated → m.max_z_solved = false →
        ∀ c : YoungLaplaceShape E, (m.copy = .ok c
            ∨ (YoungLaplaceShape.Restarting E
                ∧ ∃ self : YoungLaplaceShape E, self.operator_assign m = (.ok (), c))) →
          ∀ (s : ℚ) (fuel : ℕ) (r : Except Exn (Fin 2 → ℚ)),
            ((∃ m', m.call fuel s = some (r, m')) →
              ∃ c', c.call (fuel + m.dense.t_breaks.length) s = some (r, c'))
            ∧ ((∃ c', c.call fuel s = some (r, c')) → ∃ m', m.call fuel s = some (r, m'))) := by
  refine ⟨fun a frontier s hd hs => ?_, fun hadv hm hl c hc s fuel r => ?_⟩
  · obtain ⟨r, hr⟩ := YoungLaplaceShape.call_cached_dense (E := E) m.dense s a frontier hd
      (by rw [YoungLaplaceShape.rat_abs_arg]; exact hs)
    exact ⟨r, fun fuel => hr fuel m rfl,
      fun c hc fuel => hr fuel c (YoungLaplaceShape.copy_fields m c hc).2.1,
      fun self fuel => hr fuel _ (YoungLaplaceShape.assign_fields self m).2.1⟩
  · obtain ⟨bond, m0, k, hn, htr⟩ := YoungLaplaceShape.evaluated_trail hm
    have hb : m.bond = bond := by
      rw [(YoungLaplaceShape.trail_shapeExt htr).bond]
      exact (YoungLaplaceShape.new_caches bond m0 hn).1
    have hsh : YoungLaplaceShape.Shadow m.dense m0 c := by
      rcases hc with hc | ⟨hre, self, hc⟩
      · exact YoungLaplaceShape.copy_shadow hn hb hl hc
      · exact YoungLaplaceShape.assign_shadow hre hn hb hl hc
    obtain ⟨h1, h2⟩ := YoungLaplaceShape.call_shadow hadv hn htr hsh s fuel r
    refine ⟨fun h => ?_, h2⟩
    obtain ⟨c', hc'⟩ := h1 h
    have hlen : m.dense.t_breaks.length = k + 1 := by
      rw [YoungLaplaceShape.trail_length htr, (YoungLaplaceShape.new_caches bond m0 hn).2.1]
      exact Nat.add_comm 1 k
    refine ⟨c', ?_⟩
    rw [hlen, ← Nat.add_assoc]
    exact YoungLaplaceShape.call_mono (fuel + k) 1 c s _ hc'

/-- Counterexample to C12 as stated, for a source whose max-height event is
latched.  (1) Over the integrator `tracker (1/2)`, the model constructed with
Bond number `0.21` and queried at `shape(0.4)` has cached the breakpoints
`0, 0.1, 0.3, 0.5` and latched the event at the root `0.5`.  After copy
assignment of this model to a freshly constructed one, the in-range query
`shape(1)`, beyond the cached frontier, returns on both models, with different
results: the copy integrates again from `s = 0`, with root finding disabled,
through `0.1, 0.3, 0.9, 2.7`, while the source continues from `0.5` to `1.5`.
(2) Over the integrator `swell`, whose event function has a second root at `1`,
the model constructed and queried in the same way is latched at `0.5` as well.
On its copy by the copy constructor root finding is armed and stays armed, so
the in-range query `shape(1.2)` returns on both models, with different results:
the copy integrates again from `s = 0` and stops at both roots, through
`0.1, 0.3, 0.5, 1, 3`, while the source continues from `0.5` to `1.5`. -/
theorem latched_copy_differs :
    (YoungLaplaceShape.new (Example.tracker (1 / 2)) (21 / 100) = .ok (Example.sprout (1 / 2))
    ∧ (∃ r, (Example.sprout (1 / 2)).call 10 (2 / 5 : ℚ) = some (r, Example.latched))
    ∧ Example.latched_assigned = ((Example.sprout (1 / 2)).operator_assign Example.latched).2
    ∧ Example.latched.dense.t_breaks = [0, 1 / 10, 3 / 10, 1 / 2]
    ∧ ¬ ((1 : ℚ) < -YoungLaplaceShape.MAX_ARCLENGTH ∨ (1 : ℚ) > YoungLaplaceShape.MAX_ARCLENGTH)
    ∧ (returned (Example.latched.call 10 (1 : ℚ))).isSome = true
    ∧ (returned (Example.latched_assigned.call 10 (1 : ℚ))).isSome = true
    ∧ returned (Example.latched_assigned.call 10 (1 : ℚ))
        ≠ returned (Example.latched.call 10 (1 : ℚ))
    ∧ (state_after (Example.latched.call 10 (1 : ℚ))).map (fun m => m.dense.t_breaks)
        = some [0, 1 / 10, 3 / 10, 1 / 2, 3 / 2]
    ∧ (state_after (Example.latched_assigned.call 10 (1 : ℚ))).map (fun m => m.dense.t_breaks)
        = some [0, 1 / 10, 3 / 10, 1 / 2, 1 / 10, 3 / 10, 9 / 10, 27 / 10])
    ∧ (YoungLaplaceShape.new Example.swell (21 / 100) = .ok Example.bud
    ∧ (∃ r, Example.bud.call 10 (2 / 5 : ℚ) = some (r, Example.crested))
    ∧ Example.crested.copy = .ok Example.crested_copy
    ∧ Example.crested.max_z_solved = true
    ∧ Example.crested.dense.t_breaks = [0, 1 / 10, 3 / 10, 1 / 2]
    ∧ ¬ ((6 / 5 : ℚ) < -YoungLaplaceShape.MAX_ARCLENGTH
        ∨ (6 / 5 : ℚ) > YoungLaplaceShape.MAX_ARCLENGTH)
    ∧ (returned (Example.crested.call 10 (6 / 5 : ℚ))).isSome = true
    ∧ (returned (Example.crested_copy.call 10 (6 / 5 : ℚ))).isSome = true
    ∧ returned (Example.crested_copy.call 10 (6 / 5 : ℚ))
        ≠ returned (Example.crested.call 10 (6 / 5 : ℚ))
    ∧ (state_after (Example.crested.call 10 (6 / 5 : ℚ))).map (fun m => m.dense.t_breaks)
        = some [0, 1 / 10, 3 / 10, 1 / 2, 3 / 2]
    ∧ (state_after (Example.crested_copy.call 10 (6 / 5 : ℚ))).map (fun m => m.dense.t_breaks)
        = some [0, 1 / 10, 3 / 10, 1 / 2, 1 / 10, 3 / 10, 1 / 2, 1, 3]) :=
  ⟨⟨rfl, Example.latched_reached, rfl, by decide!, by norm_num [YoungLaplaceShape.MAX_ARCLENGTH],
    by decide!, by decide!, by decide!, by decide!, by decide!⟩,
   ⟨rfl, Example.crested_reached, Example.crested_copy_ok, by decide!, by decide!,
    by norm_num [YoungLaplaceShape.MAX_ARCLENGTH], by decide!, by decide!, by decide!,
    by decide!, by decide!⟩⟩

/-- Witness for C12: (a) the model `Example.latched`, whose shape cache reaches
arclength `1/2`, and its copy by the copy constructor, queried at `s = -2/5`;
(b) over the integrator with growth factor `3`, the model `Example.cached`, whose
shape cache reaches arclength `0.9` and whose event is not latched, its copy by
the copy constructor and its copy by assignment to the model `Example.fresh`,
queried at `s = 2`, beyond the frontier. -/
theorem copy_equivalence_witness :
    (∃ r, (∀ fuel, Example.latched.call fuel (-(2 / 5) : ℚ) = some (r, Example.latched))
      ∧ (∀ fuel, Example.latched_copy.call fuel (-(2 / 5) : ℚ)
          = some (r, Example.latched_copy)))
    ∧ (∃ r m' c' c'', Example.cached.call 10 (2 : ℚ) = some (r, m')
        ∧ Example.cached_copy.call (10 + Example.cached.dense.t_breaks.length) (2 : ℚ)
            = some (r, c')
        ∧ (Example.fresh.operator_assign Example.cached).1 = .ok ()
        ∧ (Example.fresh.operator_assign Example.cached).2.call
            (10 + Example.cached.dense.t_breaks.length) (2 : ℚ) = some (r, c'')) := by
  constructor
  · obtain ⟨r, h1, h2, -⟩ := (copy_equivalence Example.latched).1 0 (1 / 2) (-(2 / 5))
      Example.latched_domain (by rw [abs_neg, abs_of_pos] <;> norm_num)
    exact ⟨r, h1, h2 _ Example.latched_copy_ok⟩
  · have hsome : (Example.cached.call 10 (2 : ℚ)).isSome = true := by decide!
    obtain ⟨⟨r, m'⟩, h⟩ := Option.isSome_iff_exists.mp hsome
    have hok := Example.stepper_assign_ok Example.fresh Example.cached
    have hb := (copy_equivalence Example.cached).2 Example.stepper_advancing
      Example.cached_evaluated (by decide!)
    obtain ⟨c', hc'⟩ := (hb Example.cached_copy (Or.inl Example.cached_copy_ok) 2 10 r).1 ⟨m', h⟩
    obtain ⟨c'', hc''⟩ := (hb (Example.fresh.operator_assign Example.cached).2
      (Or.inr ⟨Example.stepper_restarting, Example.fresh, Prod.ext hok rfl⟩) 2 10 r).1 ⟨m', h⟩
    exact ⟨r, m', c', c'', h, hc', hok, hc''⟩

/-- C14 (as amended): cache ordering.  Assume each integrator step strictly
advances that integrator's own current time.  In every model state reached from
construction by any sequence of `shape`, `DBo`, `z_inv` and `closest` queries,
without a copy, the breakpoint abscissae of the shape cache and of the
sensitivity cache are strictly increasing.  And in every model state whatever,
each of these queries only appends to the two caches: the breakpoints held
before the query are the first breakpoints held after it, in the same order. -/
theorem cache_ordering {E : Externals} (hadv : E.Advancing) (m : YoungLaplaceShape E) :
    (m.Queried → m.dense.Increasing ∧ m.dense_DBo.Increasing)
    ∧ (∀ (T : Type) [DiffValue T] (fuel : ℕ) (s : T) r m', m.call fuel s = some (r, m') →
        m.dense.Prefix m'.dense ∧ m.dense_DBo.Prefix m'.dense_DBo)
    ∧ (∀ (T : Type) [DiffValue T] (fuel : ℕ) (s : T) r m', m.DBo fuel s = some (r, m') →
        m.dense.Prefix m'.dense ∧ m.dense_DBo.Prefix m'.dense_DBo)
    ∧ (∀ (T : Type) [DiffValue T] (fuel : ℕ) (z : T) r m', m.z_inv fuel z = some (r, m') →
        m.dense.Prefix m'.dense ∧ m.dense_DBo.Prefix m'.dense_DBo)
    ∧ (∀ (fuel : ℕ) (r z : ℚ) res m', m.closest fuel r z = some (res, m') →
        m.dense.Prefix m'.dense ∧ m.dense_DBo.Prefix m'.dense_DBo) := by
  refine ⟨fun hq => ?_, fun T _ fuel s r m' h => ?_, fun T _ fuel s r m' h => ?_,
    fun T _ fuel z r m' h => ?_, fun fuel r z res m' h => ?_⟩
  · obtain ⟨hs, hd⟩ := YoungLaplaceShape.queried_inv hq hadv
    exact ⟨hs.2.2.1, hd.1⟩
  · have := (YoungLaplaceShape.call_shapeExt fuel m s r m' h).toExt
    exact ⟨this.pref, this.pref_DBo⟩
  · have := YoungLaplaceShape.DBo_ext fuel m s r m' h
    exact ⟨this.pref, this.pref_DBo⟩
  · have := (YoungLaplaceShape.z_inv_shapeExt fuel m z r m' h).toExt
    exact ⟨this.pref, this.pref_DBo⟩
  · have := (YoungLaplaceShape.closest_shapeExt fuel m r z res m' h).toExt
    exact ⟨this.pref, this.pref_DBo⟩

/-- Counterexample to C14 as stated: over the integrator `stepper 3`, which
advances, the model constructed with Bond number `0.21` and queried at
`shape(0.5)` holds the breakpoints `0, 0.1, 0.3, 0.9`.  Its copy by the copy
constructor holds the same breakpoints, with its integrators at `s = 0`; the
query `shape(2)` on the copy appends `0.1, 0.3, 0.9, 2.7` after them, and the
abscissae of the shape cache are no longer increasing. -/
theorem copy_breaks_ordering :
    (Example.stepper 3).Advancing
    ∧ YoungLaplaceShape.new (Example.stepper 3) (21 / 100) = .ok Example.fresh
    ∧ (∃ r, Example.fresh.call 10 (1 / 2 : ℚ) = some (r, Example.cached))
    ∧ Example.cached.copy = .ok Example.cached_copy
    ∧ Example.cached.dense.t_breaks = [0, 1 / 10, 3 / 10, 9 / 10]
    ∧ (state_after (Example.cached_copy.call 10 (2 : ℚ))).map (fun m => m.dense.t_breaks)
        = some [0, 1 / 10, 3 / 10, 9 / 10, 1 / 10, 3 / 10, 9 / 10, 27 / 10]
    ∧ ¬ ([0, 1 / 10, 3 / 10, 9 / 10, 1 / 10, 3 / 10, 9 / 10, 27 / 10] : List ℚ).Pairwise (· < ·) :=
  ⟨Example.stepper_advancing, rfl, Example.cached_reached, Example.cached_copy_ok, by decide!,
    by decide!, by decide!⟩

/-- Witness for C14: the model `Example.cached`, reached from construction by
the query `shape(0.5)` over the integrator `stepper 3`. -/
theorem cache_ordering_witness :
    Example.cached.dense.Increasing ∧ Example.cached.dense_DBo.Increasing :=
  (cache_ordering Example.stepper_advancing Example.cached).1 Example.cached_queried

/-- C16: apex value.  Assume each integrator step strictly advances that
integrator's own current time.  For every model state reached from construction
(with any Bond number) by queries, without a copy, `shape(0)` returns exactly
`(r, z) = (0, 0)`; under a differentiable query of order at least 2 its first
derivatives are `(dr/ds, dz/ds) = (1, 0)` and its second derivatives `(0, 1)`;
the call returns the same for every amount of fuel, zero included, and leaves the
model unchanged, so it triggers no integration step. -/
theorem apex_value {E : Externals} (hadv : E.Advancing) (m : YoungLaplaceShape E)
    (hq : m.Queried) :
    (∀ fuel, m.call fuel (0 : ℚ) = some (.ok ![0, 0], m))
    ∧ ∀ n, 2 ≤ n → ∃ f : Fin 2 → FVar n,
        (∀ fuel, m.call fuel (FVar.make_fvar n 0) = some (.ok f, m))
        ∧ (f 0).derivative 0 = 0 ∧ (f 1).derivative 0 = 0
        ∧ (f 0).derivative 1 = 1 ∧ (f 1).derivative 1 = 0
        ∧ (f 0).derivative 2 = 0 ∧ (f 1).derivative 2 = 1 := by
  have hinv := (YoungLaplaceShape.queried_inv hq hadv).1
  refine ⟨fun fuel => YoungLaplaceShape.call_apex_rat hinv fuel, fun n hn => ?_⟩
  obtain ⟨f, hf, a0, a1, a2, b0, b1, b2⟩ := YoungLaplaceShape.call_apex_fvar hinv n hn
  refine ⟨f, hf, ?_, ?_, ?_, ?_, ?_, ?_⟩
  · simp [FVar.derivative, a0]
  · simp [FVar.derivative, b0]
  · simp [FVar.derivative, a1]
  · simp [FVar.derivative, b1]
  · simp [FVar.derivative, a2]
  · simp [FVar.derivative, b2, Nat.factorial]

/-- Witness for C16: the model `Example.cached`, reached from construction with
Bond number `0.21` by the query `shape(0.5)` over the integrator `stepper 3`. -/
theorem apex_value_witness :
    Example.cached.call 0 (0 : ℚ) = some (.ok ![0, 0], Example.cached) :=
  (apex_value Example.stepper_advancing Example.cached Example.cached_queried).1 0

/-- C17: assume each integrator step strictly advances that integrator's own
current time.  For every model state reached from construction (with any Bond
number) by queries, without a copy, and every `z ≤ 0`, `closest(0, z)` returns
arclength exactly `0`: the initial guess is `0`; at the first Newton step the
squared distance `e2` has `e2'(0) = 0` and `e2''(0) = 2 (1 - z) > 0`; one
iteration of the loop ends it at `s = 0`; and the call returns for every amount
of fuel, zero included, and leaves the model unchanged, so it triggers no
integration step. -/
theorem closest_apex {E : Externals} (hadv : E.Advancing) (m : YoungLaplaceShape E)
    (hq : m.Queried) (z : ℚ) (hz : z ≤ 0) :
    (∀ fuel, m.closest fuel 0 z = some (.ok 0, m))
    ∧ (∀ fuel, m.closest_guess fuel z = some (.ok 0, m))
    ∧ (∃ f : Fin 2 → FVar 2, (∀ fuel, m.call fuel (FVar.make_fvar 2 0) = some (.ok f, m))
        ∧ (((DiffValue.ofReal 0 - f 0) * (DiffValue.ofReal 0 - f 0)
            + (DiffValue.ofReal z - f 1) * (DiffValue.ofReal z - f 1) : FVar 2)).derivative 1 = 0
        ∧ (((DiffValue.ofReal 0 - f 0) * (DiffValue.ofReal 0 - f 0)
            + (DiffValue.ofReal z - f 1) * (DiffValue.ofReal z - f 1) : FVar 2)).derivative 2
            = 2 * (1 - z))
    ∧ 0 < 2 * (1 - z)
    ∧ (∀ fuel, m.closest_loop fuel 0 z 1 0 = some (.ok 0, m)) := by
  have hinv := (YoungLaplaceShape.queried_inv hq hadv).1
  have hg : ∀ fuel, m.closest_guess fuel z = some (.ok 0, m) := fun fuel => by
    unfold YoungLaplaceShape.closest_guess
    rw [if_neg (not_lt.mpr hz)]
  refine ⟨fun fuel => ?_, hg, ?_, by linarith,
    fun fuel => YoungLaplaceShape.closest_loop_apex hinv fuel 0 z⟩
  · unfold YoungLaplaceShape.closest
    rw [hg fuel]
    dsimp only
    rw [if_neg (lt_irrefl _)]
    exact YoungLaplaceShape.closest_loop_apex hinv fuel _ z
  · obtain ⟨f, hf, hc⟩ := YoungLaplaceShape.call_apex_fvar hinv 2 (le_refl 2)
    exact ⟨f, hf, YoungLaplaceShape.apex_distance z f hc⟩

/-- Witness for C17: `closest(0.0, -1.0)` returns `0.0` on the model constructed
with Bond number `0.21`. -/
theorem closest_apex_witness :
    Example.fresh.closest 0 0 (-1) = some (.ok 0, Example.fresh) :=
  (closest_apex Example.stepper_advancing Example.fresh Example.fresh_queried (-1)
    (by norm_num)).1 0

/-- C18 (as amended): on a model whose shape cache starts at `s = 0`, for all
inputs `(r, z)`, `closest(r, z)` fails with a domain error only if `z > 0` and
`z_inv(z)` returned an initial guess beyond `MAX_ARCLENGTH` in magnitude.  An
out-of-domain `z_inv` is replaced by the guess `MAX_ARCLENGTH` and is not passed
on; from any iterate within `[-MAX_ARCLENGTH, MAX_ARCLENGTH]` the Newton loop
never fails with a domain error, every later iterate being clamped into that
range; and with no iterations left the loop returns the last iterate. -/
theorem closest_no_domain_error {E : Externals} (m : YoungLaplaceShape E) (fuel : ℕ) (r z : ℚ)
    (h0 : m.dense.t_breaks.head? = some 0) :
    (thrown (m.closest fuel r z) = some .domain_error →
      0 < z ∧ ∃ s m1, m.z_inv fuel z = some (.ok s, m1) ∧ YoungLaplaceShape.MAX_ARCLENGTH < |s|)
    ∧ thrown (m.closest_guess fuel z) ≠ some .domain_error
    ∧ (thrown (m.z_inv fuel z) = some .domain_error → 0 < z →
        ∃ m1, m.closest_guess fuel z = some (.ok YoungLaplaceShape.MAX_ARCLENGTH, m1))
    ∧ (∀ (n : ℕ) (m1 : YoungLaplaceShape E) (s : ℚ), m1.dense.t_breaks.head? = some 0 →
        |s| ≤ YoungLaplaceShape.MAX_ARCLENGTH →
        thrown (m1.closest_loop fuel r z n s) ≠ some .domain_error)
    ∧ (∀ (m1 : YoungLaplaceShape E) (s : ℚ), m1.closest_loop fuel r z 0 s = some (.ok s, m1)) := by
  have hloop : ∀ (n : ℕ) (m1 : YoungLaplaceShape E) (s : ℚ), m1.dense.t_breaks.head? = some 0 →
      |s| ≤ YoungLaplaceShape.MAX_ARCLENGTH →
      thrown (m1.closest_loop fuel r z n s) ≠ some .domain_error := fun n m1 s h1 hs =>
    YoungLaplaceShape.closest_loop_no_domain_error fuel r z n m1 s h1
      (by rw [not_or, not_lt, not_lt]; exact abs_le.mp hs)
  refine ⟨fun ht => ?_, YoungLaplaceShape.closest_guess_no_domain_error fuel m z,
    fun hz hpos => ?_, hloop, fun m1 s => by rw [YoungLaplaceShape.closest_loop]⟩
  · unfold YoungLaplaceShape.closest at ht
    cases hg : m.closest_guess fuel z with
    | none => rw [hg] at ht; simp [thrown] at ht
    | some p =>
      obtain ⟨r1, m1⟩ := p
      have hng := YoungLaplaceShape.closest_guess_no_domain_error fuel m z
      rw [hg] at ht hng
      cases r1 with
      | error e => exact absurd ht hng
      | ok s =>
        dsimp only at ht
        have hh := (YoungLaplaceShape.closest_guess_shapeExt _ _ _ _ _ hg).head? 0 h0
        have hM : (0 : ℚ) < YoungLaplaceShape.MAX_ARCLENGTH := by
          norm_num [YoungLaplaceShape.MAX_ARCLENGTH]
        have hbig : YoungLaplaceShape.MAX_ARCLENGTH < |s| := by
          by_contra hle
          have hle' : |s| ≤ YoungLaplaceShape.MAX_ARCLENGTH := not_lt.mp hle
          refine hloop _ m1 (if r < 0 then s * (-1) else s) hh ?_ ht
          split_ifs
          · rw [mul_neg_one, abs_neg]; exact hle'
          · exact hle'
        rcases YoungLaplaceShape.closest_guess_cases fuel m z s m1 hg with
          ⟨-, rfl⟩ | ⟨-, -, rfl⟩ | ⟨hz, hzi⟩
        · rw [abs_zero] at hbig; linarith
        · rw [abs_of_pos hM] at hbig; exact absurd hbig (lt_irrefl _)
        · exact ⟨hz, s, m1, hzi, hbig⟩
  · unfold YoungLaplaceShape.closest_guess
    rw [if_pos hpos]
    cases hw : m.z_inv fuel z with
    | none => rw [hw] at hz; simp [thrown] at hz
    | some p =>
      obtain ⟨r1, m1⟩ := p
      rw [hw] at hz
      cases r1 with
      | error e =>
        simp only [thrown, Option.some.injEq] at hz
        subst hz
        exact ⟨m1, rfl⟩
      | ok s => simp [thrown] at hz

/-- Counterexample to C18 as stated: over the integrator `tracker 1000`, whose
steps end at `0.1, 0.3, ..., 72.9, 218.7` and whose height keeps rising until
arclength `1000`, on the model constructed with Bond number `0.21`,
`z_inv(200000)` returns the arclength `18405677/170840`, which is more than
`MAX_ARCLENGTH = 100`, and `closest(1, 200000)` evaluates the shape at that
initial guess and fails with a domain error. -/
theorem closest_domain_error :
    YoungLaplaceShape.new (Example.tracker 1000) (21 / 100) = .ok (Example.sprout 1000)
    ∧ returned ((Example.sprout 1000).z_inv 10 (200000 : ℚ)) = some (18405677 / 170840)
    ∧ YoungLaplaceShape.MAX_ARCLENGTH < (18405677 / 170840 : ℚ)
    ∧ thrown ((Example.sprout 1000).closest 10 1 200000) = some .domain_error :=
  ⟨rfl, by decide!, by norm_num [YoungLaplaceShape.MAX_ARCLENGTH], by decide!⟩

/-- Witness for C18: `closest(0, -1)` on the freshly constructed model
`Example.fresh` does not fail with a domain error. -/
theorem closest_no_domain_error_witness :
    thrown (Example.fresh.closest 10 0 (-1)) ≠ some .domain_error := fun h =>
  absurd ((closest_no_domain_error Example.fresh 10 0 (-1) rfl).1 h).1 (by norm_num)

/-- C23: event latch.  Once `max_z_solved` is true, `step()` and every `shape`,
`z_inv` and `closest` query, whether it returns or throws, leave `max_z_solved`
true and leave the inverse-height lookup unchanged.  While `max_z_solved` is
false, a `step()` that returns appends exactly one pair to the lookup, the new
height `z` with the new arclength `tcur`, and it sets the latch iff the
integrator reported a root, the pair of that step being appended; a `step()` that
throws appends nothing and leaves the latch clear. -/
theorem event_latch {E : Externals} (m : YoungLaplaceShape E) :
    (m.max_z_solved = true →
      ((YoungLaplaceShape.step m).2.max_z_solved = true
        ∧ (YoungLaplaceShape.step m).2.dense_z_inv = m.dense_z_inv)
      ∧ (∀ (T : Type) [DiffValue T] (fuel : ℕ) (s : T) r m', m.call fuel s = some (r, m') →
          m'.max_z_solved = true ∧ m'.dense_z_inv = m.dense_z_inv)
      ∧ (∀ (T : Type) [DiffValue T] (fuel : ℕ) (z : T) r m', m.z_inv fuel z = some (r, m') →
          m'.max_z_solved = true ∧ m'.dense_z_inv = m.dense_z_inv)
      ∧ (∀ (fuel : ℕ) (r z : ℚ) res m', m.closest fuel r z = some (res, m') →
          m'.max_z_solved = true ∧ m'.dense_z_inv = m.dense_z_inv))
    ∧ (m.max_z_solved = false →
      ((YoungLaplaceShape.step m).1 = .ok () →
        (YoungLaplaceShape.step m).2.dense_z_inv.t_breaks = m.dense_z_inv.t_breaks ++
          [(Evolve.run (YoungLaplaceShape.arkrhs m)
            (E.ERKStepEvolve m.arkode_mem (E.tnext m.arkode_mem) m.nv)).2.2.1 1]
        ∧ (YoungLaplaceShape.step m).2.dense_z_inv.y_breaks = m.dense_z_inv.y_breaks ++
          [(Evolve.run (YoungLaplaceShape.arkrhs m)
            (E.ERKStepEvolve m.arkode_mem (E.tnext m.arkode_mem) m.nv)).2.2.2]
        ∧ ((YoungLaplaceShape.step m).2.max_z_solved = true ↔
            (Evolve.run (YoungLaplaceShape.arkrhs m)
              (E.ERKStepEvolve m.arkode_mem (E.tnext m.arkode_mem) m.nv)).1 = ARK_ROOT_RETURN))
      ∧ (∀ e, (YoungLaplaceShape.step m).1 = .error e →
          (YoungLaplaceShape.step m).2.dense_z_inv = m.dense_z_inv
            ∧ (YoungLaplaceShape.step m).2.max_z_solved = false)) := by
  have hrefl : ∀ a : YoungLaplaceShape E,
      a.max_z_solved = true → a.max_z_solved = true ∧ a.dense_z_inv = a.dense_z_inv :=
    fun a h => ⟨h, rfl⟩
  have htrans : ∀ a b c : YoungLaplaceShape E,
      (a.max_z_solved = true → b.max_z_solved = true ∧ b.dense_z_inv = a.dense_z_inv) →
      (b.max_z_solved = true → c.max_z_solved = true ∧ c.dense_z_inv = b.dense_z_inv) →
      (a.max_z_solved = true → c.max_z_solved = true ∧ c.dense_z_inv = a.dense_z_inv) :=
    fun a b c h1 h2 h => ⟨(h2 (h1 h).1).1, (h2 (h1 h).1).2.trans (h1 h).2⟩
  refine ⟨fun h => ⟨YoungLaplaceShape.step_latched m h, fun T _ fuel s r m' hc => ?_,
    fun T _ fuel z r m' hc => ?_, fun fuel r z res m' hc => ?_⟩, fun h => ⟨fun hok => ?_, ?_⟩⟩
  · exact YoungLaplaceShape.call_rel
      (fun a b => a.max_z_solved = true → b.max_z_solved = true ∧ b.dense_z_inv = a.dense_z_inv)
      hrefl htrans YoungLaplaceShape.step_latched fuel m s r m' hc h
  · exact YoungLaplaceShape.z_inv_rel
      (fun a b => a.max_z_solved = true → b.max_z_solved = true ∧ b.dense_z_inv = a.dense_z_inv)
      hrefl htrans YoungLaplaceShape.step_latched fuel m z r m' hc h
  · exact YoungLaplaceShape.closest_rel
      (fun a b => a.max_z_solved = true → b.max_z_solved = true ∧ b.dense_z_inv = a.dense_z_inv)
      hrefl htrans YoungLaplaceShape.step_latched fuel m r z res m' hc h
  · obtain ⟨h1, h2⟩ := (YoungLaplaceShape.step_unlatched m h).1 hok
    rw [h1]
    exact ⟨(YoungLaplaceShape.lookup_push_back _ _ _).1,
      (YoungLaplaceShape.lookup_push_back _ _ _).2, h2⟩
  · exact (YoungLaplaceShape.step_unlatched m h).2

/-- Witness for C23: the latched model `Example.latched`, and the freshly
constructed model `Example.sprout (1/2)`, whose latch is clear. -/
theorem event_latch_witness :
    ((YoungLaplaceShape.step Example.latched).2.max_z_solved = true
      ∧ (YoungLaplaceShape.step Example.latched).2.dense_z_inv = Example.latched.dense_z_inv)
    ∧ (∀ e, (YoungLaplaceShape.step (Example.sprout (1 / 2))).1 = .error e →
        (YoungLaplaceShape.step (Example.sprout (1 / 2))).2.dense_z_inv
            = (Example.sprout (1 / 2)).dense_z_inv
          ∧ (YoungLaplaceShape.step (Example.sprout (1 / 2))).2.max_z_solved = false) :=
  ⟨((event_latch Example.latched).1 (by decide!)).1,
    ((event_latch (Example.sprout (1 / 2))).2 rfl).2⟩

/-- C28: apex consistency.  For every Bond number and every positive value of
the perturbation, at the initial condition `(r, z, dr/ds, dz/ds) = (0, 0, 1, 0)`
the curvature term of `ode` is `dphi/ds = 1` and `ode` yields
`(d2r/ds2, d2z/ds2) = (0, 1)`, which is the acceleration that the constructor
stores with the first breakpoint of the shape cache. -/
theorem apex_consistency {E : Externals} (hpos : 0 < E.denorm_min) (m : YoungLaplaceShape E) :
    2 - m.bond * 0 - (0 + E.denorm_min) / (0 + E.denorm_min) = 1
    ∧ m.ode ![0, 0] ![1, 0] = ![0, 1]
    ∧ (∀ bond m', YoungLaplaceShape.new E bond = .ok m' →
        m'.dense.t_breaks = [0] ∧ m'.dense.y_breaks = [![0, 0]] ∧ m'.dense.v_breaks = [![1, 0]]
          ∧ m'.dense.a_breaks = [m'.ode ![0, 0] ![1, 0]]) := by
  have hne : E.denorm_min ≠ 0 := ne_of_gt hpos
  have hode : ∀ m : YoungLaplaceShape E, m.ode ![0, 0] ![1, 0] = ![0, 1] := by
    intro m
    unfold YoungLaplaceShape.ode
    simp [hne]
    norm_num
  refine ⟨by simp [hne]; norm_num, hode m, fun bond m' h => ?_⟩
  obtain ⟨-, hd, -, -, -⟩ := YoungLaplaceShape.new_caches bond m' h
  rw [hode m', hd]
  exact ⟨rfl, rfl, rfl, rfl⟩

/-- Witness for C28: the model `Example.fresh`, constructed with Bond number
`0.21` over the integrator `stepper 3`, whose perturbation is `2^-1074`. -/
theorem apex_consistency_witness :
    Example.fresh.ode ![0, 0] ![1, 0] = ![0, 1]
    ∧ Example.fresh.dense.a_breaks = [Example.fresh.ode ![0, 0] ![1, 0]] :=
  ⟨(apex_consistency (E := Example.stepper 3) (by norm_num [Example.stepper]) Example.fresh).2.1,
    ((apex_consistency (E := Example.stepper 3) (by norm_num [Example.stepper])
      Example.fresh).2.2 (21 / 100) Example.fresh rfl).2.2.2⟩

/-- C25: for every `HermiteQuinticSplineND` built by `push_back` that holds
exactly one breakpoint `(t0; y, v, a)`, evaluation at an in-domain query `t` of any
query type is the second-order Taylor polynomial `y + e v + (1/2) e^2 a` in
`e = t - t0`, per component; consequently, for a differentiable query at `t0` of
any order `n`, the derivatives of orders 0, 1, 2 are `y`, `v`, `a` (as far as the
order `n` reaches) and every derivative of order at least 3 is `0`. -/
theorem single_breakpoint_taylor {N : ℕ} (s : HermiteQuinticSplineND N) (hb : s.Built)
    (hlen : s.t_breaks.length = 1) :
    (∀ (T : Type) [DiffValue T] (t : T), DiffValue.toReal t = s.t_breaks.getD 0 0 →
      s.call t = .ok (fun j =>
        DiffValue.ofReal (s.y_breaks.getD 0 0 j)
          + (t - DiffValue.ofReal (s.t_breaks.getD 0 0)) * DiffValue.ofReal (s.v_breaks.getD 0 0 j)
          + DiffValue.ofReal (1/2) * (t - DiffValue.ofReal (s.t_breaks.getD 0 0))
              * (t - DiffValue.ofReal (s.t_breaks.getD 0 0))
              * DiffValue.ofReal (s.a_breaks.getD 0 0 j)))
    ∧ ∀ n, ∃ f, s.call (FVar.make_fvar n (s.t_breaks.getD 0 0)) = .ok f ∧
        ∀ j, (f j).derivative 0 = s.y_breaks.getD 0 0 j
          ∧ (1 ≤ n → (f j).derivative 1 = s.v_breaks.getD 0 0 j)
          ∧ (2 ≤ n → (f j).derivative 2 = s.a_breaks.getD 0 0 j)
          ∧ ∀ i, 3 ≤ i → (f j).derivative i = 0 := by
  refine ⟨fun T _ t ht => ?_, fun n => ?_⟩
  · have hcd : s.check_domain (DiffValue.toReal t) = .ok () :=
      HermiteQuinticSplineND.check_domain_ok s _ (by omega) (le_of_eq ht.symm)
        (by rw [hlen, ht])
    exact HermiteQuinticSplineND.call_single hb t hcd hlen
  · obtain ⟨f, hf, hj⟩ := HermiteQuinticSplineND.call_single_jet hb hlen n
    refine ⟨f, hf, fun j => ?_⟩
    obtain ⟨h0, h1, h2, h3⟩ := hj j
    refine ⟨?_, fun hn => ?_, fun hn => ?_, fun i hi => ?_⟩
    · simp [FVar.derivative, h0]
    · simp [FVar.derivative, h1 hn]
    · simp [FVar.derivative, h2 hn, Nat.factorial]
    · simp [FVar.derivative, h3 i hi]

/-- Witness for C25: the breakpoint `(1; 2, 3, 4)` of
`test_hermite_quintic_spline_single_breakpoint`, queried at order 4: the
derivatives of orders 0 to 4 are `2, 3, 4, 0, 0`. -/
theorem single_breakpoint_taylor_witness :
    ∃ f, Example.single.call (FVar.make_fvar 4 1) = .ok f
      ∧ (f 0).derivative 0 = 2 ∧ (f 0).derivative 1 = 3 ∧ (f 0).derivative 2 = 4
      ∧ (f 0).derivative 3 = 0 ∧ (f 0).derivative 4 = 0 := by
  obtain ⟨f, hf, hj⟩ := (single_breakpoint_taylor Example.single
    (.push_back _ _ _ _ _ .empty) rfl).2 4
  obtain ⟨h0, h1, h2, h3⟩ := hj 0
  exact ⟨f, hf, h0, h1 (by norm_num), h2 (by norm_num), h3 3 (le_refl 3), h3 4 (by norm_num)⟩

/-- C29: linear interpolation stays between its neighbours.  For every
`LinearSpline1D` built by `push_back` with at least two strictly increasing
breakpoints and every in-domain `t`, with selected segment `i + 1`, the result
lies between `y[i]` and `y[i + 1]` inclusive; hence if the stored `y` values are
non-decreasing the spline is non-decreasing in `t`; and when such a spline is the
lookup after a `z_inv(z)` that returns, the arclength returned lies between the
arclengths of two neighbouring cached points whose heights bracket `z`. -/
theorem linear_between_neighbours (s : LinearSpline1D) (hb : s.Built) (hi : s.Increasing)
    (hlen : 2 ≤ s.t_breaks.length) :
    (∀ t : ℚ, s.t_breaks.getD 0 0 ≤ t → t ≤ s.t_breaks.getD (s.t_breaks.length - 1) 0 →
      ∃ (i : ℕ) (ans : ℚ), LinearSpline1D.segment s.t_breaks t = (i : ℤ) + 1
        ∧ i + 1 < s.t_breaks.length ∧ s.call t = .ok ans
        ∧ s.t_breaks.getD i 0 ≤ t ∧ t ≤ s.t_breaks.getD (i + 1) 0
        ∧ min (s.y_breaks.getD i 0) (s.y_breaks.getD (i + 1) 0) ≤ ans
        ∧ ans ≤ max (s.y_breaks.getD i 0) (s.y_breaks.getD (i + 1) 0))
    ∧ (s.y_breaks.Pairwise (· ≤ ·) →
      ∀ t t' : ℚ, s.t_breaks.getD 0 0 ≤ t → t ≤ t' →
        t' ≤ s.t_breaks.getD (s.t_breaks.length - 1) 0 →
        ∃ a a' : ℚ, s.call t = .ok a ∧ s.call t' = .ok a' ∧ a ≤ a')
    ∧ (∀ (E : Externals) (m m' : YoungLaplaceShape E) (fuel : ℕ) (z ans : ℚ),
      m'.dense_z_inv = s → m.z_inv fuel z = some (.ok ans, m') →
      ∃ i : ℕ, i + 1 < s.t_breaks.length
        ∧ s.t_breaks.getD i 0 ≤ z ∧ z ≤ s.t_breaks.getD (i + 1) 0
        ∧ min (s.y_breaks.getD i 0) (s.y_breaks.getD (i + 1) 0) ≤ ans
        ∧ ans ≤ max (s.y_breaks.getD i 0) (s.y_breaks.getD (i + 1) 0)) := by
  have key : ∀ t : ℚ, s.t_breaks.getD 0 0 ≤ t → t ≤ s.t_breaks.getD (s.t_breaks.length - 1) 0 →
      ∃ i : ℕ, LinearSpline1D.segment s.t_breaks t = (i : ℤ) + 1
        ∧ i + 1 < s.t_breaks.length
        ∧ s.call t = .ok (s.y_breaks.getD i 0
            + (s.y_breaks.getD (i + 1) 0 - s.y_breaks.getD i 0)
                / (s.t_breaks.getD (i + 1) 0 - s.t_breaks.getD i 0) * (t - s.t_breaks.getD i 0))
        ∧ s.t_breaks.getD i 0 ≤ t ∧ t ≤ s.t_breaks.getD (i + 1) 0
        ∧ s.t_breaks.getD i 0 < s.t_breaks.getD (i + 1) 0 := by
    intro t h0 h1
    obtain ⟨i, hseg, hi1, hcall, -⟩ := LinearSpline1D.linear_call_in_domain hb hlen t h0 h1
    obtain ⟨ha, hb', -⟩ := HermiteQuinticSplineND.segment_bracket s.t_breaks hi t hlen h1 i hseg
    exact ⟨i, hseg, hi1, hcall, ha, hb',
      increasing_getD_lt _ hi i (i + 1) (by omega) hi1⟩
  have part1 : ∀ t : ℚ, s.t_breaks.getD 0 0 ≤ t →
      t ≤ s.t_breaks.getD (s.t_breaks.length - 1) 0 →
      ∃ (i : ℕ) (ans : ℚ), LinearSpline1D.segment s.t_breaks t = (i : ℤ) + 1
        ∧ i + 1 < s.t_breaks.length ∧ s.call t = .ok ans
        ∧ s.t_breaks.getD i 0 ≤ t ∧ t ≤ s.t_breaks.getD (i + 1) 0
        ∧ min (s.y_breaks.getD i 0) (s.y_breaks.getD (i + 1) 0) ≤ ans
        ∧ ans ≤ max (s.y_breaks.getD i 0) (s.y_breaks.getD (i + 1) 0) := by
    intro t h0 h1
    obtain ⟨i, hseg, hi1, hcall, ha, hb', hlt⟩ := key t h0 h1
    obtain ⟨h3, h4⟩ := lerp_between (s.y_breaks.getD i 0) (s.y_breaks.getD (i + 1) 0) _ _ t
      hlt ha hb'
    exact ⟨i, _, hseg, hi1, hcall, ha, hb', h3, h4⟩
  refine ⟨part1, fun hy t t' h0 htt h1 => ?_, fun E m m' fuel z ans hs hz => ?_⟩
  · obtain ⟨hyl, -, -⟩ := LinearSpline1D.linear_built_invariant hb
    obtain ⟨i, hseg, hi1, hcall, ha, hb', hlt⟩ := key t h0 (le_trans htt h1)
    obtain ⟨i', hseg', hi1', hcall', ha', hb'', hlt'⟩ := key t' (le_trans h0 htt) h1
    refine ⟨_, _, hcall, hcall', ?_⟩
    rcases Nat.lt_trichotomy i i' with hlt2 | heq | hgt
    · -- an earlier segment: compare through the breakpoint values between them
      have h5 := (lerp_between (s.y_breaks.getD i 0) (s.y_breaks.getD (i + 1) 0) _ _ t
        hlt ha hb').2
      have h6 := (lerp_between (s.y_breaks.getD i' 0) (s.y_breaks.getD (i' + 1) 0) _ _ t'
        hlt' ha' hb'').1
      have y1 := nondecreasing_getD_le _ hy i (i + 1) (by omega) (by omega)
      have y2 := nondecreasing_getD_le _ hy (i + 1) i' (by omega) (by omega)
      have y3 := nondecreasing_getD_le _ hy i' (i' + 1) (by omega) (by omega)
      rw [max_eq_right y1] at h5
      rw [min_eq_left y3] at h6
      linarith
    · subst heq
      exact lerp_mono _ _ _ _ t t' hlt
        (nondecreasing_getD_le _ hy i (i + 1) (by omega) (by omega)) htt
    · -- a later segment is impossible unless the two queries coincide
      have h7 := increasing_getD_le _ hi (i' + 1) i (by omega) (by omega)
      have e1 : t = t' := le_antisymm htt (by linarith)
      have e2 : t' = s.t_breaks.getD (i' + 1) 0 := le_antisymm hb'' (by linarith)
      have h8 := (HermiteQuinticSplineND.segment_bracket s.t_breaks hi t' hlen h1 i' hseg').2.2 e2
      omega
  · subst hs
    obtain ⟨hcd, hcall⟩ := YoungLaplaceShape.z_inv_ok fuel m m' z ans hz
    obtain ⟨-, h0, h1⟩ := LinearSpline1D.linear_bounds_of_check_domain _ _ hcd
    obtain ⟨i, a, -, hi1, hc, ha, hb', h3, h4⟩ := part1 z h0 h1
    rw [hcall] at hc
    cases hc
    exact ⟨i, hi1, ha, hb', h3, h4⟩

/-- Witness for C29: the linear spline of `test_linear_spline_1d_call`
(breakpoints `(0, 0), (1, 1)`) queried at `t = 1/2`. -/
theorem linear_between_neighbours_witness :
    ∃ (i : ℕ) (ans : ℚ), LinearSpline1D.segment Example.line.t_breaks (1 / 2) = (i : ℤ) + 1
      ∧ i + 1 < Example.line.t_breaks.length ∧ Example.line.call (1 / 2 : ℚ) = .ok ans
      ∧ Example.line.t_breaks.getD i 0 ≤ 1 / 2 ∧ 1 / 2 ≤ Example.line.t_breaks.getD (i + 1) 0
      ∧ min (Example.line.y_breaks.getD i 0) (Example.line.y_breaks.getD (i + 1) 0) ≤ ans
      ∧ ans ≤ max (Example.line.y_breaks.getD i 0) (Example.line.y_breaks.getD (i + 1) 0) :=
  (linear_between_neighbours Example.line Example.line_built Example.line_increasing
    (by decide)).1 (1 / 2) (by decide!) (by decide!)

/-- C21: with the apex perturbation taken as `0`, `ode_DBo` is the derivative
with respect to the Bond number `B` of the right-hand side of `ode` along the
trajectory.  Writing `phi' = 2 - B z - z'/r` and
`phi'_B = -z - B z_B - z'_B/r + r_B z'/r^2`: once the shape has been sampled as
`(r, z, r', z')`, `ode_DBo` at the sensitivities `(r_B, z_B)`, `(r'_B, z'_B)`
returns `(-z'_B phi' - z' phi'_B, r'_B phi' + r' phi'_B)`; and whenever
`r, z, r', z'` depend differentiably on `B`, with derivatives
`r_B, z_B, r'_B, z'_B` and `r ≠ 0`, these two values are the derivatives with
respect to `B` of the two outputs `(-z' phi', r' phi')` of `ode`. -/
theorem ode_DBo_is_derivative {E : Externals} (hE : E.denorm_min = 0)
    (m : YoungLaplaceShape E) :
    (∀ (fuel : ℕ) (s rB zB r'B z'B : ℚ) (f : Fin 2 → FVar 1) (m' : YoungLaplaceShape E),
      m.call fuel (FVar.make_fvar 1 s) = some (.ok f, m') →
      m.ode_DBo fuel s ![rB, zB] ![r'B, z'B] = some (.ok
        ![-z'B * (2 - m'.bond * (f 1).derivative 0 - (f 1).derivative 1 / (f 0).derivative 0)
            - (f 1).derivative 1 * (-((f 1).derivative 0) - zB * m'.bond
                - z'B / (f 0).derivative 0
                + rB * (f 1).derivative 1 / ((f 0).derivative 0 * (f 0).derivative 0)),
          r'B * (2 - m'.bond * (f 1).derivative 0 - (f 1).derivative 1 / (f 0).derivative 0)
            + (f 0).derivative 1 * (-((f 1).derivative 0) - zB * m'.bond
                - z'B / (f 0).derivative 0
                + rB * (f 1).derivative 1 / ((f 0).derivative 0 * (f 0).derivative 0))], m'))
    ∧ (∀ (r z r' z' : ℚ → ℚ) (B rB zB r'B z'B : ℚ), r B ≠ 0 →
      HasDerivAt r rB B → HasDerivAt z zB B → HasDerivAt r' r'B B → HasDerivAt z' z'B B →
      HasDerivAt (fun b => YoungLaplaceShape.ode { m with bond := b } ![r b, z b] ![r' b, z' b] 0)
          (-z'B * (2 - B * z B - z' B / r B)
            - z' B * (-(z B) - zB * B - z'B / r B + rB * z' B / (r B * r B))) B
        ∧ HasDerivAt
          (fun b => YoungLaplaceShape.ode { m with bond := b } ![r b, z b] ![r' b, z' b] 1)
          (r'B * (2 - B * z B - z' B / r B)
            + r' B * (-(z B) - zB * B - z'B / r B + rB * z' B / (r B * r B))) B) := by
  refine ⟨fun fuel s rB zB r'B z'B f m' h => ?_,
    fun r z r' z' B rB zB r'B z'B hr h1 h2 h3 h4 =>
      YoungLaplaceShape.ode_hasDerivAt hE m r z r' z' B rB zB r'B z'B hr h1 h2 h3 h4⟩
  rw [YoungLaplaceShape.ode_DBo_eq hE fuel m m' s _ _ f h]
  simp

/-- Witness for C21: over the integrator `ideal 1000`, whose perturbation is `0`,
the trajectory `r = B, z = B, r' = 1, z' = B` at `B = 1`. -/
theorem ode_DBo_is_derivative_witness :
    HasDerivAt (fun b : ℚ =>
        YoungLaplaceShape.ode { Example.pearl with bond := b } ![b, b] ![1, b] 0)
      (-1 * (2 - 1 * 1 - 1 / 1) - 1 * (-(1 : ℚ) - 1 * 1 - 1 / 1 + 1 * 1 / (1 * 1))) 1 :=
  ((ode_DBo_is_derivative (E := Example.ideal 1000) rfl Example.pearl).2
    (fun b => b) (fun b => b) (fun _ => 1) (fun b => b) 1 1 1 0 1 one_ne_zero
    (hasDerivAt_id 1) (hasDerivAt_id 1) (hasDerivAt_const 1 1) (hasDerivAt_id 1)).1

/-- C24 (as amended): runaway guard of `shape` and of the Newton loop.  Once the
frontier of the shape cache has reached `MAX_ARCLENGTH`, no `shape` query of any
query type, and no iteration of the Newton loop of `closest`, triggers an
integration step: the call ends with the same result for every amount of fuel,
zero included, and leaves the model unchanged.  The loop of `z_inv` has another
guard: it runs no step when the frontier of the lookup is at or beyond the
requested height or the max-height event is latched. -/
theorem runaway_guard {E : Externals} (m : YoungLaplaceShape E) (a frontier : ℚ)
    (hd : m.dense.domain = .ok (a, frontier))
    (hmax : YoungLaplaceShape.MAX_ARCLENGTH ≤ frontier) :
    (∀ (T : Type) [DiffValue T] (s : T), ∃ r, ∀ fuel, m.call fuel s = some (r, m))
    ∧ (∀ (r z : ℚ) (n : ℕ) (s : ℚ),
        (∀ fuel, m.closest_loop fuel r z n s = m.closest_loop 0 r z n s)
          ∧ ∃ res, m.closest_loop 0 r z n s = some (res, m))
    ∧ (∀ (T : Type) [DiffValue T] (z : T) (a' b' : ℚ), m.dense_z_inv.domain = .ok (a', b') →
        ¬ (b' < DiffValue.toReal z ∧ m.max_z_solved = false) →
        ∃ r, ∀ fuel, m.z_inv fuel z = some (r, m)) :=
  ⟨fun _ _ s => YoungLaplaceShape.call_no_step m s a frontier hd hmax,
    fun r z n s => YoungLaplaceShape.closest_loop_no_step m a frontier hd hmax r z n s,
    fun _ _ z a' b' hd' h => YoungLaplaceShape.z_inv_no_step m z a' b' hd' h⟩

/-- Counterexample to C24 as stated: the model `Example.tall` (Bond number
`0.21` over the integrator `tracker 1000`, after the query `z_inv(200000)`) has
the frontier `218.7` of its shape cache beyond `MAX_ARCLENGTH = 100`, and its
max-height event is not latched.  The query `z_inv(500000)` on it takes one more
step, to arclength `656.1`, and so does `closest(1, 500000)`, through its
initial guess. -/
theorem z_inv_steps_beyond_max :
    (∃ r, (Example.sprout 1000).z_inv 10 (200000 : ℚ) = some (r, Example.tall))
    ∧ Example.tall.dense.domain = .ok (0, 2187 / 10)
    ∧ YoungLaplaceShape.MAX_ARCLENGTH ≤ (2187 / 10 : ℚ)
    ∧ Example.tall.max_z_solved = false
    ∧ (state_after (Example.tall.z_inv 10 (500000 : ℚ))).map (fun m => m.dense.t_breaks)
        = some [0, 1 / 10, 3 / 10, 9 / 10, 27 / 10, 81 / 10, 243 / 10, 729 / 10, 2187 / 10,
            6561 / 10]
    ∧ (state_after (Example.tall.closest 10 1 (500000 : ℚ))).map (fun m => m.dense.t_breaks)
        = some [0, 1 / 10, 3 / 10, 9 / 10, 27 / 10, 81 / 10, 243 / 10, 729 / 10, 2187 / 10,
            6561 / 10] :=
  ⟨Example.tall_reached, Example.tall_domain, by norm_num [YoungLaplaceShape.MAX_ARCLENGTH],
    by decide!, by decide!, by decide!⟩

/-- Witness for C24: the model `Example.tall`, whose shape cache reaches
arclength `218.7`, queried at `shape(50)`. -/
theorem runaway_guard_witness :
    ∃ r, ∀ fuel, Example.tall.call fuel (50 : ℚ) = some (r, Example.tall) :=
  (runaway_guard Example.tall 0 (2187 / 10) Example.tall_domain
    (by norm_num [YoungLaplaceShape.MAX_ARCLENGTH])).1 ℚ 50

/-- C27: appending preserves earlier results.  For every non-empty
`HermiteQuinticSplineND` built by `push_back` with strictly increasing
breakpoints, and every `push_back` of a breakpoint with `t'` greater than the
last one, the plain value of `operator()(t)` is returned and is unchanged for
every `t` in the previous domain, the previous last breakpoint included. -/
theorem push_back_preserves_values {N : ℕ} (s : HermiteQuinticSplineND N) (hb : s.Built)
    (hi : s.Increasing) (hne : 0 < s.t_breaks.length) (t' : ℚ) (y v a : Fin N → ℚ)
    (hgt : s.t_breaks.getD (s.t_breaks.length - 1) 0 < t') (t : ℚ)
    (h0 : s.t_breaks.getD 0 0 ≤ t) (h1 : t ≤ s.t_breaks.getD (s.t_breaks.length - 1) 0) :
    ∃ f : Fin N → ℚ, s.call t = .ok f ∧ (s.push_back t' y v a).call t = .ok f := by
  have heq := HermiteQuinticSplineND.call_push_back hb hi hne t' y v a hgt t h0 h1
  have hcd : s.check_domain (DiffValue.toReal t) = .ok () :=
    HermiteQuinticSplineND.check_domain_ok s t hne h0 h1
  cases hc : s.call t with
  | error e =>
    exfalso
    have he := HermiteQuinticSplineND.call_error_of_check_domain_ok s t hcd e hc
    subst he
    by_cases hlen : s.t_breaks.length = 1
    · rw [HermiteQuinticSplineND.call_single hb t hcd hlen] at hc
      cases hc
    · obtain ⟨i, hseg, hi1⟩ := HermiteQuinticSplineND.segment_range s.t_breaks t (by omega)
        h0 h1
      rw [HermiteQuinticSplineND.call_eq_interpolate s t hcd hlen, rat_toReal, hseg,
        HermiteQuinticSplineND.interpolate_ok hb i hi1] at hc
      cases hc
  | ok f =>
    rw [hc] at heq
    exact ⟨f, rfl, heq⟩

/-- Witness for C27: the spline of `test_hermite_quintic_spline_call`
(breakpoints `0, 1`) extended by a breakpoint at `2`, queried at the previous
last breakpoint `t = 1`. -/
theorem push_back_preserves_values_witness :
    ∃ f : Fin 1 → ℚ, Example.sine.call (1 : ℚ) = .ok f
      ∧ (Example.sine.push_back 2 ![0] ![0] ![0]).call (1 : ℚ) = .ok f :=
  push_back_preserves_values Example.sine Example.sine_built Example.sine_increasing
    (by decide) 2 ![0] ![0] ![0] (by decide!) 1 (by decide!) (by decide!)

end opendrop
